import Mathlib

/-!
# ImGuiFs: path algebra, archive path splitting and navigation history

A shallow embedding of the string/path helpers and of the browsing history of
`addons/imguifilesystem/imguifilesystem.cpp` (POSIX build, `IMGUI_USE_MINIZIP`
defined), followed by theorems about them.

Modelling conventions:
* a C string is the list of its characters before the terminating NUL;
* C `int` indices are `Int` (the source uses `-1` for "not found"); no path
  comes near `INT_MAX`, so no wrap-around is modelled;
* the fixed-size buffers (`MAX_PATH_BYTES`, `MAX_FILENAME_BYTES`) are taken to
  be large enough, i.e. strings are unbounded;
* an output buffer `char* rv` becomes the returned value.
-/

namespace ImGuiFs

/-- Contents of a NUL-terminated C string. -/
abbrev CStr := List Char

/-- The `tolower` of `<ctype.h>` in the "C" locale. -/
def tolower (c : Char) : Char :=
  if 65 ≤ c.toNat ∧ c.toNat ≤ 90 then Char.ofNat (c.toNat + 32) else c

/-- Upper-case ASCII letter. -/
def isUpperAscii (c : Char) : Prop := 65 ≤ c.toNat ∧ c.toNat ≤ 90

instance (c : Char) : Decidable (isUpperAscii c) := by
  unfold isUpperAscii; infer_instance

/-- Path separator: `/` or `\`. -/
def isSep (c : Char) : Bool := c == '/' || c == '\\'

namespace String

/-- `String::Substr(text,rv,start,count)`; `count < 0` means "to the end". -/
def Substr (text : CStr) (start : Int) (count : Int) : CStr :=
  let count := if count < 0 then (text.length : Int) - start else count
  if count > 0 then (text.drop start.toNat).take count.toNat else []

/-- Loop of `String::Find`: scans `rest` (whose first character has index `i`). -/
def Find.go (toFind : Char) : CStr → Nat → Int
  | [], _ => -1
  | ch :: rest, i => if ch = toFind then (i : Int) else Find.go toFind rest (i + 1)

/-- `String::Find(text,toFind,beg)`. -/
def Find (text : CStr) (toFind : Char) (beg : Nat) : Int :=
  Find.go toFind (text.drop beg) beg

/-- Loop of `String::FindLastOf`: `n` is `i+1` for the loop index `i`. -/
def FindLastOf.go (text : CStr) (toFind : Char) : Nat → Int
  | 0 => -1
  | i + 1 => if text[i]? = some toFind then (i : Int) else FindLastOf.go text toFind i

/-- `String::FindLastOf(text,toFind)`. -/
def FindLastOf (text : CStr) (toFind : Char) : Int :=
  FindLastOf.go text toFind text.length

/-- `String::ToLowerInPlace(text)`. -/
def ToLowerInPlace (text : CStr) : CStr := text.map tolower

/-- `String::ReplaceInPlace(text,toReplace,replacement)`. -/
def ReplaceInPlace (text : CStr) (toReplace replacement : Char) : CStr :=
  text.map (fun c => if c = toReplace then replacement else c)

/-- `String::Replace(baseText,textToReplace,replacement,rv)`. -/
def Replace (baseText : CStr) (textToReplace replacement : Char) : CStr :=
  ReplaceInPlace baseText textToReplace replacement

end String

namespace Path

/-- Body of `Path::GetDirectoryName`; `fuel` bounds the depth of the
recursion, and `none` says that the bound was reached before the function
returned. -/
def GetDirectoryName.go : Nat → CStr → Option CStr
  | 0, _ => none
  | fuel + 1, filePath =>
    let sz : Int := filePath.length
    if sz = 0 ∨ filePath = ['/'] ∨ filePath = ['\\'] then some filePath
    else
      let c := filePath.getLast?
      if c = some '/' ∨ c = some '\\' then
        GetDirectoryName.go fuel (String.Substr filePath 0 (sz - 1))
      else if c = some ':' then some filePath
      else
        let beg := String.FindLastOf filePath '\\'
        let beg2 := String.FindLastOf filePath '/'
        let beg := if beg > beg2 then beg else beg2
        if beg = 0 then some (String.Substr filePath 0 1)
        else if beg ≠ -1 then some (String.Substr filePath 0 beg)
        else some []

/-- `Path::GetDirectoryName(filePath,rv)`, run with `length + 1` levels of
recursion: every recursive call removes one character, so the bound is never
reached (`GetDirectoryName_fuel`). -/
def GetDirectoryName (filePath : CStr) : CStr :=
  (GetDirectoryName.go (filePath.length + 1) filePath).getD []

/-- `Path::GetFileName(filePath,rv)`. -/
def GetFileName (filePath : CStr) : CStr :=
  let beg := String.FindLastOf filePath '\\'
  let beg2 := String.FindLastOf filePath '/'
  let beg := if beg > beg2 then beg else beg2
  if beg ≠ -1 then String.Substr filePath (beg + 1) (-1)
  else filePath

/-- `Path::GetExtension(filePath,rv)`, branch by branch. `none` stands for
falling out of the first `if/else if/else` cascade without returning. -/
def GetExtension (filePath : CStr) : CStr :=
  let beg := String.FindLastOf filePath '.'
  let beg2 := String.FindLastOf filePath '/'
  let beg3 := String.FindLastOf filePath '\\'
  let step : Option CStr × Int :=
    if beg2 ≠ -1 then
      if beg3 ≠ -1 then (none, beg3)
      else (none, if beg2 > beg3 then beg2 else beg3)
    else if beg3 ≠ -1 then (none, beg3)
    else if beg ≠ -1 then
      (some (String.ToLowerInPlace (String.Substr filePath beg (-1))), beg2)
    else (none, beg2)
  match step with
  | (some rv, _) => rv
  | (none, beg2) =>
    if beg > beg2 ∧ beg ≠ -1 then String.ToLowerInPlace (String.Substr filePath beg (-1))
    else []

/-- `Path::Combine(directory,fileName,rv,appendMode)`: `rv` is read when
`appendMode` is set, and the new content of `rv` is returned. -/
def Combine (directory fileName rv : CStr) (appendMode : Bool) : CStr :=
  let rv := if !appendMode then [] else rv
  let size := directory.length
  if size = 0 then rv ++ fileName
  else
    let rv := rv ++ directory
    let last := directory.getLast?
    if last ≠ some '\\' ∧ last ≠ some '/' then (rv ++ ['/']) ++ fileName
    else rv ++ fileName

/-- The trailing-separator stripping loop of `Path::Append`. -/
def Append.strip : Nat → CStr → CStr
  | 0, rv => rv
  | fuel + 1, rv =>
    if rv.length > 0 ∧ (rv.getLast? = some '\\' ∨ rv.getLast? = some '/') then
      Append.strip fuel rv.dropLast
    else rv

/-- `Path::Append(directory,rv)`, returning the new content of `rv`. -/
def Append (directory rv : CStr) : CStr :=
  if directory.length = 0 then rv
  else
    let size := rv.length
    let rv := if size > 0 ∧ (rv.getLast? ≠ some '\\' ∧ rv.getLast? ≠ some '/') then rv ++ ['/'] else rv
    let rv := rv ++ directory
    let rv := Append.strip rv.length rv
    if rv.length = 0 ∨ rv.getLast? = some ':' then rv ++ ['/'] else rv

/-- The `while ((beg = String::Find(tex,sep)) != -1)` loop of `Path::Split`:
returns the segments pushed so far and the remaining text. -/
def Split.loop (leaveIntermediateTrailingSlashes : Bool) : Nat → CStr → List CStr → List CStr × CStr
  | 0, tex, rv => (rv, tex)
  | fuel + 1, tex, rv =>
    let beg := String.Find tex '/' 0
    if beg ≠ -1 then
      let tmp := String.Substr tex 0 (if leaveIntermediateTrailingSlashes then beg + 1 else beg)
      Split.loop leaveIntermediateTrailingSlashes fuel (String.Substr tex (beg + 1) (-1)) (rv ++ [tmp])
    else (rv, tex)

/-- `Path::Split(path,rv,leaveIntermediateTrailingSlashes)` without the
`_WIN32` blocks. Each turn of the loop removes at least one character of
`tex`, so `length` turns suffice. -/
def Split (path : CStr) (leaveIntermediateTrailingSlashes : Bool) : List CStr :=
  let tex := String.Replace path '\\' '/'
  let len := tex.length
  if len = 0 then []
  else
    let (rv, tex) := Split.loop leaveIntermediateTrailingSlashes len tex []
    let rv := rv ++ [tex]
    match rv with
    | [] => rv
    | first :: others => if first.length = 0 then ['/'] :: others else rv

end Path

/-- The inner `while (c==lowerZip[gc] || c==upperZip[gc])` loop shared by
`PathSplitFirstZipFolder` and `GetSplitPathIndexOfZipFile`: starting with
`c = path[i+gc]`, reports whether `gc` reaches `numCharsToMath = 4`. Reading
`path[len]` yields the terminating NUL. -/
def zipMatch.go (path : CStr) (i : Nat) : Nat → Nat → Bool
  | 0, _ => false
  | fuel + 1, gc =>
    let c := path.getD (i + gc) '\x00'
    if c = ".zip".toList.getD gc '\x00' ∨ c = ".ZIP".toList.getD gc '\x00' then
      if gc + 1 = 4 then true else zipMatch.go path i fuel (gc + 1)
    else false

/-- The inner loop started at `gc = 0`; it runs at most four times. -/
def zipMatch (path : CStr) (i : Nat) : Bool := zipMatch.go path i 4 0

namespace UnZipFileImpl

/-- The outer `for (i=0; i<=isz; i++)` loop of `PathSplitFirstZipFolder`:
the first `i` at which the inner loop reaches the `return true`. -/
def PathSplitFirstZipFolder.scan (path : CStr) (isz : Int) : Nat → Nat → Option Nat
  | 0, _ => none
  | fuel + 1, i =>
    if (i : Int) ≤ isz then
      if zipMatch path i then some i else PathSplitFirstZipFolder.scan path isz fuel (i + 1)
    else none

/-- The loop `while (gc<isz && (path[gc]=='/' || path[gc]=='\\')) ++gc;`. -/
def PathSplitFirstZipFolder.skip (path : CStr) (isz : Int) : Nat → Nat → Nat
  | 0, gc => gc
  | fuel + 1, gc =>
    if (gc : Int) < isz ∧ (path.getD gc '\x00' = '/' ∨ path.getD gc '\x00' = '\\') then
      PathSplitFirstZipFolder.skip path isz fuel (gc + 1)
    else gc

/-- `UnZipFileImpl::PathSplitFirstZipFolder(path,rv1,rv2,rv1IsAbsolutePath)`,
returning `(result, rv1, rv2)`. `GetAbsolutePath` stands for
`Path::GetAbsolutePath`, which asks the operating system (`realpath`). -/
def PathSplitFirstZipFolder (GetAbsolutePath : CStr → CStr) (path : Option CStr)
    (rv1IsAbsolutePath : Bool) : Bool × CStr × CStr :=
  match path with
  | none => (false, [], [])
  | some path =>
    let numCharsToMath : Nat := ".zip".toList.length
    let isz : Int := (path.length : Int) - numCharsToMath
    match PathSplitFirstZipFolder.scan path isz (path.length + 1) 0 with
    | some i =>
      let gc := PathSplitFirstZipFolder.skip path isz path.length (i + numCharsToMath)
      let rv2 := path.drop gc
      let rv3 := path.take (i + numCharsToMath)
      (true, if rv1IsAbsolutePath then GetAbsolutePath rv3 else rv3, rv2)
    | none => (false, if rv1IsAbsolutePath then GetAbsolutePath path else path, [])

end UnZipFileImpl

/-- `struct FolderInfo`. -/
structure FolderInfo where
  fullFolder : CStr
  currentFolder : CStr
  splitPathIndex : Int
  splitPathIndexOfZipFile : Int
  deriving DecidableEq, Repr

namespace FolderInfo

/-- The state left by `FolderInfo::reset()`. -/
def reset : FolderInfo := ⟨[], [], -1, -1⟩

instance : Inhabited FolderInfo := ⟨reset⟩

/-- The `for (j=0; j<jsz; j++)` loop of `GetSplitPathIndexOfZipFile`. -/
def GetSplitPathIndexOfZipFile.go (jsz : Nat) : List CStr → Nat → Int
  | [], _ => -1
  | path :: rest, j =>
    let numCharsToMath : Int := 4
    let sz : Int := path.length
    let startCharToMatch : Int := if (j : Int) = (jsz : Int) - 1 then numCharsToMath else numCharsToMath + 1
    if sz ≤ startCharToMatch then GetSplitPathIndexOfZipFile.go jsz rest (j + 1)
    else
      let i := sz - startCharToMatch
      if zipMatch path i.toNat then (j : Int)
      else GetSplitPathIndexOfZipFile.go jsz rest (j + 1)

/-- `FolderInfo::GetSplitPathIndexOfZipFile(SplitPath)`. -/
def GetSplitPathIndexOfZipFile (SplitPath : List CStr) : Int :=
  GetSplitPathIndexOfZipFile.go SplitPath.length SplitPath 0

/-- `FolderInfo::fromCurrentFolder(path)`. -/
def fromCurrentFolder (_self : FolderInfo) (path : Option CStr) : FolderInfo :=
  match path with
  | none => reset
  | some path =>
    if path.length = 0 then reset
    else
      let SplitPath := Path.Split path true
      { currentFolder := path
        fullFolder := path
        splitPathIndex := (SplitPath.length : Int) - 1
        splitPathIndexOfZipFile := GetSplitPathIndexOfZipFile SplitPath }

/-- `FolderInfo::isEqual(const FolderInfo&)`. -/
def isEqual (self fi : FolderInfo) : Bool :=
  self.fullFolder == fi.fullFolder && self.currentFolder == fi.currentFolder

/-- `FolderInfo::isEqual(const char*)`. -/
def isEqualPath (self : FolderInfo) (path : CStr) : Bool :=
  self.fullFolder == path && self.currentFolder == path

/-- The `for` loop of `getSplitPathIndexFor`: `tmp` accumulates the segments
with `Path::Append`; the first index at which it equals `path` is returned. -/
def getSplitPathIndexFor.go (path : CStr) : List CStr → CStr → Nat → Int
  | [], _, _ => -1
  | seg :: rest, tmp, i =>
    let tmp := Path.Append seg tmp
    if tmp = path then (i : Int) else getSplitPathIndexFor.go path rest tmp (i + 1)

/-- `FolderInfo::getSplitPathIndexFor(path)`; `strncmp(path,fullFolder,strlen(path))==0`
says that `path` is a prefix of `fullFolder`. -/
def getSplitPathIndexFor (self : FolderInfo) (path : Option CStr) : Int :=
  match path with
  | none => -1
  | some path =>
    if ¬ path.isPrefixOf self.fullFolder then -1
    else getSplitPathIndexFor.go path (Path.Split self.fullFolder true) [] 0

end FolderInfo

/-- Modelled from the spec: `ImVector<T>::resize(new_size)` of the GUI library
header, which is not among the sources. It sets the size to `new_size`,
keeping the first `new_size` elements; the spec words this as "truncates the
sequence to length `i+1` then appends the new entry". Slots gained by growing
are unspecified in the library and are overwritten by every caller here. -/
def ImVector.resize {α : Type} [Inhabited α] (v : List α) (new_size : Nat) : List α :=
  v.take new_size ++ List.replicate (new_size - v.length) default

/-- Modelled from the spec: the storage of an `ImVector<T>` (GUI library
header, not among the sources; the spec has the history as a sequence and
does not describe its storage). `resize(new_size)` moves the elements to a new
block and frees the old one exactly when `new_size` exceeds `Capacity`; the
capacity of the new block is the library's `_grow_capacity(new_size)`: 8 for a
vector without storage, else half as much again, and at least `new_size`. -/
def ImVector.grow_capacity (Capacity new_size : Nat) : Nat :=
  let new_capacity := if Capacity ≠ 0 then Capacity + Capacity / 2 else 8
  if new_capacity > new_size then new_capacity else new_size

/-- Modelled from the spec: the `Capacity` that `resize(new_size)` leaves. -/
def ImVector.resizeCapacity (Capacity new_size : Nat) : Nat :=
  if new_size > Capacity then ImVector.grow_capacity Capacity new_size else Capacity

/-- `struct History`. `Capacity` is `info.Capacity`: the number of entries
that the storage of `info` has room for. -/
structure History where
  info : List FolderInfo
  currentInfoIndex : Int
  Capacity : Nat
  deriving DecidableEq, Repr

namespace History

/-- `History::canGoBack()`. -/
def canGoBack (h : History) : Bool := decide (h.currentInfoIndex > 0)

/-- `History::canGoForward()`. -/
def canGoForward (h : History) : Bool :=
  decide (h.currentInfoIndex ≥ 0) && decide (h.currentInfoIndex < (h.info.length : Int) - 1)

/-- `History::reset()`; `info.clear()` gives the storage back. -/
def reset : History := ⟨[], -1, 0⟩

/-- `History::goBack()`. -/
def goBack (h : History) : History :=
  if h.canGoBack then { h with currentInfoIndex := h.currentInfoIndex - 1 } else h

/-- `History::goForward()`. -/
def goForward (h : History) : History :=
  if h.canGoForward then { h with currentInfoIndex := h.currentInfoIndex + 1 } else h

/-- The element `info[i]`. -/
def infoAt (h : History) (i : Int) : FolderInfo := h.info.getD i.toNat default

/-- `History::switchTo(const char* currentFolder)`: the returned flag and the
new state, or `none` when the call has no defined outcome. `lastInfo` is a
reference to the entry under the cursor, taken before `info.resize`; the
statement `fi = lastInfo` reads it after `info.resize`, so when the resize
has moved the storage (`new_size > Capacity`) it reads a freed block, and
that case is `none`. Without a move the entry read is the one that was under
the cursor. `currentFolder` is a buffer of the caller. -/
def switchTo (h : History) (currentFolder : Option CStr) : Option (Bool × History) :=
  match currentFolder with
  | none => some (false, h)
  | some currentFolder =>
    if currentFolder.length = 0 then some (false, h)
    else if h.currentInfoIndex < 0 then
      let currentInfoIndex := h.currentInfoIndex + 1
      let info := ImVector.resize h.info (currentInfoIndex + 1).toNat
      let fi := (info.getD currentInfoIndex.toNat default).fromCurrentFolder (some currentFolder)
      some (true, ⟨info.set currentInfoIndex.toNat fi, currentInfoIndex,
        ImVector.resizeCapacity h.Capacity (currentInfoIndex + 1).toNat⟩)
    else
      let lastInfo := h.infoAt h.currentInfoIndex
      if lastInfo.isEqualPath currentFolder then some (false, h)
      else
        let splitPathIndexInsideLastInfo := lastInfo.getSplitPathIndexFor (some currentFolder)
        let currentInfoIndex := h.currentInfoIndex + 1
        let info := ImVector.resize h.info (currentInfoIndex + 1).toNat
        if splitPathIndexInsideLastInfo = -1 then
          let fi :=
            (info.getD currentInfoIndex.toNat default).fromCurrentFolder (some currentFolder)
          some (true, ⟨info.set currentInfoIndex.toNat fi, currentInfoIndex,
            ImVector.resizeCapacity h.Capacity (currentInfoIndex + 1).toNat⟩)
        else if (currentInfoIndex + 1).toNat > h.Capacity then none
        else
          let fi :=
            { lastInfo with
              splitPathIndex := splitPathIndexInsideLastInfo
              currentFolder := currentFolder }
          some (true, ⟨info.set currentInfoIndex.toNat fi, currentInfoIndex,
            ImVector.resizeCapacity h.Capacity (currentInfoIndex + 1).toNat⟩)

/-- `History::switchTo(const FolderInfo& fi)`. `lastInfo` is read before the
resize only, and `fi` is an object of the caller (the dialog passes a local
`FolderInfo`), not an entry of `info`. -/
def switchToFolderInfo (h : History) (fi : FolderInfo) : Bool × History :=
  if fi.currentFolder.length = 0 then (false, h)
  else if h.currentInfoIndex ≥ 0 ∧ (h.infoAt h.currentInfoIndex).isEqual fi then (false, h)
  else
    let currentInfoIndex := h.currentInfoIndex + 1
    let info := ImVector.resize h.info (currentInfoIndex + 1).toNat
    (true, ⟨info.set currentInfoIndex.toNat fi, currentInfoIndex,
      ImVector.resizeCapacity h.Capacity (currentInfoIndex + 1).toNat⟩)

/-- `History::isValid()`. -/
def isValid (h : History) : Bool :=
  decide (h.currentInfoIndex ≥ 0) && decide (h.currentInfoIndex < (h.info.length : Int))

/-- `History::getCurrentFolder()`; `none` is the NULL pointer. -/
def getCurrentFolder (h : History) : Option CStr :=
  if h.isValid then some (h.infoAt h.currentInfoIndex).currentFolder else none

/-- The states a `History` can be in: those produced from `reset()` by its
public mutators. A `switchTo(const char*)` call that reads the freed entry has
no defined outcome; should it return, it has resized the sequence, moved the
cursor and written an entry of unknown content (`freed`) behind it, and that
state counts as reachable too. -/
inductive Reachable : History → Prop
  | reset : Reachable History.reset
  | switchTo (h : History) (currentFolder : Option CStr) (r : Bool × History) :
      Reachable h → h.switchTo currentFolder = some r → Reachable r.2
  | switchToFreed (h : History) (currentFolder : Option CStr) (freed : FolderInfo) :
      Reachable h → h.switchTo currentFolder = none →
      Reachable ⟨(ImVector.resize h.info (h.currentInfoIndex + 1 + 1).toNat).set
          (h.currentInfoIndex + 1).toNat freed,
        h.currentInfoIndex + 1,
        ImVector.resizeCapacity h.Capacity (h.currentInfoIndex + 1 + 1).toNat⟩
  | switchToFolderInfo (h : History) (fi : FolderInfo) :
      Reachable h → Reachable (h.switchToFolderInfo fi).2
  | goBack (h : History) : Reachable h → Reachable h.goBack
  | goForward (h : History) : Reachable h → Reachable h.goForward

end History

namespace String

/-- The `for` loop of `String::Split`: `rest` is the text from index `i` on,
`beg` the start of the current piece; returns the pieces pushed and the last
`beg`. -/
def Split.go (text : CStr) (c : Char) : CStr → Nat → Nat → List CStr → List CStr × Nat
  | [], _, beg, rv => (rv, beg)
  | ch :: rest, i, beg, rv =>
    if ch = c then
      Split.go text c rest (i + 1) (i + 1) (rv ++ [Substr text beg ((i : Int) - beg)])
    else Split.go text c rest (i + 1) beg rv

/-- `String::Split(text,rv,c)` for a non-null `text`. -/
def Split (text : CStr) (c : Char) : List CStr :=
  let len := text.length
  if len = 0 then []
  else
    let (rv, beg) := Split.go text c text 0 0 []
    if beg < len then rv ++ [Substr text beg ((len : Int) - beg)] else rv

/-- `String::ToLower(text,rv)`; `none` is the NULL pointer. -/
def ToLower (text : Option CStr) : CStr :=
  match text with
  | none => []
  | some text => text.map tolower

end String

/-- `p == 0 || strlen(p) == 0` for a nullable C string. -/
def isNullOrEmpty (p : Option CStr) : Bool :=
  match p with
  | none => true
  | some s => s.length == 0

namespace Directory

/-- The inner `for (e...)` loop of the wanted-extensions branch: the file is
pushed once for every entry equal to its extension (there is no `break`). -/
def GetFiles.pushWanted (ext file name : CStr) : List CStr → List CStr × List CStr →
    List CStr × List CStr
  | [], acc => acc
  | w :: wExts, acc =>
    GetFiles.pushWanted ext file name wExts
      (if ext = w then (acc.1 ++ [file], acc.2 ++ [name]) else acc)

/-- The outer loop of the wanted-extensions branch over `filesIn[i]`, `namesIn[i]`. -/
def GetFiles.wantedLoop (wExts : List CStr) : List (CStr × CStr) → List CStr × List CStr →
    List CStr × List CStr
  | [], acc => acc
  | (file, name) :: rest, acc =>
    GetFiles.wantedLoop wExts rest
      (GetFiles.pushWanted (Path.GetExtension file) file name wExts acc)

/-- The loop of the unwanted-extensions branch (`match` / `break`). -/
def GetFiles.unwantedLoop (woExts : List CStr) : List (CStr × CStr) → List CStr × List CStr →
    List CStr × List CStr
  | [], acc => acc
  | (file, name) :: rest, acc =>
    GetFiles.unwantedLoop woExts rest
      (if woExts.any (fun w => decide (Path.GetExtension file = w)) then acc
       else (acc.1 ++ [file], acc.2 ++ [name]))

/-- `Directory::GetFiles(path,files,wantedExtensions,unwantedExtensions,pOptionalNamesOut,sorting)`.
`filesIn` and `namesIn` are what the unfiltered `GetFiles(path,filesIn,&namesIn,sorting)`
delivers (a directory scan, so two lists of the same length); `names0` is the
previous content of `*pOptionalNamesOut`. Returns the new `files` and names. -/
def GetFiles (filesIn namesIn : List CStr) (wantedExtensions unwantedExtensions : Option CStr)
    (names0 : List CStr) : List CStr × List CStr :=
  if isNullOrEmpty wantedExtensions && isNullOrEmpty unwantedExtensions then (filesIn, names0)
  else
    let wext := String.ToLower wantedExtensions
    let woext := String.ToLower unwantedExtensions
    if !isNullOrEmpty wantedExtensions then
      let wExts := String.Split wext ';'
      if wExts.length > 0 then GetFiles.wantedLoop wExts (filesIn.zip namesIn) ([], [])
      else ([], [])
    else if !isNullOrEmpty unwantedExtensions then
      let woExts := String.Split woext ';'
      if woExts.length = 0 then (filesIn, [])
      else GetFiles.unwantedLoop woExts (filesIn.zip namesIn) ([], [])
    else (filesIn, namesIn)

end Directory

/-- The fields of `struct Internal` (and the result buffer `rv = I.chosenPath`)
that the selection button of `ChooseFileMainMethod` and the entry points of
`Dialog` read or write. `unz` records whether `unz.isValid()`, i.e. whether
an archive is open. -/
structure Internal where
  saveFileName : CStr
  currentFolder : CStr
  chosenPath : CStr
  isOpen : Bool
  mustFilterSaveFilePathWithFileFilterExtensionString : Bool
  rescan : Bool
  unz : Bool
  deriving DecidableEq, Repr

namespace ChooseFileMainMethod

/-- The `for` loop with `break` that looks for the extension among `wExts`. -/
def extensionListed (saveFileNameExtension : CStr) : List CStr → Bool
  | [] => false
  | ext :: wExts =>
    if ext = saveFileNameExtension then true else extensionListed saveFileNameExtension wExts

/-- The block `if (selectionButtonPressed) {...}` of `ChooseFileMainMethod`
(the `Select` / `Save` button). -/
def selectionButtonPressed (isSelectFolderDialog isSaveFileDialog : Bool)
    (fileFilterExtensionString : Option CStr) (I : Internal) : Internal :=
  if isSelectFolderDialog then { I with chosenPath := I.currentFolder, isOpen := true }
  else if isSaveFileDialog then
    if I.saveFileName.length > 0 then
      let filtering := I.mustFilterSaveFilePathWithFileFilterExtensionString &&
        !isNullOrEmpty fileFilterExtensionString
      let (pathOk, saveFileName) :=
        if filtering then
          let saveFileNameExtension := Path.GetExtension I.saveFileName
          let saveFileNameHasExtension := saveFileNameExtension.length > 0
          let wExts := String.Split (fileFilterExtensionString.getD []) ';'
          if !saveFileNameHasExtension then
            match wExts with
            | [] => (true, I.saveFileName)
            | e :: _ => (false, I.saveFileName ++ e)
          else
            let pathOk := extensionListed saveFileNameExtension wExts
            match pathOk, wExts with
            | false, e :: _ => (false, I.saveFileName ++ e)
            | _, _ => (pathOk, I.saveFileName)
        else (true, I.saveFileName)
      if pathOk then
        { I with saveFileName := saveFileName
                 chosenPath := Path.Combine I.currentFolder saveFileName [] false
                 isOpen := true }
      else { I with saveFileName := saveFileName }
    else I
  else I

/-- One call of `ChooseFileMainMethod` in which the selection button is
pressed: the function first clears the result (`rv[0] = 0`), then runs the
button block. -/
def pressSelectionButton (isSelectFolderDialog isSaveFileDialog : Bool)
    (fileFilterExtensionString : Option CStr) (I : Internal) : Internal :=
  selectionButtonPressed isSelectFolderDialog isSaveFileDialog fileFilterExtensionString
    { I with chosenPath := [] }

end ChooseFileMainMethod

/-- The fields of minizip's `unz_file_info64` that the listing uses. -/
structure unz_file_info64 where
  compressed_size : Nat
  uncompressed_size : Nat
  flag : Nat
  dosDate : Nat
  deriving DecidableEq, Repr

/-- `struct unz_file_info64_plus`. -/
structure unz_file_info64_plus where
  info : unz_file_info64
  path : CStr
  name : CStr
  deriving DecidableEq, Repr

namespace UnZipFileImpl

/-- The trailing-separator loop that cleans `dirName`. -/
def stripTrailingSeps : Nat → CStr → CStr
  | 0, dirName => dirName
  | fuel + 1, dirName =>
    if dirName.length > 0 ∧ (dirName.getLast? = some '/' ∨ dirName.getLast? = some '\\') then
      stripTrailingSeps fuel dirName.dropLast
    else dirName

/-- The "copy a clean directoryName into dirName" part of
`getFilesOrDirectories`: a leading `./` or `.\` is skipped and all trailing
separators are removed. -/
def cleanDirName (directoryName : Option CStr) : CStr :=
  let dirName :=
    match directoryName with
    | none => []
    | some directoryName =>
      if directoryName.length > 1 ∧ directoryName.getD 0 '\x00' = '.' ∧
          (directoryName.getD 1 '\x00' = '/' ∨ directoryName.getD 1 '\x00' = '\\') then
        directoryName.drop 2
      else directoryName
  stripTrailingSeps dirName.length dirName

/-- The loop over `tmp` with `break`: a separator at index `k` rejects the
entry when `fileMode || k != tmpLen-1`. `rest` is `tmp` from index `k` on. -/
def hasBadSeparator (fileMode : Bool) (tmpLen : Nat) : CStr → Nat → Bool
  | [], _ => false
  | c :: rest, k =>
    if (c = '/' ∨ c = '\\') ∧ (fileMode = true ∨ (k : Int) ≠ (tmpLen : Int) - 1) then true
    else hasBadSeparator fileMode tmpLen rest (k + 1)

/-- The first test on an entry: `ok = fileMode ? (!isDirectory && !hasZeroSize) :
(isDirectory && hasZeroSize)`. -/
def getFilesOrDirectories.kindOk (fileMode : Bool) (file_info : unz_file_info64)
    (filename_inzip : CStr) : Bool :=
  let hasZeroSize : Bool := file_info.compressed_size == 0 && file_info.uncompressed_size == 0
  let isDirectory : Bool := decide (filename_inzip.length > 0) &&
    (filename_inzip.getLast? == some '/' || filename_inzip.getLast? == some '\\')
  if fileMode then (!isDirectory && !hasZeroSize) else (isDirectory && hasZeroSize)

/-- The four `if (...) ok = false;` tests made when `dirNameLen > 0`: `ok`
survives when none of them fires. Reading `filename_inzip[dirNameLen]` at the
length of the name yields the terminating NUL (reads beyond it only happen
when the first test has already cleared `ok`). -/
def getFilesOrDirectories.placeOk (fileMode : Bool) (dirName filename_inzip : CStr) : Bool :=
  !decide (dirName.length ≥ filename_inzip.length)
    && dirName.isPrefixOf filename_inzip
    && !(filename_inzip.getD dirName.length '\x00' != '/'
          && filename_inzip.getD dirName.length '\x00' != '\\')
    && !(!fileMode && decide (dirName.length + 1 = filename_inzip.length))

/-- The "remove trailing dash from filename_inzip" step. -/
def getFilesOrDirectories.strippedName (filename_inzip : CStr) : CStr :=
  if filename_inzip.length > 0 ∧
      (filename_inzip.getLast? = some '/' ∨ filename_inzip.getLast? = some '\\') then
    filename_inzip.dropLast
  else filename_inzip

/-- The plain name:
`strcpy(tmp,dirNameLen>0 ? &filename_inzip[dirNameLen+1] : filename_inzip)`
on the stripped `filename_inzip`. -/
def getFilesOrDirectories.plainName (dirName filename_inzip : CStr) : CStr :=
  if dirName.length > 0 then
    (getFilesOrDirectories.strippedName filename_inzip).drop (dirName.length + 1)
  else getFilesOrDirectories.strippedName filename_inzip

/-- The body of the `for (i=0;i<gi.number_entry;i++)` loop of
`getFilesOrDirectories` for one archive entry: `some` is the record pushed
on `fileInfos`, `none` means the entry is skipped. -/
def getFilesOrDirectories.entry (fileMode : Bool) (dirName : CStr) (file_info : unz_file_info64)
    (filename_inzip : CStr) : Option unz_file_info64_plus :=
  if getFilesOrDirectories.kindOk fileMode file_info filename_inzip then
    if dirName.length > 0 → getFilesOrDirectories.placeOk fileMode dirName filename_inzip = true then
      let tmp := getFilesOrDirectories.plainName dirName filename_inzip
      if hasBadSeparator fileMode tmp.length tmp 0 then none
      else
        let tmp := if file_info.flag % 2 ≠ 0 then tmp ++ ['*'] else tmp
        some { info := file_info
               path := getFilesOrDirectories.strippedName filename_inzip
               name := tmp }
    else none
  else none

/-- `UnZipFileImpl::getFilesOrDirectories(fileMode,directoryName,result,pOptionalNamesOut,
sorting,prefixResultWithTheFullPathOfTheZipFile)` on an open archive whose
entries (`unzGetCurrentFileInfo64`) are `archive`, every minizip call
succeeding. `SortInfos` stands for `unz_file_info64_plus::Sort` (libc `qsort`).
Returns `result` and the names. -/
def getFilesOrDirectories (SortInfos : Nat → List unz_file_info64_plus → List unz_file_info64_plus)
    (zipFilePath : CStr) (archive : List (unz_file_info64 × CStr)) (fileMode : Bool)
    (directoryName : Option CStr) (sorting : Nat)
    (prefixResultWithTheFullPathOfTheZipFile : Bool) : List CStr × List CStr :=
  let dirName := cleanDirName directoryName
  let fileInfos := archive.filterMap
    (fun e => getFilesOrDirectories.entry fileMode dirName e.1 e.2)
  if fileInfos.length > 0 then
    let sorting := if !fileMode && decide (sorting ≥ 4) then sorting % 2 else sorting
    let fileInfos := SortInfos sorting fileInfos
    (fileInfos.map (fun fip =>
        if prefixResultWithTheFullPathOfTheZipFile then zipFilePath ++ ['/'] ++ fip.path
        else fip.path),
      fileInfos.map (fun fip => fip.name))
  else ([], [])

end UnZipFileImpl

namespace UnZipFile

/-- `UnZipFile::getDirectories(directoryName,result,pOptionalNamesOut,sorting,
prefixResultWithTheFullPathOfTheZipFile)` on an open archive. -/
def getDirectories (SortInfos : Nat → List unz_file_info64_plus → List unz_file_info64_plus)
    (zipFilePath : CStr) (archive : List (unz_file_info64 × CStr))
    (directoryName : Option CStr) (sorting : Nat)
    (prefixResultWithTheFullPathOfTheZipFile : Bool) : List CStr × List CStr :=
  UnZipFileImpl.getFilesOrDirectories SortInfos zipFilePath archive false directoryName sorting
    prefixResultWithTheFullPathOfTheZipFile

/-- `UnZipFile::getFiles(directoryName,result,pOptionalNamesOut,sorting,
prefixResultWithTheFullPathOfTheZipFile)` on an open archive. -/
def getFiles (SortInfos : Nat → List unz_file_info64_plus → List unz_file_info64_plus)
    (zipFilePath : CStr) (archive : List (unz_file_info64 × CStr))
    (directoryName : Option CStr) (sorting : Nat)
    (prefixResultWithTheFullPathOfTheZipFile : Bool) : List CStr × List CStr :=
  UnZipFileImpl.getFilesOrDirectories SortInfos zipFilePath archive true directoryName sorting
    prefixResultWithTheFullPathOfTheZipFile

end UnZipFile

namespace FolderInfo

/-- The loop `for (i=0;i<=_splitPathIndex;i++) Path::Append(SplitPath[i],rv.currentFolder)`. -/
def appendSegments : List CStr → CStr → CStr
  | [], currentFolder => currentFolder
  | seg :: rest, currentFolder => appendSegments rest (Path.Append seg currentFolder)

/-- `FolderInfo::getFolderInfoForSplitPathIndex(_splitPathIndex,rv)`: the
returned flag and the new content of `rv`. -/
def getFolderInfoForSplitPathIndex (self : FolderInfo) (_splitPathIndex : Int) (rv : FolderInfo) :
    Bool × FolderInfo :=
  let SplitPath := Path.Split self.fullFolder true
  let splitPathSize : Int := SplitPath.length
  if _splitPathIndex < 0 ∨ _splitPathIndex ≥ splitPathSize then (false, rv)
  else
    (true,
      { fullFolder := self.fullFolder
        splitPathIndex := _splitPathIndex
        splitPathIndexOfZipFile := GetSplitPathIndexOfZipFile SplitPath
        currentFolder := appendSegments (SplitPath.take (_splitPathIndex + 1).toNat) [] })

end FolderInfo

/-! ## Library functions used by the path tests and the comparators -/

/-- The `strrchr` of `<string.h>` for a character other than NUL: the tail of
`s` that starts at the last occurrence of `c`; `none` is the NULL pointer. -/
def strrchr : CStr → Char → Option CStr
  | [], _ => none
  | ch :: rest, c =>
    match strrchr rest c with
    | some p => some p
    | none => if ch = c then some (ch :: rest) else none

/-- The `strcasecmp` of `<strings.h>` in the "C" locale: the difference of the
first pair of lower-cased characters that differ, the end of a string counting
as NUL. -/
def strcasecmp : CStr → CStr → Int
  | [], [] => 0
  | [], b :: _ => -((tolower b).toNat : Int)
  | a :: _, [] => ((tolower a).toNat : Int)
  | a :: s1, b :: s2 =>
    if tolower a = tolower b then strcasecmp s1 s2
    else ((tolower a).toNat : Int) - ((tolower b).toNat : Int)

namespace Path

/-- The loop `for (int i=1;i<4;i++)` of `Path::HasZipExtension`, started at
index `i` with `fuel` turns left: `true` when no turn returns `false`. -/
def HasZipExtension.loop (p1 : CStr) : Nat → Nat → Bool
  | 0, _ => true
  | fuel + 1, i =>
    let c := p1.getD i '\x00'
    if c ≠ ".zip".toList.getD i '\x00' ∧ c ≠ ".ZIP".toList.getD i '\x00' then false
    else HasZipExtension.loop p1 fuel (i + 1)

/-- `Path::HasZipExtension(filePath)`. -/
def HasZipExtension (filePath : CStr) : Bool :=
  match strrchr filePath '.' with
  | none => false
  | some p1 =>
    let len := p1.length
    if len ≠ 4 then false
    else HasZipExtension.loop p1 3 1

end Path

namespace Directory

/-- The directory name with one trailing `/` removed, as computed into
`directoryNameWithoutSlash` by `GetDirectories` and `GetFiles`. -/
def directoryNameWithoutSlash (directoryName : CStr) : CStr :=
  let sz := directoryName.length
  if sz > 0 ∧ directoryName.getD (sz - 1) '\x00' = '/' then
    String.Substr directoryName 0 ((sz : Int) - 1)
  else directoryName

/-- The loop `for (cnt=0;cnt<n;++cnt)` of `Directory::GetDirectories` over the
names `eps[cnt]->d_name`; `acc` holds `result` and the names pushed so far. -/
def GetDirectories.loop (dirNoSlash : CStr) : List CStr → List CStr × List CStr →
    List CStr × List CStr
  | [], acc => acc
  | pName :: eps, acc =>
    let sz := pName.length
    if sz = 0 then GetDirectories.loop dirNoSlash eps acc
    else if pName ≠ ['.'] ∧ pName ≠ ['.', '.'] ∧ pName.getD 0 '\x00' ≠ '.' ∧
        pName.getD (sz - 1) '\x00' ≠ '~' then
      GetDirectories.loop dirNoSlash eps
        (acc.1 ++ [dirNoSlash ++ ['/'] ++ pName], acc.2 ++ [pName])
    else GetDirectories.loop dirNoSlash eps acc

/-- `Directory::GetDirectories(directoryName,result,pOptionalNamesOut,sorting)`.
`scan` is what `scandir(directoryName,&eps,DirentGetDirectories,sorter)`
delivers: the names of the entries in order, or `none` when it fails (`n < 0`).
Returns `result` and the names. -/
def GetDirectories (directoryName : CStr) (scan : Option (List CStr)) : List CStr × List CStr :=
  match scan with
  | none => ([], [])
  | some eps => GetDirectories.loop (directoryNameWithoutSlash directoryName) eps ([], [])

/-- The loop `for (cnt=0;cnt<n;++cnt)` of the unfiltered `Directory::GetFiles`. -/
def GetFiles.scanLoop (dirNoSlash : CStr) : List CStr → List CStr × List CStr →
    List CStr × List CStr
  | [], acc => acc
  | pName :: eps, acc =>
    let sz := pName.length
    if sz = 0 then GetFiles.scanLoop dirNoSlash eps acc
    else if pName.getD 0 '\x00' ≠ '.' ∧ pName.getD (sz - 1) '\x00' ≠ '~' then
      GetFiles.scanLoop dirNoSlash eps
        (acc.1 ++ [dirNoSlash ++ ['/'] ++ pName], acc.2 ++ [pName])
    else GetFiles.scanLoop dirNoSlash eps acc

/-- `Directory::GetFiles(directoryName,result,pOptionalNamesOut,sorting)`, the
overload without extension filters. `scan` is what
`scandir(directoryName,&eps,DirentGetFiles,sorter)` delivers, as for
`GetDirectories`. Returns `result` and the names. -/
def GetFiles.unfiltered (directoryName : CStr) (scan : Option (List CStr)) :
    List CStr × List CStr :=
  match scan with
  | none => ([], [])
  | some eps => GetFiles.scanLoop (directoryNameWithoutSlash directoryName) eps ([], [])

end Directory

namespace SortingHelper

/-- `SortingHelper::Typesort(e1,e2)` on the names `(*e1)->d_name`, `(*e2)->d_name`. -/
def Typesort (e1 e2 : CStr) : Int :=
  match strrchr e1 '.' with
  | none => if strrchr e2 '.' = none then 0 else -1
  | some p1 =>
    match strrchr e2 '.' with
    | none => 1
    | some p2 => strcasecmp p1 p2

/-- `SortingHelper::Typesortinverse(e1,e2)`. -/
def Typesortinverse (e1 e2 : CStr) : Int :=
  match strrchr e1 '.' with
  | none => if strrchr e2 '.' = none then 0 else 1
  | some p1 =>
    match strrchr e2 '.' with
    | none => -1
    | some p2 => -strcasecmp p1 p2

end SortingHelper

namespace unz_file_info64_plus

/-- `unz_file_info64_plus::Typesort(e1,e2)`. -/
def Typesort (e1 e2 : unz_file_info64_plus) : Int :=
  match strrchr e1.name '.' with
  | none => if strrchr e2.name '.' = none then 0 else -1
  | some p1 =>
    match strrchr e2.name '.' with
    | none => 1
    | some p2 => strcasecmp p1 p2

/-- `unz_file_info64_plus::Typesortinverse(e1,e2)`. -/
def Typesortinverse (e1 e2 : unz_file_info64_plus) : Int :=
  match strrchr e1.name '.' with
  | none => if strrchr e2.name '.' = none then 0 else -1
  | some p1 =>
    match strrchr e2.name '.' with
    | none => -1
    | some p2 => -strcasecmp p1 p2

end unz_file_info64_plus

namespace Dialog

/-- `Dialog::getChosenPath()`. -/
def getChosenPath (internal : Internal) : CStr := internal.chosenPath

/-- `Dialog::chooseFileDialog(dialogTriggerButton,directory,fileFilterExtensionString,...)`:
the returned string and the new state of `*internal`. `mainMethod` stands for
`ChooseFileMainMethod` (the window, driven by the user's input) with its
arguments `directory`, `_isFolderChooserDialog`, `_isSaveFileDialog`,
`_saveFileName` and `fileFilterExtensionString`; the pointer it returns is
`I.chosenPath`, so the string returned is the chosen path of the state it
leaves. The window arguments are left out. -/
def chooseFileDialog
    (mainMethod : Internal → Option CStr → Bool → Bool → Option CStr → Option CStr → Internal)
    (internal : Internal) (dialogTriggerButton : Bool) (directory : Option CStr)
    (fileFilterExtensionString : Option CStr) : CStr × Internal :=
  let internal :=
    if dialogTriggerButton then { internal with rescan := true, chosenPath := [] } else internal
  if dialogTriggerButton || (!internal.rescan && (getChosenPath internal).length == 0) then
    let internal := mainMethod internal directory false false (some []) fileFilterExtensionString
    let cp := internal.chosenPath
    (cp, if cp ≠ [] then { internal with unz := false } else internal)
  else ([], internal)

/-- `Dialog::chooseFolderDialog(dialogTriggerButton,directory,...)`. -/
def chooseFolderDialog
    (mainMethod : Internal → Option CStr → Bool → Bool → Option CStr → Option CStr → Internal)
    (internal : Internal) (dialogTriggerButton : Bool) (directory : Option CStr) :
    CStr × Internal :=
  let internal :=
    if dialogTriggerButton then { internal with rescan := true, chosenPath := [] } else internal
  if dialogTriggerButton || (!internal.rescan && (getChosenPath internal).length == 0) then
    let internal := mainMethod internal directory true false (some []) (some [])
    let cp := internal.chosenPath
    (cp, if cp ≠ [] then { internal with unz := false } else internal)
  else ([], internal)

/-- `Dialog::saveFileDialog(dialogTriggerButton,directory,startingFileNameEntry,
fileFilterExtensionString,...)`. -/
def saveFileDialog
    (mainMethod : Internal → Option CStr → Bool → Bool → Option CStr → Option CStr → Internal)
    (internal : Internal) (dialogTriggerButton : Bool) (directory : Option CStr)
    (startingFileNameEntry fileFilterExtensionString : Option CStr) : CStr × Internal :=
  let internal :=
    if dialogTriggerButton then { internal with rescan := true, chosenPath := [] } else internal
  if dialogTriggerButton || (!internal.rescan && (getChosenPath internal).length == 0) then
    let internal :=
      mainMethod internal directory false true startingFileNameEntry fileFilterExtensionString
    let cp := internal.chosenPath
    (cp, if cp ≠ [] then { internal with unz := false } else internal)
  else ([], internal)

end Dialog

/-! ## Predicates used to state the properties -/

namespace History

/-- The `Empty` state: no entries. -/
def isEmpty (h : History) : Prop := h.info = []

/-- The cursor sits on the last entry of a non-empty sequence. -/
def cursorAtLastIndex (h : History) : Prop :=
  h.info ≠ [] ∧ h.currentInfoIndex = (h.info.length : Int) - 1

/-- Cursor invariant: `Empty` with cursor `-1`, or a valid index. -/
def Inv (h : History) : Prop :=
  (h.currentInfoIndex = -1 ∧ h.info = []) ∨
    (0 ≤ h.currentInfoIndex ∧ h.currentInfoIndex < (h.info.length : Int))

end History

/-- The segments of a path: the maximal runs of characters other than `/` and `\`. -/
def segments (p : CStr) : List CStr := p.splitOnP isSep

/-- The segment ends in `.zip`, in any letter case. -/
def endsWithZip (seg : CStr) : Bool := ".zip".toList.isSuffixOf (seg.map tolower)

/-- Some segment of the path ends in `.zip`, in any letter case. -/
def hasZipSegment (p : CStr) : Bool := (segments p).any endsWithZip

/-- An occurrence of `.zip`, in any letter case, at index `i` of `p`. -/
def isZipAt (p : CStr) (i : Nat) : Prop :=
  ((p.drop i).take 4).map tolower = ['.', 'z', 'i', 'p']

instance (p : CStr) (i : Nat) : Decidable (isZipAt p i) := by
  unfold isZipAt; infer_instance

/-- A segment with one trailing `/` removed. -/
def stripOneSlash (seg : CStr) : CStr :=
  if seg.getLast? = some '/' then seg.dropLast else seg

/-- The segment, with one trailing `/` removed, ends in `.zip` in any letter case. -/
def archiveSegment (seg : CStr) : Bool := endsWithZip (stripOneSlash seg)

/-- As `archiveSegment`, with at least one character before the `.zip`. -/
def properArchiveSegment (seg : CStr) : Bool :=
  decide (4 < (stripOneSlash seg).length) && endsWithZip (stripOneSlash seg)

/-- The test made on segment `j` by the loop of `GetSplitPathIndexOfZipFile`
(`sz > startCharToMatch` and the inner matching loop succeeds). -/
def zipTest (jsz : Nat) (seg : CStr) (j : Nat) : Bool :=
  let startCharToMatch : Int := if (j : Int) = (jsz : Int) - 1 then 4 else 4 + 1
  !decide ((seg.length : Int) ≤ startCharToMatch) &&
    zipMatch seg ((seg.length : Int) - startCharToMatch).toNat

/-- The archive index stored in a `FolderInfo` is the one of its `fullFolder`. -/
def ZipIndexOk (fi : FolderInfo) : Prop :=
  fi.splitPathIndexOfZipFile =
    FolderInfo.GetSplitPathIndexOfZipFile (Path.Split fi.fullFolder true)

/-- Cutting a text at every `/`: `acc` is the piece read so far. With
`leave` set each cut piece keeps its `/`. -/
def cutSegs (leave : Bool) : CStr → CStr → List CStr
  | acc, [] => [acc]
  | acc, c :: rest =>
    if c = '/' then (acc ++ (if leave then ['/'] else [])) :: cutSegs leave [] rest
    else cutSegs leave (acc ++ [c]) rest

/-- The first-segment fix at the end of `Path::Split`. -/
def fixFirst (rv : List CStr) : List CStr :=
  match rv with
  | [] => rv
  | first :: others => if first.length = 0 then ['/'] :: others else rv

/-- No two neighbouring characters are both `/`. -/
def noDoubleSlash (tex : CStr) : Prop := tex.Chain' (fun a b => ¬ (a = '/' ∧ b = '/'))

/-- The stored-path prefix of the children of `d`: empty for the archive root,
`d` followed by one separator otherwise. -/
def childPrefix (d pre : CStr) : Prop :=
  (d = [] ∧ pre = []) ∨ (d ≠ [] ∧ ∃ s, isSep s = true ∧ pre = d ++ [s])

/-- The stored path `name` is an immediate child of `d`: `d ++ sep ++ n` (just
`n` when `d` is empty) with a non-empty separator-free `n`, optionally
followed by one trailing separator. -/
def immediateChild (d name : CStr) : Prop :=
  ∃ pre n t, childPrefix d pre ∧ name = pre ++ n ++ t ∧ n ≠ [] ∧
    (∀ c ∈ n, isSep c = false) ∧ (t = [] ∨ ∃ s, isSep s = true ∧ t = [s])

/-- The shape `d ++ sep ++ n` (just `n` when `d` is empty), `n` free of
separators, optionally followed by one trailing separator. -/
def childShape (d name : CStr) : Prop :=
  ∃ pre n t, childPrefix d pre ∧ name = pre ++ n ++ t ∧ (∀ c ∈ n, isSep c = false) ∧
    (t = [] ∨ ∃ s, isSep s = true ∧ t = [s])

/-- The stored path ends in a separator. -/
def endsInSep (name : CStr) : Prop := ∃ q s, name = q ++ [s] ∧ isSep s = true

/-- Both sizes recorded for the entry are zero. -/
def hasZeroSize (info : unz_file_info64) : Prop :=
  info.compressed_size = 0 ∧ info.uncompressed_size = 0

/-- A bare root or drive token: the empty path, `/`, `\\`, or a path ending
in `:`. -/
def isRootToken (p : CStr) : Prop :=
  p = [] ∨ p = ['/'] ∨ p = ['\\'] ∨ p.getLast? = some ':'

/-- The names kept by the directory listings: non-empty, not beginning with
`.` and not ending with `~`. -/
def keepName (name : CStr) : Bool :=
  decide (name ≠ []) && decide (name.head? ≠ some '.') && decide (name.getLast? ≠ some '~')

/-- One call of an entry point of `Dialog`, with the arguments that reach
`ChooseFileMainMethod`. -/
inductive DialogCall where
  | chooseFile (directory fileFilterExtensionString : Option CStr)
  | chooseFolder (directory : Option CStr)
  | saveFile (directory startingFileNameEntry fileFilterExtensionString : Option CStr)

/-- The call made on `internal` with the given `dialogTriggerButton`. -/
def DialogCall.run
    (mainMethod : Internal → Option CStr → Bool → Bool → Option CStr → Option CStr → Internal)
    (internal : Internal) (dialogTriggerButton : Bool) : DialogCall → CStr × Internal
  | .chooseFile directory filter =>
    Dialog.chooseFileDialog mainMethod internal dialogTriggerButton directory filter
  | .chooseFolder directory =>
    Dialog.chooseFolderDialog mainMethod internal dialogTriggerButton directory
  | .saveFile directory start filter =>
    Dialog.saveFileDialog mainMethod internal dialogTriggerButton directory start filter

/-- The state after a sequence of calls, all with `dialogTriggerButton = false`. -/
def DialogCall.runAll
    (mainMethod : Internal → Option CStr → Bool → Bool → Option CStr → Option CStr → Internal)
    (internal : Internal) : List DialogCall → Internal
  | [] => internal
  | call :: calls => DialogCall.runAll mainMethod (call.run mainMethod internal false).2 calls

/-- The arguments with which a call reaches `ChooseFileMainMethod`. -/
def DialogCall.mainArgs : DialogCall → Option CStr × Bool × Bool × Option CStr × Option CStr
  | .chooseFile directory filter => (directory, false, false, some [], filter)
  | .chooseFolder directory => (directory, true, false, some [], some [])
  | .saveFile directory start filter => (directory, false, true, start, filter)

/-- The absolute path `/s1/s2/.../sn` with the given segments. -/
def absPath (segs : List CStr) : CStr := (segs.map (fun s => '/' :: s)).flatten

/-- The `/` that `Path::Append` puts after a segment ending in `:`. -/
def colonFix (s : CStr) : CStr := if s.getLast? = some ':' then ['/'] else []

/-- The folder of the breadcrumb that ends with the last of the segments
`pre`: the root `/` when `pre` is empty, else `/s1/.../sk`, followed by `/`
when `sk` ends in `:`. -/
def crumbOf (pre : List CStr) : CStr :=
  match pre.getLast? with
  | none => ['/']
  | some s => absPath pre ++ colonFix s

/-- The segments as `Path::Split` returns them after the root segment: each
but the last keeps its `/`. -/
def slashed : List CStr → List CStr
  | [] => []
  | s :: t => (if t = [] then s else s ++ ['/']) :: slashed t

/-- The row that a listing returns for an archive entry with the stored name
`name`: the name without its trailing separator, after the path of the
archive and a `/` when the rows are asked with that prefix. -/
def storedRow (zipFilePath : CStr) (withPrefix : Bool) (name : CStr) : CStr :=
  (if withPrefix then zipFilePath ++ ['/'] else []) ++
    (if name.getLast? = some '/' ∨ name.getLast? = some '\\' then name.dropLast else name)

/-- The shape of the stored paths listed under `d`: `d ++ sep ++ n` (just `n`
when `d` is empty) with `n` free of separators, followed by nothing for files
and by one or two separators for directories. -/
def listedShape (fileMode : Bool) (d name : CStr) : Prop :=
  ∃ pre n t, childPrefix d pre ∧ name = pre ++ n ++ t ∧ (∀ c ∈ n, isSep c = false) ∧
    ((fileMode = true ∧ t = []) ∨
     (fileMode = false ∧ ((∃ s, isSep s = true ∧ t = [s]) ∨
        ∃ s1 s2, isSep s1 = true ∧ isSep s2 = true ∧ t = [s1, s2])))

/-- A run of `switchTo(const char*)` calls from the state `h`, one for each
path; `none` when one of the calls has no defined outcome. -/
def History.switchToAll : History → List CStr → Option History
  | h, [] => some h
  | h, p :: ps =>
    match h.switchTo (some p) with
    | some r => History.switchToAll r.2 ps
    | none => none

/-- What a `FolderInfo` records about the archive on its path:
`splitPathIndexOfZipFile` is at least `-1` and below the number of segments of
`fullFolder`, it is `-1` when no segment of `fullFolder` ends in `.zip`, and
when it is not negative the segment it names ends in `.zip`. -/
def ArchiveIndexOk (fi : FolderInfo) : Prop :=
  -1 ≤ fi.splitPathIndexOfZipFile ∧
  fi.splitPathIndexOfZipFile < ((Path.Split fi.fullFolder true).length : Int) ∧
  ((∀ seg ∈ Path.Split fi.fullFolder true, archiveSegment seg = false) →
    fi.splitPathIndexOfZipFile = -1) ∧
  (0 ≤ fi.splitPathIndexOfZipFile →
    ∃ seg, (Path.Split fi.fullFolder true)[fi.splitPathIndexOfZipFile.toNat]? = some seg ∧
      archiveSegment seg = true)

/-- The histories of a browsing session: built from `reset()` by
`switchTo(const char*)` (where its outcome is defined), `goBack()`,
`goForward()` and by `switchTo(const FolderInfo&)` called with a `FolderInfo`
that satisfies `ArchiveIndexOk`. -/
inductive History.Browsed : History → Prop
  | reset : History.Browsed History.reset
  | switchTo (h : History) (currentFolder : Option CStr) (r : Bool × History) :
      History.Browsed h → h.switchTo currentFolder = some r → History.Browsed r.2
  | switchToFolderInfo (h : History) (fi : FolderInfo) :
      History.Browsed h → ArchiveIndexOk fi → History.Browsed (h.switchToFolderInfo fi).2
  | goBack (h : History) : History.Browsed h → History.Browsed h.goBack
  | goForward (h : History) : History.Browsed h → History.Browsed h.goForward

/-! ## Characters and `tolower` -/

theorem char_toNat_ofNat (n : Nat) (h : n < 55296) : (Char.ofNat n).toNat = n := by
  have hv : n.isValidChar := Or.inl h
  rw [Char.ofNat, dif_pos hv]
  rfl

theorem char_toNat_inj {a b : Char} (h : a.toNat = b.toNat) : a = b := by
  rw [← Char.ofNat_toNat a, ← Char.ofNat_toNat b, h]

theorem tolower_toNat (c : Char) :
    (tolower c).toNat = if 65 ≤ c.toNat ∧ c.toNat ≤ 90 then c.toNat + 32 else c.toNat := by
  unfold tolower
  split
  · rename_i h
    exact char_toNat_ofNat _ (by omega)
  · rfl

theorem tolower_not_upper (c : Char) : ¬ isUpperAscii (tolower c) := by
  unfold isUpperAscii
  rw [tolower_toNat]
  split <;> omega

theorem tolower_idem (c : Char) : tolower (tolower c) = tolower c := by
  apply char_toNat_inj
  rw [tolower_toNat (tolower c), tolower_toNat c]
  split_ifs <;> omega

theorem tolower_eq_iff (c d : Char) (hd : d.toNat < 65 ∨ (90 < d.toNat ∧ d.toNat < 97) ∨ 122 < d.toNat) :
    tolower c = d ↔ c = d := by
  constructor
  · intro h
    apply char_toNat_inj
    have := congrArg Char.toNat h
    rw [tolower_toNat] at this
    split at this <;> omega
  · intro h
    subst h
    apply char_toNat_inj
    rw [tolower_toNat]
    split <;> omega

example (c) : tolower c = '\\' ↔ c = '\\' := tolower_eq_iff _ _ (by decide)

theorem FindLastOf_go_succ (text : CStr) (c : Char) (i : Nat) :
    String.FindLastOf.go text c (i + 1) =
      if text[i]? = some c then (i : Int) else String.FindLastOf.go text c i := rfl

theorem FindLastOf_go_bounds (text : CStr) (c : Char) (n : Nat) :
    -1 ≤ String.FindLastOf.go text c n ∧ String.FindLastOf.go text c n < (n : Int) := by
  induction n with
  | zero => simp [String.FindLastOf.go]
  | succ n ih =>
    unfold String.FindLastOf.go
    split_ifs
    · omega
    · omega

theorem FindLastOf_bounds (text : CStr) (c : Char) :
    -1 ≤ String.FindLastOf text c ∧ String.FindLastOf text c < (text.length : Int) :=
  FindLastOf_go_bounds text c text.length

theorem FindLastOf_go_append_left (pre suf : CStr) (c : Char) (n : Nat) (hn : n ≤ pre.length) :
    String.FindLastOf.go (pre ++ suf) c n = String.FindLastOf.go pre c n := by
  induction n with
  | zero => simp [String.FindLastOf.go]
  | succ n ih =>
    unfold String.FindLastOf.go
    rw [List.getElem?_append_left (by omega), ih (by omega)]

theorem FindLastOf_go_append_skip (pre suf : CStr) (c : Char) (hc : c ∉ suf) (k : Nat)
    (hk : k ≤ suf.length) :
    String.FindLastOf.go (pre ++ suf) c (pre.length + k) = String.FindLastOf.go pre c pre.length := by
  induction k with
  | zero => exact FindLastOf_go_append_left pre suf c pre.length (le_refl _)
  | succ k ih =>
    rw [← Nat.add_assoc, FindLastOf_go_succ]
    have hlt : k < suf.length := by omega
    rw [List.getElem?_append_right (by omega)]
    have : pre.length + k - pre.length = k := by omega
    rw [this, List.getElem?_eq_getElem hlt]
    have hne : suf[k] ≠ c := fun h => hc (h ▸ List.getElem_mem hlt)
    simp only [Option.some.injEq, hne, if_false]
    have hk2 : k ≤ suf.length := by omega
    exact ih hk2

/-- Characters after the last occurrence do not matter. -/
theorem FindLastOf_append_of_not_mem (pre suf : CStr) (c : Char) (hc : c ∉ suf) :
    String.FindLastOf (pre ++ suf) c = String.FindLastOf pre c := by
  unfold String.FindLastOf
  rw [List.length_append]
  exact FindLastOf_go_append_skip pre suf c hc suf.length (le_refl _)

theorem FindLastOf_concat_self (pre : CStr) (c : Char) :
    String.FindLastOf (pre ++ [c]) c = (pre.length : Int) := by
  unfold String.FindLastOf
  rw [List.length_append]
  simp [String.FindLastOf.go]

theorem FindLastOf_of_not_mem (text : CStr) (c : Char) (hc : c ∉ text) :
    String.FindLastOf text c = -1 := by
  have := FindLastOf_append_of_not_mem [] text c hc
  simpa [String.FindLastOf, String.FindLastOf.go] using this

/-- Position of the last occurrence, given the decomposition around it. -/
theorem FindLastOf_last (pre suf : CStr) (c : Char) (hc : c ∉ suf) :
    String.FindLastOf (pre ++ c :: suf) c = (pre.length : Int) := by
  have : pre ++ c :: suf = (pre ++ [c]) ++ suf := by simp
  rw [this, FindLastOf_append_of_not_mem _ _ _ hc, FindLastOf_concat_self]

theorem Substr_to_end (pre suf : CStr) :
    String.Substr (pre ++ suf) (pre.length : Int) (-1) = suf := by
  unfold String.Substr
  simp only [List.length_append]
  by_cases h : suf = []
  · subst h; simp
  · have hpos : 0 < suf.length := List.length_pos.mpr h
    simp

theorem Substr_from_start (pre suf : CStr) :
    String.Substr (pre ++ suf) 0 (pre.length : Int) = pre := by
  unfold String.Substr
  by_cases h : pre = []
  · subst h; simp
  · have hpos : 0 < pre.length := List.length_pos.mpr h
    have hn : ¬ ((pre.length : Int) < 0) := by omega
    simp [hpos, hn]

theorem isSep_false_iff (c : Char) : isSep c = false ↔ c ≠ '/' ∧ c ≠ '\\' := by
  simp [isSep]

theorem isSep_true_iff (c : Char) : isSep c = true ↔ c = '/' ∨ c = '\\' := by
  simp [isSep]

theorem not_mem_of_sepFree (f : CStr) (hf : ∀ c ∈ f, isSep c = false) :
    '/' ∉ f ∧ '\\' ∉ f := by
  constructor
  · intro h; have := hf _ h; simp [isSep] at this
  · intro h; have := hf _ h; simp [isSep] at this

/-- A name without separators is its own file name. -/
theorem GetFileName_of_sepFree (f : CStr) (hf : ∀ c ∈ f, isSep c = false) :
    Path.GetFileName f = f := by
  obtain ⟨h1, h2⟩ := not_mem_of_sepFree f hf
  simp [Path.GetFileName, FindLastOf_of_not_mem _ _ h1, FindLastOf_of_not_mem _ _ h2]

/-- The file name of `pre ++ s :: f` is `f` when `s` is a separator and `f`
has none. -/
theorem GetFileName_after_sep (pre f : CStr) (s : Char) (hs : isSep s = true)
    (hf : ∀ c ∈ f, isSep c = false) : Path.GetFileName (pre ++ s :: f) = f := by
  obtain ⟨h1, h2⟩ := not_mem_of_sepFree f hf
  have hsplit : pre ++ s :: f = (pre ++ [s]) ++ f := by simp
  have hlen : (((pre ++ [s]).length : Nat) : Int) = (pre.length : Int) + 1 := by simp
  rcases (isSep_true_iff s).mp hs with rfl | rfl
  · have hb2 : String.FindLastOf (pre ++ '/' :: f) '/' = (pre.length : Int) :=
      FindLastOf_last pre f '/' h1
    have hb : String.FindLastOf (pre ++ '/' :: f) '\\' = String.FindLastOf pre '\\' := by
      rw [hsplit, FindLastOf_append_of_not_mem _ _ _ h2,
        FindLastOf_append_of_not_mem pre ['/'] '\\' (by decide)]
    have hbd := FindLastOf_bounds pre '\\'
    unfold Path.GetFileName
    simp only [hb, hb2]
    have hgt : ¬ (String.FindLastOf pre '\\' > (pre.length : Int)) := by omega
    have hne : (pre.length : Int) ≠ -1 := by omega
    simp only [hgt, if_false, hne, ne_eq, not_false_eq_true, if_true]
    rw [hsplit, ← hlen]
    exact Substr_to_end _ _
  · have hb : String.FindLastOf (pre ++ '\\' :: f) '\\' = (pre.length : Int) :=
      FindLastOf_last pre f '\\' h2
    have hb2 : String.FindLastOf (pre ++ '\\' :: f) '/' = String.FindLastOf pre '/' := by
      rw [hsplit, FindLastOf_append_of_not_mem _ _ _ h1,
        FindLastOf_append_of_not_mem pre ['\\'] '/' (by decide)]
    have hbd := FindLastOf_bounds pre '/'
    unfold Path.GetFileName
    simp only [hb, hb2]
    have hgt : (pre.length : Int) > String.FindLastOf pre '/' := by omega
    have hne : (pre.length : Int) ≠ -1 := by omega
    simp only [hgt, if_true, hne, ne_eq, not_false_eq_true]
    rw [hsplit, ← hlen]
    exact Substr_to_end _ _

/-- Every path is a separator-free name, possibly preceded by a part that
ends with a separator. -/
theorem exists_fileName_decomp (p : CStr) :
    ∃ pre f, p = pre ++ f ∧ (∀ c ∈ f, isSep c = false) ∧
      (pre = [] ∨ ∃ q s, pre = q ++ [s] ∧ isSep s = true) := by
  induction p using List.reverseRecOn with
  | nil => exact ⟨[], [], rfl, by simp, Or.inl rfl⟩
  | append_singleton l a ih =>
    by_cases ha : isSep a = true
    · exact ⟨l ++ [a], [], by simp, by simp, Or.inr ⟨l, a, rfl, ha⟩⟩
    · obtain ⟨pre, f, hp, hf, hpre⟩ := ih
      refine ⟨pre, f ++ [a], by simp [hp], ?_, hpre⟩
      intro c hc
      rcases List.mem_append.mp hc with h | h
      · exact hf c h
      · simp at h; subst h; simpa using ha

/-- The file name is what follows the last separator: it has no separator and
the path is a separator-terminated (or empty) part followed by it. -/
theorem GetFileName_spec (p : CStr) :
    ∃ pre, p = pre ++ Path.GetFileName p ∧ (∀ c ∈ Path.GetFileName p, isSep c = false) ∧
      (pre = [] ∨ ∃ q s, pre = q ++ [s] ∧ isSep s = true) := by
  obtain ⟨pre, f, hp, hf, hpre⟩ := exists_fileName_decomp p
  have hfn : Path.GetFileName p = f := by
    rcases hpre with rfl | ⟨q, s, rfl, hs⟩
    · simpa [hp] using GetFileName_of_sepFree f hf
    · rw [hp]
      have : q ++ [s] ++ f = q ++ s :: f := by simp
      rw [this]
      exact GetFileName_after_sep q f s hs hf
  rw [hfn]
  exact ⟨pre, hp, hf, hpre⟩

theorem GetFileName_Combine (d f rv : CStr) (hf : ∀ c ∈ f, isSep c = false) :
    Path.GetFileName (Path.Combine d f rv false) = f := by
  unfold Path.Combine
  simp only [Bool.not_false, if_true, List.nil_append]
  by_cases hd : d.length = 0
  · simp only [hd, if_true]
    exact GetFileName_of_sepFree f hf
  · simp only [hd, if_false]
    split_ifs with hlast
    · have : d ++ ['/'] ++ f = d ++ '/' :: f := by simp
      rw [this]
      exact GetFileName_after_sep d f '/' (by decide) hf
    · have hne : d ≠ [] := by
        intro h; apply hd; simp [h]
      obtain ⟨q, s, rfl⟩ : ∃ q s, d = q ++ [s] := by
        refine ⟨d.dropLast, d.getLast hne, ?_⟩
        exact (List.dropLast_append_getLast hne).symm
      rw [List.getLast?_concat] at hlast
      have hs : isSep s = true := by
        rw [isSep_true_iff]
        by_contra hcon
        push_neg at hcon
        apply hlast
        constructor
        · intro h; exact hcon.2 (Option.some.inj h)
        · intro h; exact hcon.1 (Option.some.inj h)
      have : q ++ [s] ++ f = q ++ s :: f := by simp
      rw [this]
      exact GetFileName_after_sep q f s hs hf

theorem FindLastOf_go_map_tolower (text : CStr) (d : Char)
    (hd : d.toNat < 65 ∨ (90 < d.toNat ∧ d.toNat < 97) ∨ 122 < d.toNat) (n : Nat) :
    String.FindLastOf.go (text.map tolower) d n = String.FindLastOf.go text d n := by
  induction n with
  | zero => rfl
  | succ n ih =>
    rw [FindLastOf_go_succ, FindLastOf_go_succ, ih, List.getElem?_map]
    have : (Option.map tolower text[n]? = some d) ↔ (text[n]? = some d) := by
      cases text[n]? with
      | none => simp
      | some x => simpa using tolower_eq_iff x d hd
    simp only [this]

/-- Lower-casing moves neither dots nor separators. -/
theorem FindLastOf_map_tolower (text : CStr) (d : Char)
    (hd : d.toNat < 65 ∨ (90 < d.toNat ∧ d.toNat < 97) ∨ 122 < d.toNat) :
    String.FindLastOf (text.map tolower) d = String.FindLastOf text d := by
  unfold String.FindLastOf
  rw [List.length_map]
  exact FindLastOf_go_map_tolower text d hd text.length

theorem Substr_map (f : Char → Char) (text : CStr) (start count : Int) :
    String.Substr (text.map f) start count = (String.Substr text start count).map f := by
  unfold String.Substr
  simp only [List.length_map]
  split_ifs <;> simp [List.map_drop, List.map_take]

theorem map_tolower_idem (l : CStr) : (l.map tolower).map tolower = l.map tolower := by
  rw [List.map_map]
  apply List.map_congr_left
  intro c _
  exact tolower_idem c

/-- The extension only depends on the lower-cased path. -/
theorem GetExtension_map_tolower (p : CStr) :
    Path.GetExtension (p.map tolower) = Path.GetExtension p := by
  unfold Path.GetExtension
  simp only [FindLastOf_map_tolower p '.' (by decide), FindLastOf_map_tolower p '/' (by decide),
    FindLastOf_map_tolower p '\\' (by decide), Substr_map, String.ToLowerInPlace, map_tolower_idem]

theorem GetExtension_no_upper (p : CStr) : ∀ c ∈ Path.GetExtension p, ¬ isUpperAscii c := by
  have hmap : ∀ (l : CStr), ∀ c ∈ String.ToLowerInPlace l, ¬ isUpperAscii c := by
    intro l c hc
    unfold String.ToLowerInPlace at hc
    obtain ⟨x, _, rfl⟩ := List.mem_map.mp hc
    exact tolower_not_upper x
  intro c hc
  unfold Path.GetExtension at hc
  simp only at hc
  split at hc
  · rename_i rv b heq
    split_ifs at heq <;> simp at heq
    obtain ⟨h1, _⟩ := heq
    rw [← h1] at hc
    exact hmap _ c hc
  · split_ifs at hc
    · exact hmap _ c hc
    · simp at hc

/-- The extension of `pre ++ "." ++ ext` when `ext` has neither dot nor separator. -/
theorem GetExtension_of_decomp (pre ext : CStr) (hdot : '.' ∉ ext) (hsep : ∀ c ∈ ext, isSep c = false) :
    Path.GetExtension (pre ++ '.' :: ext) = ('.' :: ext).map tolower := by
  obtain ⟨h1, h2⟩ := not_mem_of_sepFree ext hsep
  have hsplit : pre ++ '.' :: ext = pre ++ ('.' :: ext) := rfl
  have hb : String.FindLastOf (pre ++ '.' :: ext) '.' = (pre.length : Int) :=
    FindLastOf_last pre ext '.' hdot
  have hb2 : String.FindLastOf (pre ++ '.' :: ext) '/' = String.FindLastOf pre '/' :=
    FindLastOf_append_of_not_mem pre ('.' :: ext) '/' (by simp [h1])
  have hb3 : String.FindLastOf (pre ++ '.' :: ext) '\\' = String.FindLastOf pre '\\' :=
    FindLastOf_append_of_not_mem pre ('.' :: ext) '\\' (by simp [h2])
  have hbd2 := FindLastOf_bounds pre '/'
  have hbd3 := FindLastOf_bounds pre '\\'
  have hsub : String.Substr (pre ++ '.' :: ext) (pre.length : Int) (-1) = '.' :: ext :=
    Substr_to_end pre ('.' :: ext)
  unfold Path.GetExtension
  simp only [hb, hb2, hb3, hsub, String.ToLowerInPlace]
  have hne : (pre.length : Int) ≠ -1 := by omega
  split
  · rename_i rv b heq
    split_ifs at heq <;> simp at heq
    exact heq.1.symm
  · rename_i b heq
    have hlt : (pre.length : Int) > b := by
      split_ifs at heq <;> simp at heq <;> omega
    simp [hlt, hne]

/-- Splitting a list at an index holding `a`. -/
theorem split_at_index (p : CStr) (k : Nat) (a : Char) (hk : p[k]? = some a) :
    p = p.take k ++ a :: p.drop (k + 1) ∧ (p.take k).length = k ∧
      p.drop k = a :: p.drop (k + 1) := by
  have hlt : k < p.length := by
    by_contra hcon
    rw [List.getElem?_eq_none (by omega)] at hk
    exact absurd hk (by simp)
  have hget : p[k] = a := by
    rw [List.getElem?_eq_getElem hlt] at hk
    exact Option.some.inj hk
  refine ⟨?_, ?_, ?_⟩
  · conv_lhs => rw [← List.take_append_drop k p]
    rw [List.drop_eq_getElem_cons hlt, hget]
  · rw [List.length_take]; omega
  · rw [List.drop_eq_getElem_cons hlt, hget]

theorem mem_drop_iff_getElem? (p : CStr) (k : Nat) (c : Char) :
    c ∈ p.drop k ↔ ∃ j, k ≤ j ∧ p[j]? = some c := by
  constructor
  · intro h
    obtain ⟨j, hj, hget⟩ := List.getElem_of_mem h
    refine ⟨k + j, by omega, ?_⟩
    rw [← hget, List.getElem_drop, List.getElem?_eq_getElem]
  · rintro ⟨j, hkj, hget⟩
    have hlt : j < p.length := by
      by_contra hcon
      rw [List.getElem?_eq_none (by omega)] at hget
      exact absurd hget (by simp)
    rw [List.getElem?_eq_getElem hlt] at hget
    have := Option.some.inj hget
    rw [List.mem_iff_getElem]
    refine ⟨j - k, by rw [List.length_drop]; omega, ?_⟩
    rw [List.getElem_drop]
    have e : k + (j - k) = j := by omega
    simp only [e]
    exact this

theorem Substr_length_le (p : CStr) (n : Int) (hn : 0 ≤ n) :
    (String.Substr p 0 n).length ≤ n.toNat := by
  unfold String.Substr
  have h1 : ¬ n < 0 := by omega
  simp only [h1, if_false, Int.toNat_zero, List.drop_zero]
  split_ifs
  · rw [List.length_take]; omega
  · simp

theorem GetDirectoryName_go_fuel (fuel1 : Nat) : ∀ (fuel2 : Nat) (p : CStr),
    p.length < fuel1 → p.length < fuel2 →
    Path.GetDirectoryName.go fuel1 p = Path.GetDirectoryName.go fuel2 p := by
  induction fuel1 with
  | zero => intro _ p h; omega
  | succ n ih =>
    intro fuel2 p h1 h2
    cases fuel2 with
    | zero => omega
    | succ m =>
      unfold Path.GetDirectoryName.go
      simp only
      split_ifs with ha hb
      all_goals first
        | rfl
        | (have hpos : 0 < p.length := by
             rcases Nat.eq_zero_or_pos p.length with h0 | h0
             · exact absurd (Or.inl (by exact_mod_cast h0)) ha
             · exact h0
           have hl := Substr_length_le p ((p.length : Int) - 1) (by omega)
           exact ih m _ (by omega) (by omega))

theorem Substr_zero_initial (p : CStr) (n : Int) (hn : 0 ≤ n) : String.Substr p 0 n <+: p := by
  unfold String.Substr
  have h1 : ¬ n < 0 := by omega
  simp only [h1, if_false]
  by_cases h : n > 0
  · rw [if_pos h]
    simp only [Int.toNat_zero, List.drop_zero]
    exact List.take_prefix _ _
  · rw [if_neg h]
    exact List.nil_prefix

theorem Substr_dropLast (q : CStr) (s : Char) :
    String.Substr (q ++ [s]) 0 (((q ++ [s]).length : Int) - 1) = q := by
  have h := Substr_from_start q [s]
  have hl : (((q ++ [s]).length : Int) - 1) = (q.length : Int) := by
    rw [List.length_append]; simp
  rw [hl]; exact h

/-- One level of `GetDirectoryName`. -/
theorem GetDirectoryName_go_succ (fuel : Nat) (p : CStr) :
    Path.GetDirectoryName.go (fuel + 1) p =
      if ((p.length : Nat) : Int) = 0 ∨ p = ['/'] ∨ p = ['\\'] then some p
      else if p.getLast? = some '/' ∨ p.getLast? = some '\\' then
        Path.GetDirectoryName.go fuel (String.Substr p 0 ((p.length : Int) - 1))
      else if p.getLast? = some ':' then some p
      else if (if String.FindLastOf p '\\' > String.FindLastOf p '/' then
          String.FindLastOf p '\\' else String.FindLastOf p '/') = 0 then
        some (String.Substr p 0 1)
      else if (if String.FindLastOf p '\\' > String.FindLastOf p '/' then
          String.FindLastOf p '\\' else String.FindLastOf p '/') ≠ -1 then
        some (String.Substr p 0 (if String.FindLastOf p '\\' > String.FindLastOf p '/' then
          String.FindLastOf p '\\' else String.FindLastOf p '/'))
      else some [] := rfl

/-- The value returned when the path ends neither in a separator nor in `:`. -/
theorem GetDirectoryName_plain_shorter (p : CStr) (hne : p ≠ [])
    (h2 : ¬ (p.getLast? = some '/' ∨ p.getLast? = some '\\')) (r : CStr)
    (hr : (if (if String.FindLastOf p '\\' > String.FindLastOf p '/' then
          String.FindLastOf p '\\' else String.FindLastOf p '/') = 0 then
        some (String.Substr p 0 1)
      else if (if String.FindLastOf p '\\' > String.FindLastOf p '/' then
          String.FindLastOf p '\\' else String.FindLastOf p '/') ≠ -1 then
        some (String.Substr p 0 (if String.FindLastOf p '\\' > String.FindLastOf p '/' then
          String.FindLastOf p '\\' else String.FindLastOf p '/'))
      else some []) = some r) :
    r <+: p ∧ r.length < p.length := by
  have hb1 := FindLastOf_bounds p '\\'
  have hb2 := FindLastOf_bounds p '/'
  have hpos : 0 < p.length := List.length_pos.mpr hne
  by_cases h0 : (if String.FindLastOf p '\\' > String.FindLastOf p '/' then String.FindLastOf p '\\'
      else String.FindLastOf p '/') = 0
  · rw [if_pos h0] at hr
    rw [← Option.some.inj hr]
    refine ⟨Substr_zero_initial p 1 (by omega), ?_⟩
    have hl := Substr_length_le p 1 (by omega)
    have h2len : 2 ≤ p.length := by
      by_contra hc
      have h1len : p.length = 1 := by omega
      obtain ⟨x, rfl⟩ := List.length_eq_one.mp h1len
      simp only [List.getLast?_singleton, Option.some.injEq] at h2
      have hx1 : ¬ x = '/' := fun h => h2 (Or.inl h)
      have hx2 : ¬ x = '\\' := fun h => h2 (Or.inr h)
      simp [String.FindLastOf, String.FindLastOf.go, hx1, hx2] at h0
    have : (1 : Int).toNat = 1 := rfl
    omega
  · rw [if_neg h0] at hr
    by_cases h1 : (if String.FindLastOf p '\\' > String.FindLastOf p '/' then String.FindLastOf p '\\'
      else String.FindLastOf p '/') ≠ -1
    · rw [if_pos h1] at hr
      rw [← Option.some.inj hr]
      have hbeg : 0 ≤ (if String.FindLastOf p '\\' > String.FindLastOf p '/' then
          String.FindLastOf p '\\' else String.FindLastOf p '/') := by
        split_ifs at h0 h1 ⊢ <;> omega
      have hlt : (if String.FindLastOf p '\\' > String.FindLastOf p '/' then
          String.FindLastOf p '\\' else String.FindLastOf p '/') < (p.length : Int) := by
        split_ifs <;> omega
      refine ⟨Substr_zero_initial p _ hbeg, ?_⟩
      have hl := Substr_length_le p _ hbeg
      omega
    · rw [if_neg h1] at hr
      rw [← Option.some.inj hr]
      refine ⟨?_, by simpa using hpos⟩
      exact List.nil_prefix

/-- With more levels than the path has characters the recursion of
`GetDirectoryName` returns, and what it returns is a prefix of the path: the
path itself for a root token, something shorter otherwise. -/
theorem GetDirectoryName_go_returns : ∀ (fuel : Nat) (p : CStr), p.length < fuel →
    ∃ r, Path.GetDirectoryName.go fuel p = some r ∧ r <+: p ∧
      (isRootToken p → r = p) ∧ (¬ isRootToken p → r.length < p.length) := by
  intro fuel
  induction fuel with
  | zero => intro p h; omega
  | succ n ih =>
    intro p hp
    rw [GetDirectoryName_go_succ]
    by_cases hb : ((p.length : Nat) : Int) = 0 ∨ p = ['/'] ∨ p = ['\\']
    · rw [if_pos hb]
      refine ⟨p, rfl, List.prefix_refl _, fun _ => rfl, fun h => absurd ?_ h⟩
      rcases hb with h | h | h
      · exact Or.inl (List.length_eq_zero.mp (by omega))
      · exact Or.inr (Or.inl h)
      · exact Or.inr (Or.inr (Or.inl h))
    · rw [if_neg hb]
      have hne : p ≠ [] := fun h => hb (Or.inl (by rw [h]; rfl))
      obtain ⟨q, s, rfl⟩ : ∃ q s, p = q ++ [s] :=
        ⟨p.dropLast, p.getLast hne, (List.dropLast_append_getLast hne).symm⟩
      have hlast : (q ++ [s]).getLast? = some s := List.getLast?_concat _
      have hqlen : q.length < n := by
        rw [List.length_append] at hp; simp at hp; omega
      have hnotroot3 : ¬ (q ++ [s] = [] ∨ q ++ [s] = ['/'] ∨ q ++ [s] = ['\\']) := by
        rintro (h | h | h)
        · exact hne h
        · exact hb (Or.inr (Or.inl h))
        · exact hb (Or.inr (Or.inr h))
      by_cases hs : isSep s = true
      · have hsl : (q ++ [s]).getLast? = some '/' ∨ (q ++ [s]).getLast? = some '\\' := by
          rw [hlast]
          rcases (isSep_true_iff s).mp hs with h | h
          · exact Or.inl (by rw [h])
          · exact Or.inr (by rw [h])
        rw [if_pos hsl, Substr_dropLast]
        obtain ⟨r, hr, hpre, -, -⟩ := ih q hqlen
        have hle := hpre.length_le
        refine ⟨r, hr, hpre.trans (List.prefix_append q [s]), ?_, ?_⟩
        · rintro (h | h | h | h)
          · exact absurd h hne
          · exact absurd (Or.inr (Or.inl h)) hnotroot3
          · exact absurd (Or.inr (Or.inr h)) hnotroot3
          · rw [hlast] at h
            have : s = ':' := Option.some.inj h
            rw [this] at hs; exact absurd hs (by decide)
        · intro _
          rw [List.length_append, List.length_singleton]
          omega
      · have hs2 : ¬ ((q ++ [s]).getLast? = some '/' ∨ (q ++ [s]).getLast? = some '\\') := by
          rw [hlast]
          rintro (h | h)
          · exact hs ((isSep_true_iff s).mpr (Or.inl (Option.some.inj h)))
          · exact hs ((isSep_true_iff s).mpr (Or.inr (Option.some.inj h)))
        rw [if_neg hs2]
        by_cases hc : (q ++ [s]).getLast? = some ':'
        · rw [if_pos hc]
          exact ⟨q ++ [s], rfl, List.prefix_refl _, fun _ => rfl,
            fun h => absurd (Or.inr (Or.inr (Or.inr hc))) h⟩
        · rw [if_neg hc]
          have hsome : ∃ r, (if (if String.FindLastOf (q ++ [s]) '\\' >
                String.FindLastOf (q ++ [s]) '/' then String.FindLastOf (q ++ [s]) '\\'
                else String.FindLastOf (q ++ [s]) '/') = 0 then
              some (String.Substr (q ++ [s]) 0 1)
            else if (if String.FindLastOf (q ++ [s]) '\\' > String.FindLastOf (q ++ [s]) '/' then
                String.FindLastOf (q ++ [s]) '\\' else String.FindLastOf (q ++ [s]) '/') ≠ -1 then
              some (String.Substr (q ++ [s]) 0 (if String.FindLastOf (q ++ [s]) '\\' >
                String.FindLastOf (q ++ [s]) '/' then String.FindLastOf (q ++ [s]) '\\'
                else String.FindLastOf (q ++ [s]) '/'))
            else some []) = some r := by
            split_ifs <;> exact ⟨_, rfl⟩
          obtain ⟨r, hr⟩ := hsome
          have := GetDirectoryName_plain_shorter (q ++ [s]) hne hs2 r hr
          refine ⟨r, hr, this.1, ?_, fun _ => this.2⟩
          rintro (h | h | h | h)
          · exact absurd h hne
          · exact absurd (Or.inr (Or.inl h)) hnotroot3
          · exact absurd (Or.inr (Or.inr h)) hnotroot3
          · exact absurd h hc

/-- The recursion of `GetDirectoryName` always ends within `length + 1`
levels: with that much fuel or more the body returns, and it returns
`GetDirectoryName p`. -/
theorem GetDirectoryName_fuel (fuel : Nat) (p : CStr) (h : p.length < fuel) :
    Path.GetDirectoryName.go fuel p = some (Path.GetDirectoryName p) := by
  obtain ⟨r, hr, -⟩ := GetDirectoryName_go_returns (p.length + 1) p (Nat.lt_succ_self _)
  rw [GetDirectoryName_go_fuel fuel (p.length + 1) p h (Nat.lt_succ_self _)]
  unfold Path.GetDirectoryName
  rw [hr]
  rfl

/-! ## The cursor invariant of `History` -/

theorem ImVector_resize_length {α : Type} [Inhabited α] (v : List α) (n : Nat) :
    (ImVector.resize v n).length = n := by
  unfold ImVector.resize
  simp only [List.length_append, List.length_take, List.length_replicate]
  omega

theorem ImVector_resize_take {α : Type} [Inhabited α] (v : List α) (n k : Nat)
    (hk : k ≤ n) (hv : k ≤ v.length) :
    (ImVector.resize v n).take k = v.take k := by
  unfold ImVector.resize
  rw [List.take_append_of_le_length (by simp; omega), List.take_take]
  congr 1
  omega

/-- Common shape of a successful `switchTo`: the cursor moves to `c+1`, the
vector is resized to `c+2` and slot `c+1` is written. -/
theorem Inv_push (info : List FolderInfo) (c : Int) (fi : FolderInfo) (cap0 cap : Nat)
    (hinv : History.Inv ⟨info, c, cap0⟩) :
    History.Inv ⟨(ImVector.resize info (c + 1 + 1).toNat).set (c + 1).toNat fi, c + 1, cap⟩ := by
  right
  simp only [List.length_set, ImVector_resize_length]
  rcases hinv with ⟨h1, _⟩ | ⟨h1, _⟩ <;> simp only at h1 <;> omega

/-- The outcome of `switchTo(const char*)` from a valid cursor for a non-empty
path that the current entry is not equal to. -/
theorem switchTo_of_ne (h : History) (p : CStr) (hp : p ≠ []) (hc : 0 ≤ h.currentInfoIndex)
    (hne : (h.infoAt h.currentInfoIndex).isEqualPath p = false) :
    h.switchTo (some p) =
      if (h.infoAt h.currentInfoIndex).getSplitPathIndexFor (some p) = -1 then
        some (true, ⟨(ImVector.resize h.info (h.currentInfoIndex + 1 + 1).toNat).set
          (h.currentInfoIndex + 1).toNat
          (((ImVector.resize h.info (h.currentInfoIndex + 1 + 1).toNat).getD
            (h.currentInfoIndex + 1).toNat default).fromCurrentFolder (some p)),
          h.currentInfoIndex + 1,
          ImVector.resizeCapacity h.Capacity (h.currentInfoIndex + 1 + 1).toNat⟩)
      else if (h.currentInfoIndex + 1 + 1).toNat > h.Capacity then none
      else
        some (true, ⟨(ImVector.resize h.info (h.currentInfoIndex + 1 + 1).toNat).set
          (h.currentInfoIndex + 1).toNat
          { h.infoAt h.currentInfoIndex with
            splitPathIndex := (h.infoAt h.currentInfoIndex).getSplitPathIndexFor (some p)
            currentFolder := p },
          h.currentInfoIndex + 1,
          ImVector.resizeCapacity h.Capacity (h.currentInfoIndex + 1 + 1).toNat⟩) := by
  have hlen : p.length ≠ 0 := by
    intro h0; exact hp (List.length_eq_zero.mp h0)
  have hnot : ¬ h.currentInfoIndex < 0 := by omega
  unfold History.switchTo
  simp only [hlen, if_false, hnot, hne, Bool.false_eq_true]

/-- A successful `switchTo(const char*)` from a valid cursor writes one entry
behind the cursor. -/
theorem switchTo_some_of_ne (h : History) (p : CStr) (hp : p ≠ []) (hc : 0 ≤ h.currentInfoIndex)
    (hne : (h.infoAt h.currentInfoIndex).isEqualPath p = false) (r : Bool × History)
    (hs : h.switchTo (some p) = some r) :
    ∃ fi, r = (true, ⟨(ImVector.resize h.info (h.currentInfoIndex + 1 + 1).toNat).set
        (h.currentInfoIndex + 1).toNat fi, h.currentInfoIndex + 1,
        ImVector.resizeCapacity h.Capacity (h.currentInfoIndex + 1 + 1).toNat⟩) := by
  rw [switchTo_of_ne h p hp hc hne] at hs
  by_cases h1 : (h.infoAt h.currentInfoIndex).getSplitPathIndexFor (some p) = -1
  · rw [if_pos h1] at hs
    exact ⟨_, (Option.some.inj hs).symm⟩
  · rw [if_neg h1] at hs
    by_cases h2 : (h.currentInfoIndex + 1 + 1).toNat > h.Capacity
    · rw [if_pos h2] at hs; exact absurd hs (by simp)
    · rw [if_neg h2] at hs
      exact ⟨_, (Option.some.inj hs).symm⟩

theorem Inv_switchTo (h : History) (p : Option CStr) (r : Bool × History)
    (hs : h.switchTo p = some r) (hinv : h.Inv) : r.2.Inv := by
  cases p with
  | none =>
    have : r = (false, h) := (Option.some.inj hs).symm
    rw [this]; exact hinv
  | some p =>
    by_cases hp : p = []
    · subst hp
      have : r = (false, h) := (Option.some.inj hs).symm
      rw [this]; exact hinv
    · have hlen : p.length ≠ 0 := fun h0 => hp (List.length_eq_zero.mp h0)
      by_cases hc : h.currentInfoIndex < 0
      · unfold History.switchTo at hs
        simp only [hlen, if_false, hc, if_true] at hs
        rw [← Option.some.inj hs]
        exact Inv_push h.info h.currentInfoIndex _ h.Capacity _ hinv
      · by_cases he : (h.infoAt h.currentInfoIndex).isEqualPath p = true
        · unfold History.switchTo at hs
          simp only [hlen, if_false, hc, he, if_true] at hs
          rw [← Option.some.inj hs]; exact hinv
        · have he2 : (h.infoAt h.currentInfoIndex).isEqualPath p = false := by
            simpa using he
          obtain ⟨fi, rfl⟩ := switchTo_some_of_ne h p hp (by omega) he2 r hs
          exact Inv_push h.info h.currentInfoIndex _ h.Capacity _ hinv

theorem Inv_switchToFolderInfo (h : History) (fi : FolderInfo) (hinv : h.Inv) :
    (h.switchToFolderInfo fi).2.Inv := by
  unfold History.switchToFolderInfo
  split_ifs
  · exact hinv
  · exact hinv
  · exact Inv_push h.info h.currentInfoIndex _ h.Capacity _ hinv

theorem Inv_goBack (h : History) (hinv : h.Inv) : h.goBack.Inv := by
  unfold History.goBack History.canGoBack
  split_ifs with hc
  · right
    simp only [decide_eq_true_eq] at hc
    rcases hinv with ⟨h1, _⟩ | ⟨h1, h2⟩
    · omega
    · simp only; omega
  · exact hinv

theorem Inv_goForward (h : History) (hinv : h.Inv) : h.goForward.Inv := by
  unfold History.goForward History.canGoForward
  split_ifs with hc
  · right
    simp only [Bool.and_eq_true, decide_eq_true_eq] at hc
    simp only; omega
  · exact hinv

theorem Inv_of_Reachable (h : History) (hr : h.Reachable) : h.Inv := by
  induction hr with
  | reset => left; exact ⟨rfl, rfl⟩
  | switchTo h p r _ hs ih => exact Inv_switchTo h p r hs ih
  | switchToFreed h p freed _ _ ih => exact Inv_push h.info h.currentInfoIndex _ h.Capacity _ ih
  | switchToFolderInfo h fi _ ih => exact Inv_switchToFolderInfo h fi ih
  | goBack h _ ih => exact Inv_goBack h ih
  | goForward h _ ih => exact Inv_goForward h ih

theorem Reachable_switchToAll : ∀ (ps : List CStr) (h h2 : History), h.Reachable →
    History.switchToAll h ps = some h2 → h2.Reachable := by
  intro ps
  induction ps with
  | nil =>
    intro h h2 hr hs
    have : h = h2 := Option.some.inj hs
    rw [← this]; exact hr
  | cons p ps ih =>
    intro h h2 hr hs
    rw [History.switchToAll] at hs
    cases hsw : h.switchTo (some p) with
    | none => rw [hsw] at hs; exact absurd hs (by simp)
    | some r =>
      rw [hsw] at hs
      exact ih r.2 h2 (History.Reachable.switchTo h (some p) r hr hsw) hs

/-- What a successful `switchTo` of a new path leaves, in terms of the claim. -/
theorem switchTo_discards (h : History) (hr : h.Reachable) (i : Nat)
    (hi : h.currentInfoIndex = (i : Int)) (p : CStr) (hp : p ≠ [])
    (hne : (h.infoAt h.currentInfoIndex).isEqualPath p = false) (r : Bool × History)
    (hs : h.switchTo (some p) = some r) :
    r.1 = true ∧ r.2.info.length = i + 2 ∧ i + 1 ≤ h.info.length ∧
      r.2.info.take (i + 1) = h.info.take (i + 1) ∧
      r.2.currentInfoIndex = (i : Int) + 1 ∧ r.2.canGoForward = false := by
  have hinv := Inv_of_Reachable h hr
  have hlt : (i : Int) < (h.info.length : Int) := by
    rcases hinv with ⟨h1, _⟩ | ⟨_, h2⟩ <;> omega
  have hlt2 : i + 1 ≤ h.info.length := by omega
  obtain ⟨fi, rfl⟩ := switchTo_some_of_ne h p hp (by omega) hne r hs
  rw [hi]
  have e1 : ((i : Int) + 1 + 1).toNat = i + 2 := by omega
  have e2 : ((i : Int) + 1).toNat = i + 1 := by omega
  simp only [e1, e2]
  refine ⟨trivial, ?_, hlt2, ?_, trivial, ?_⟩
  · rw [List.length_set, ImVector_resize_length]
  · rw [List.set_take, List.set_eq_of_length_le (by simp)]
    exact ImVector_resize_take h.info (i + 2) (i + 1) (by omega) hlt2
  · unfold History.canGoForward
    simp only [List.length_set, ImVector_resize_length]
    simp
    omega

theorem switchTo_none_iff (h : History) (i : Nat)
    (hi : h.currentInfoIndex = (i : Int)) (p : CStr) (hp : p ≠ [])
    (hne : (h.infoAt h.currentInfoIndex).isEqualPath p = false) :
    h.switchTo (some p) = none ↔
      ((h.infoAt h.currentInfoIndex).getSplitPathIndexFor (some p) ≠ -1 ∧ h.Capacity < i + 2) := by
  rw [switchTo_of_ne h p hp (by omega) hne]
  have e1 : (h.currentInfoIndex + 1 + 1).toNat = i + 2 := by omega
  rw [e1]
  by_cases h1 : (h.infoAt h.currentInfoIndex).getSplitPathIndexFor (some p) = -1
  · rw [if_pos h1]; simp [h1]
  · rw [if_neg h1]
    by_cases h2 : i + 2 > h.Capacity
    · rw [if_pos h2]; simp [h1]; omega
    · rw [if_neg h2]; simp [h1]; omega

/-! ## Navigation history -/

/-- C1 fails on the code: in the reachable history left by eighteen
`switchTo` calls (18 entries, cursor 17, storage for 18, current folder
`/q/r/s`) the call `switchTo("/q/r")`, whose path differs from the current
entry and names one of its breadcrumb segments, has no defined outcome:
`info.resize(19)` moves the storage and `fi = lastInfo` then reads the freed
entry, where the claim has the call return true. For every reachable history
with cursor `i ≥ 0` and every non-empty `p` that the current entry is not equal
to, this is the only failure (`p` names a breadcrumb segment of the current
entry and the storage has no room for `i+2` entries); whenever the call
returns, it returns true and leaves exactly `i+2` entries, the first `i+1`
unchanged, the cursor on `i+1` and `canGoForward()` false. In the scenario
`switchTo("/a")`, `switchTo("/a/b")`, `goBack()`, `switchTo("/a/c")` from the
empty history the entries left are `/a` and `/a/c`, and `goForward()` changes
nothing. -/
theorem switchTo_reads_freed_entry :
    (∃ h : History,
      History.switchToAll History.reset
        ["/a".toList, "/b".toList, "/c".toList, "/d".toList, "/e".toList, "/f".toList,
         "/g".toList, "/h".toList, "/i".toList, "/j".toList, "/k".toList, "/l".toList,
         "/m".toList, "/n".toList, "/o".toList, "/p".toList, "/q".toList, "/q/r/s".toList]
        = some h ∧
      h.Reachable ∧ h.info.length = 18 ∧ h.currentInfoIndex = 17 ∧ h.Capacity = 18 ∧
      h.getCurrentFolder = some "/q/r/s".toList ∧
      (h.infoAt h.currentInfoIndex).isEqualPath "/q/r".toList = false ∧
      h.switchTo (some "/q/r".toList) = none) ∧
    (∀ h : History, h.Reachable → ∀ i : Nat, h.currentInfoIndex = (i : Int) →
      ∀ p : CStr, p ≠ [] → (h.infoAt h.currentInfoIndex).isEqualPath p = false →
      (h.switchTo (some p) = none ↔
        ((h.infoAt h.currentInfoIndex).getSplitPathIndexFor (some p) ≠ -1 ∧
          h.Capacity < i + 2)) ∧
      (∀ r : Bool × History, h.switchTo (some p) = some r →
        r.1 = true ∧ r.2.info.length = i + 2 ∧ i + 1 ≤ h.info.length ∧
        r.2.info.take (i + 1) = h.info.take (i + 1) ∧
        r.2.currentInfoIndex = (i : Int) + 1 ∧ r.2.canGoForward = false)) ∧
    (History.switchToAll History.reset ["/a".toList, "/a/b".toList]).bind
        (fun h => h.goBack.switchTo (some "/a/c".toList))
      = some (true, ⟨[⟨"/a".toList, "/a".toList, 1, -1⟩,
          ⟨"/a/c".toList, "/a/c".toList, 2, -1⟩], 1, 8⟩) ∧
    History.goForward ⟨[⟨"/a".toList, "/a".toList, 1, -1⟩,
        ⟨"/a/c".toList, "/a/c".toList, 2, -1⟩], 1, 8⟩
      = ⟨[⟨"/a".toList, "/a".toList, 1, -1⟩, ⟨"/a/c".toList, "/a/c".toList, 2, -1⟩], 1, 8⟩ := by
  refine ⟨?_, ?_, by decide, by decide⟩
  · have hsome : (History.switchToAll History.reset
        ["/a".toList, "/b".toList, "/c".toList, "/d".toList, "/e".toList, "/f".toList,
         "/g".toList, "/h".toList, "/i".toList, "/j".toList, "/k".toList, "/l".toList,
         "/m".toList, "/n".toList, "/o".toList, "/p".toList, "/q".toList,
         "/q/r/s".toList]).isSome = true := by decide
    obtain ⟨h, hh⟩ := Option.isSome_iff_exists.mp hsome
    have hm : (History.switchToAll History.reset
        ["/a".toList, "/b".toList, "/c".toList, "/d".toList, "/e".toList, "/f".toList,
         "/g".toList, "/h".toList, "/i".toList, "/j".toList, "/k".toList, "/l".toList,
         "/m".toList, "/n".toList, "/o".toList, "/p".toList, "/q".toList,
         "/q/r/s".toList]).map
        (fun h => (h.info.length, h.currentInfoIndex, h.Capacity, h.getCurrentFolder))
        = some (18, 17, 18, some "/q/r/s".toList) := by decide
    have hq : (History.switchToAll History.reset
        ["/a".toList, "/b".toList, "/c".toList, "/d".toList, "/e".toList, "/f".toList,
         "/g".toList, "/h".toList, "/i".toList, "/j".toList, "/k".toList, "/l".toList,
         "/m".toList, "/n".toList, "/o".toList, "/p".toList, "/q".toList,
         "/q/r/s".toList]).map
        (fun h => (h.infoAt h.currentInfoIndex).isEqualPath "/q/r".toList)
        = some false := by decide
    have hb : (History.switchToAll History.reset
        ["/a".toList, "/b".toList, "/c".toList, "/d".toList, "/e".toList, "/f".toList,
         "/g".toList, "/h".toList, "/i".toList, "/j".toList, "/k".toList, "/l".toList,
         "/m".toList, "/n".toList, "/o".toList, "/p".toList, "/q".toList,
         "/q/r/s".toList]).bind (fun h => h.switchTo (some "/q/r".toList)) = none := by decide
    rw [hh] at hm hq hb
    simp only [Option.map_some', Option.some.injEq, Prod.mk.injEq] at hm hq
    obtain ⟨h1, h2, h3, h4⟩ := hm
    have h5 := hq
    exact ⟨h, hh, Reachable_switchToAll _ _ _ History.Reachable.reset hh, h1, h2, h3, h4, h5, hb⟩
  · intro h hr i hi p hp hne
    exact ⟨switchTo_none_iff h i hi p hp hne,
      fun r hs => switchTo_discards h hr i hi p hp hne r hs⟩

/-- C2: in every state reachable from `reset()` by `switchTo` (either
overload), `goBack()` and `goForward()`, the cursor satisfies
`-1 ≤ currentInfoIndex < info.size()`, and it is `-1` exactly when the
sequence is empty. -/
theorem cursor_in_range_of_reachable (h : History) (hr : h.Reachable) :
    -1 ≤ h.currentInfoIndex ∧ h.currentInfoIndex < (h.info.length : Int) ∧
      (h.currentInfoIndex = -1 ↔ h.info = []) := by
  rcases Inv_of_Reachable h hr with ⟨h1, h2⟩ | ⟨h1, h2⟩
  · simp [h1, h2]
  · refine ⟨by omega, h2, ?_⟩
    constructor
    · intro h3; omega
    · intro h3; rw [h3] at h2; simp at h2; omega

/-- The invariant at the history holding the single entry `/a`, the state
after `reset()` and `switchTo("/a")`. -/
theorem cursor_in_range_of_reachable_witness :
    -1 ≤ (⟨[⟨"/a".toList, "/a".toList, 1, -1⟩], 0, 8⟩ : History).currentInfoIndex ∧
      (⟨[⟨"/a".toList, "/a".toList, 1, -1⟩], 0, 8⟩ : History).currentInfoIndex <
        ((⟨[⟨"/a".toList, "/a".toList, 1, -1⟩], 0, 8⟩ : History).info.length : Int) ∧
      ((⟨[⟨"/a".toList, "/a".toList, 1, -1⟩], 0, 8⟩ : History).currentInfoIndex = -1 ↔
        (⟨[⟨"/a".toList, "/a".toList, 1, -1⟩], 0, 8⟩ : History).info = []) :=
  cursor_in_range_of_reachable ⟨[⟨"/a".toList, "/a".toList, 1, -1⟩], 0, 8⟩
    (History.Reachable.switchTo History.reset (some "/a".toList)
      (true, ⟨[⟨"/a".toList, "/a".toList, 1, -1⟩], 0, 8⟩) History.Reachable.reset (by decide))

/-- C3, as stated, fails: in the reachable `Empty` state `canGoForward()` is
false although there is no last index for the cursor to be at. -/
theorem canGoForward_false_not_iff_at_last :
    ¬ ∀ h : History, h.Reachable →
      ((h.canGoBack = false ↔ (h.currentInfoIndex = 0 ∨ h.isEmpty)) ∧
        (h.canGoForward = false ↔ h.cursorAtLastIndex)) := by
  intro hall
  have h2 := (hall History.reset History.Reachable.reset).2
  have h3 : History.reset.cursorAtLastIndex := h2.mp (by decide)
  exact h3.1 rfl

/-- C3, amended: for every reachable history, `canGoBack()` is false exactly
when the cursor is at index 0 or the history is `Empty`, and `canGoForward()`
is false exactly when the cursor is at the last index or the history is
`Empty`. -/
theorem canGo_false_iff (h : History) (hr : h.Reachable) :
    (h.canGoBack = false ↔ (h.currentInfoIndex = 0 ∨ h.isEmpty)) ∧
      (h.canGoForward = false ↔ (h.cursorAtLastIndex ∨ h.isEmpty)) := by
  have hinv := Inv_of_Reachable h hr
  unfold History.canGoBack History.canGoForward History.cursorAtLastIndex History.isEmpty
  rcases hinv with ⟨h1, h2⟩ | ⟨h1, h2⟩
  · simp [h1, h2]
  · have hne : h.info ≠ [] := by
      intro h0; rw [h0] at h2; simp at h2; omega
    simp only [hne, or_false, ne_eq, not_false_eq_true, true_and]
    constructor
    · simp
      omega
    · simp
      omega

/-- The amended C3 at the history holding the single entry `/a`, the state
after `reset()` and `switchTo("/a")`. -/
theorem canGo_false_iff_witness :
    ((⟨[⟨"/a".toList, "/a".toList, 1, -1⟩], 0, 8⟩ : History).canGoBack = false ↔
        ((⟨[⟨"/a".toList, "/a".toList, 1, -1⟩], 0, 8⟩ : History).currentInfoIndex = 0 ∨
          (⟨[⟨"/a".toList, "/a".toList, 1, -1⟩], 0, 8⟩ : History).isEmpty)) ∧
      ((⟨[⟨"/a".toList, "/a".toList, 1, -1⟩], 0, 8⟩ : History).canGoForward = false ↔
        ((⟨[⟨"/a".toList, "/a".toList, 1, -1⟩], 0, 8⟩ : History).cursorAtLastIndex ∨
          (⟨[⟨"/a".toList, "/a".toList, 1, -1⟩], 0, 8⟩ : History).isEmpty)) :=
  canGo_false_iff ⟨[⟨"/a".toList, "/a".toList, 1, -1⟩], 0, 8⟩
    (History.Reachable.switchTo History.reset (some "/a".toList)
      (true, ⟨[⟨"/a".toList, "/a".toList, 1, -1⟩], 0, 8⟩) History.Reachable.reset (by decide))

/-- C4: `goBack()` and `goForward()` never change the sequence of entries;
`goBack()` lowers the cursor by one when `canGoBack()` holds and otherwise
leaves it, `goForward()` raises it by one when `canGoForward()` holds and
otherwise leaves it. This holds in every state, reachable or not. -/
theorem goBack_goForward_frame (h : History) :
    h.goBack.info = h.info ∧ h.goForward.info = h.info ∧
      h.goBack.currentInfoIndex =
        (if h.canGoBack = true then h.currentInfoIndex - 1 else h.currentInfoIndex) ∧
      h.goForward.currentInfoIndex =
        (if h.canGoForward = true then h.currentInfoIndex + 1 else h.currentInfoIndex) := by
  unfold History.goBack History.goForward
  refine ⟨?_, ?_, ?_, ?_⟩ <;> split_ifs <;> rfl

/-! ## Path algebra -/

/-- C5: for every path `p`, splitting it with `GetDirectoryName` and
`GetFileName`, recombining with `Combine` in non-append mode (whatever the
output buffer held before) and taking the file name again gives
`GetFileName(p)`. -/
theorem GetFileName_Combine_roundtrip (p rv : CStr) :
    Path.GetFileName (Path.Combine (Path.GetDirectoryName p) (Path.GetFileName p) rv false)
      = Path.GetFileName p := by
  obtain ⟨_, _, hf, _⟩ := GetFileName_spec p
  exact GetFileName_Combine _ _ rv hf

/-- C6: for every path `p`, `GetExtension(p)` has no upper-case ASCII letter,
and every `q` that differs from `p` only in the case of ASCII letters has the
same extension; `/a/B.PNG` and `/a/b.png` both give `.png`. -/
theorem GetExtension_lowercase_and_case_insensitive (p : CStr) :
    (∀ c ∈ Path.GetExtension p, ¬ isUpperAscii c) ∧
    (∀ q : CStr, q.map tolower = p.map tolower → Path.GetExtension q = Path.GetExtension p) ∧
    Path.GetExtension "/a/B.PNG".toList = ".png".toList ∧
    Path.GetExtension "/a/b.png".toList = ".png".toList := by
  refine ⟨GetExtension_no_upper p, ?_, by decide, by decide⟩
  intro q hq
  rw [← GetExtension_map_tolower q, hq, GetExtension_map_tolower]

/-- C7 fails on the code: in `C:\tmp/my.dir/file` a `/` follows the last `.`
(index 13 against 9), yet `GetExtension` returns `.dir/file` instead of the
empty string, because with both kinds of separator present it only looks at
the last `\`. -/
theorem GetExtension_mixed_separators :
    String.FindLastOf "C:\\tmp/my.dir/file".toList '.' = 9 ∧
    String.FindLastOf "C:\\tmp/my.dir/file".toList '/' = 13 ∧
    Path.GetExtension "C:\\tmp/my.dir/file".toList = ".dir/file".toList := by
  decide

/-- C8: when the last `.` of `p` is at index `k` and every `/` and `\` of `p`
is before it, `GetExtension(p)` is the part of `p` from index `k` to the end
with ASCII letters lower-cased. -/
theorem GetExtension_after_last_separator (p : CStr) (k : Nat) (hk : p[k]? = some '.')
    (hlast : ∀ j, k < j → p[j]? ≠ some '.')
    (hsep : ∀ j c, p[j]? = some c → isSep c = true → j < k) :
    Path.GetExtension p = (p.drop k).map tolower := by
  obtain ⟨hp, hlen, hdrop⟩ := split_at_index p k '.' hk
  have hdot : '.' ∉ p.drop (k + 1) := by
    intro hmem
    obtain ⟨j, hj, hget⟩ := (mem_drop_iff_getElem? p (k + 1) '.').mp hmem
    exact hlast j (by omega) hget
  have hfree : ∀ c ∈ p.drop (k + 1), isSep c = false := by
    intro c hmem
    obtain ⟨j, hj, hget⟩ := (mem_drop_iff_getElem? p (k + 1) c).mp hmem
    by_contra hcon
    have hs : isSep c = true := by simpa using hcon
    have := hsep j c hget hs
    omega
  rw [hdrop]
  conv_lhs => rw [hp]
  exact GetExtension_of_decomp _ _ hdot hfree

/-- The extension of `/a/B.PnG`, whose last dot is at index 4. -/
theorem GetExtension_after_last_separator_witness :
    Path.GetExtension "/a/B.PnG".toList = ("/a/B.PnG".toList.drop 4).map tolower :=
  GetExtension_after_last_separator "/a/B.PnG".toList 4 (by decide)
    (by
      intro j hj
      have h8 : "/a/B.PnG".toList.length = 8 := by decide
      rcases Nat.lt_or_ge j 8 with hlt | hge
      · interval_cases j <;> decide
      · rw [List.getElem?_eq_none (by omega)]; simp)
    (by
      intro j c hc hs
      have h8 : "/a/B.PnG".toList.length = 8 := by decide
      rcases Nat.lt_or_ge j 4 with hlt | hge
      · exact hlt
      · exfalso
        rcases Nat.lt_or_ge j 8 with hlt8 | hge8
        · interval_cases j <;> simp at hc <;> subst hc <;> simp [isSep] at hs
        · rw [List.getElem?_eq_none (by omega)] at hc; simp at hc)

/-! ## Splitting a path at its archive -/

/-- C9 fails on the code: no segment of `docs.zipped/a.txt` ends in `.zip`,
yet `PathSplitFirstZipFolder` returns true on it, cutting the directory name
after `docs.zip` and giving `ped/a.txt` as inner path. -/
theorem PathSplitFirstZipFolder_inside_segment :
    hasZipSegment "docs.zipped/a.txt".toList = false ∧
    ∀ (GetAbsolutePath : CStr → CStr),
      UnZipFileImpl.PathSplitFirstZipFolder GetAbsolutePath (some "docs.zipped/a.txt".toList)
          false = (true, "docs.zip".toList, "ped/a.txt".toList) ∧
      (UnZipFileImpl.PathSplitFirstZipFolder GetAbsolutePath (some "docs.zipped/a.txt".toList)
          true).1 = true := by
  refine ⟨by decide, ?_⟩
  intro f
  exact ⟨rfl, rfl⟩

/-- C10 fails on the code: on `data/archive.zip/img` `PathSplitFirstZipFolder`
returns true with the inner path `/img`, which begins with a separator; the
separator-skipping loop stops four characters before the end of the path. -/
theorem PathSplitFirstZipFolder_keeps_leading_separator :
    ∀ (GetAbsolutePath : CStr → CStr) (rv1IsAbsolutePath : Bool),
      (UnZipFileImpl.PathSplitFirstZipFolder GetAbsolutePath
          (some "data/archive.zip/img".toList) rv1IsAbsolutePath).1 = true ∧
      (UnZipFileImpl.PathSplitFirstZipFolder GetAbsolutePath
          (some "data/archive.zip/img".toList) rv1IsAbsolutePath).2.2 = "/img".toList := by
  intro f b
  exact ⟨rfl, rfl⟩

/-! ## Occurrences of `.zip` and the split at the archive -/

theorem tolower_eq_lower_iff (c d : Char) (hd : 97 ≤ d.toNat ∧ d.toNat ≤ 122) :
    tolower c = d ↔ (c = d ∨ c = Char.ofNat (d.toNat - 32)) := by
  have hD : (Char.ofNat (d.toNat - 32)).toNat = d.toNat - 32 := char_toNat_ofNat _ (by omega)
  constructor
  · intro h
    have := congrArg Char.toNat h
    rw [tolower_toNat] at this
    split_ifs at this
    · right; apply char_toNat_inj; rw [hD]; omega
    · left; exact char_toNat_inj this
  · rintro (h | h)
    · subst h; apply char_toNat_inj; rw [tolower_toNat]; split_ifs <;> omega
    · apply char_toNat_inj
      have hc : c.toNat = d.toNat - 32 := by rw [h, hD]
      rw [tolower_toNat]; split_ifs <;> omega

theorem tolower_eq_z (c : Char) : tolower c = 'z' ↔ (c = 'z' ∨ c = 'Z') :=
  tolower_eq_lower_iff c 'z' (by decide)

theorem tolower_eq_i (c : Char) : tolower c = 'i' ↔ (c = 'i' ∨ c = 'I') :=
  tolower_eq_lower_iff c 'i' (by decide)

theorem tolower_eq_p (c : Char) : tolower c = 'p' ↔ (c = 'p' ∨ c = 'P') :=
  tolower_eq_lower_iff c 'p' (by decide)

theorem tolower_eq_dot (c : Char) : tolower c = '.' ↔ c = '.' :=
  tolower_eq_iff c '.' (by decide)

theorem getD_add_eq_getD_drop (p : CStr) (i k : Nat) (d : Char) :
    p.getD (i + k) d = (p.drop i).getD k d := by
  simp [List.getD_eq_getElem?_getD, List.getElem?_drop]

/-- The inner matching loop succeeds exactly on an occurrence of `.zip`. -/
theorem zipMatch_iff (p : CStr) (i : Nat) : zipMatch p i = true ↔ isZipAt p i := by
  unfold zipMatch isZipAt
  have h0 : p.getD i '\x00' = (p.drop i).getD 0 '\x00' := getD_add_eq_getD_drop p i 0 _
  simp only [zipMatch.go, Nat.add_zero, Nat.zero_add, getD_add_eq_getD_drop p i, h0]
  generalize p.drop i = q
  rcases q with _ | ⟨c0, _ | ⟨c1, _ | ⟨c2, _ | ⟨c3, rest⟩⟩⟩⟩
  all_goals simp [tolower_eq_z, tolower_eq_i, tolower_eq_p, tolower_eq_dot]

theorem scan_some (path : CStr) (isz : Int) (fuel : Nat) : ∀ (i k : Nat),
    UnZipFileImpl.PathSplitFirstZipFolder.scan path isz fuel i = some k →
    i ≤ k ∧ (k : Int) ≤ isz ∧ zipMatch path k = true ∧
      ∀ j, i ≤ j → j < k → zipMatch path j = false := by
  induction fuel with
  | zero => intro i k h; simp [UnZipFileImpl.PathSplitFirstZipFolder.scan] at h
  | succ n ih =>
    intro i k h
    unfold UnZipFileImpl.PathSplitFirstZipFolder.scan at h
    split_ifs at h with h1 h2
    · have hk : i = k := Option.some.inj h
      subst hk
      exact ⟨le_refl _, h1, h2, fun j hj hj2 => by omega⟩
    · obtain ⟨a, b, c, d⟩ := ih (i + 1) k h
      refine ⟨by omega, b, c, ?_⟩
      intro j hj hj2
      rcases Nat.eq_or_lt_of_le hj with rfl | hlt
      · simpa using h2
      · exact d j hlt hj2

/-- With enough fuel the scan only stops without a match when there is none. -/
theorem scan_none (path : CStr) (isz : Int) (fuel : Nat) : ∀ (i : Nat),
    isz + 1 ≤ (i : Int) + fuel →
    UnZipFileImpl.PathSplitFirstZipFolder.scan path isz fuel i = none →
    ∀ j, i ≤ j → (j : Int) ≤ isz → zipMatch path j = false := by
  induction fuel with
  | zero => intro i hf _ j hj hj2; simp at hf; omega
  | succ n ih =>
    intro i hf h j hj hj2
    unfold UnZipFileImpl.PathSplitFirstZipFolder.scan at h
    split_ifs at h with h1 h2
    · rcases Nat.eq_or_lt_of_le hj with rfl | hlt
      · simpa using h2
      · exact ih (i + 1) (by push_cast at hf ⊢; omega) h j hlt hj2
    · omega

theorem skip_spec (path : CStr) (isz : Int) (fuel : Nat) : ∀ (gc : Nat),
    gc ≤ UnZipFileImpl.PathSplitFirstZipFolder.skip path isz fuel gc ∧
      ∀ j, gc ≤ j → j < UnZipFileImpl.PathSplitFirstZipFolder.skip path isz fuel gc →
        (j : Int) < isz ∧ isSep (path.getD j '\x00') = true := by
  induction fuel with
  | zero =>
    intro gc
    simp only [UnZipFileImpl.PathSplitFirstZipFolder.skip]
    exact ⟨le_refl _, fun j hj hj2 => by omega⟩
  | succ n ih =>
    intro gc
    unfold UnZipFileImpl.PathSplitFirstZipFolder.skip
    split_ifs with h1
    · obtain ⟨a, b⟩ := ih (gc + 1)
      refine ⟨by omega, ?_⟩
      intro j hj hj2
      rcases Nat.eq_or_lt_of_le hj with rfl | hlt
      · exact ⟨h1.1, (isSep_true_iff _).mpr h1.2⟩
      · exact b j hlt hj2
    · exact ⟨le_refl _, fun j hj hj2 => by omega⟩

/-- Cutting a list at two indices. -/
theorem take_mid_drop (p : CStr) (a g : Nat) (h : a ≤ g) :
    p = p.take a ++ (p.drop a).take (g - a) ++ p.drop g := by
  have h1 : p.drop g = (p.drop a).drop (g - a) := by
    rw [List.drop_drop]; congr 1; omega
  rw [h1, List.append_assoc, List.take_append_drop, List.take_append_drop]

theorem PathSplitFirstZipFolder_of_scan_some (GetAbsolutePath : CStr → CStr) (p : CStr)
    (b : Bool) (i : Nat)
    (hs : UnZipFileImpl.PathSplitFirstZipFolder.scan p ((p.length : Int) - 4) (p.length + 1) 0
      = some i) :
    UnZipFileImpl.PathSplitFirstZipFolder GetAbsolutePath (some p) b =
      (true, if b = true then GetAbsolutePath (p.take (i + 4)) else p.take (i + 4),
        p.drop (UnZipFileImpl.PathSplitFirstZipFolder.skip p ((p.length : Int) - 4) p.length
          (i + 4))) := by
  have h4 : ".zip".toList.length = 4 := rfl
  unfold UnZipFileImpl.PathSplitFirstZipFolder
  simp only [h4, Nat.cast_ofNat, hs]

theorem PathSplitFirstZipFolder_of_scan_none (GetAbsolutePath : CStr → CStr) (p : CStr)
    (b : Bool)
    (hs : UnZipFileImpl.PathSplitFirstZipFolder.scan p ((p.length : Int) - 4) (p.length + 1) 0
      = none) :
    UnZipFileImpl.PathSplitFirstZipFolder GetAbsolutePath (some p) b =
      (false, if b = true then GetAbsolutePath p else p, []) := by
  have h4 : ".zip".toList.length = 4 := rfl
  unfold UnZipFileImpl.PathSplitFirstZipFolder
  simp only [h4, Nat.cast_ofNat, hs]

/-- C11: when `PathSplitFirstZipFolder(p, rv1, rv2, false)` returns true, `rv1`
is the prefix of `p` ending with the leftmost occurrence of `.zip` (any letter
case; the occurrence starts at some index `i` and none starts before `i`),
`rv2` is a suffix of `p`, and `p = rv1 ++ s ++ rv2` for a string `s` made only
of separators. On `data/archive.zip/inner/file.txt` it gives
`data/archive.zip` and `inner/file.txt`. -/
theorem PathSplitFirstZipFolder_true_spec (GetAbsolutePath : CStr → CStr) (p : CStr)
    (h : (UnZipFileImpl.PathSplitFirstZipFolder GetAbsolutePath (some p) false).1 = true) :
    (∃ i, (UnZipFileImpl.PathSplitFirstZipFolder GetAbsolutePath (some p) false).2.1
          = p.take (i + 4) ∧
        i + 4 ≤ p.length ∧ isZipAt p i ∧ ∀ j, j < i → ¬ isZipAt p j) ∧
    (UnZipFileImpl.PathSplitFirstZipFolder GetAbsolutePath (some p) false).2.2 <:+ p ∧
    (∃ s : CStr, (∀ c ∈ s, isSep c = true) ∧
      p = (UnZipFileImpl.PathSplitFirstZipFolder GetAbsolutePath (some p) false).2.1 ++ s ++
        (UnZipFileImpl.PathSplitFirstZipFolder GetAbsolutePath (some p) false).2.2) ∧
    UnZipFileImpl.PathSplitFirstZipFolder GetAbsolutePath
        (some "data/archive.zip/inner/file.txt".toList) false
      = (true, "data/archive.zip".toList, "inner/file.txt".toList) := by
  cases hs : UnZipFileImpl.PathSplitFirstZipFolder.scan p ((p.length : Int) - 4) (p.length + 1) 0 with
  | none =>
    rw [PathSplitFirstZipFolder_of_scan_none _ _ _ hs] at h
    simp at h
  | some i =>
    rw [PathSplitFirstZipFolder_of_scan_some _ _ _ i hs]
    simp only [Bool.false_eq_true, if_false]
    obtain ⟨_, hle, hm, hmin⟩ := scan_some p _ _ 0 i hs
    obtain ⟨hge, hsep⟩ := skip_spec p ((p.length : Int) - 4) p.length (i + 4)
    refine ⟨?_, List.drop_suffix _ _, ?_, rfl⟩
    · refine ⟨i, rfl, by omega, (zipMatch_iff p i).mp hm, ?_⟩
      intro j hj hz
      have := hmin j (Nat.zero_le _) hj
      rw [(zipMatch_iff p j).mpr hz] at this
      exact absurd this (by simp)
    · refine ⟨(p.drop (i + 4)).take
        (UnZipFileImpl.PathSplitFirstZipFolder.skip p ((p.length : Int) - 4) p.length (i + 4)
          - (i + 4)), ?_, take_mid_drop p _ _ hge⟩
      intro c hc
      obtain ⟨k, hk, hget⟩ := List.getElem_of_mem hc
      rw [List.length_take, List.length_drop] at hk
      have hk1 : k < UnZipFileImpl.PathSplitFirstZipFolder.skip p ((p.length : Int) - 4)
          p.length (i + 4) - (i + 4) := by omega
      have hk2 : i + 4 + k < p.length := by omega
      have := (hsep (i + 4 + k) (by omega) (by omega)).2
      rw [List.getD_eq_getElem _ _ hk2] at this
      rw [← hget, List.getElem_take, List.getElem_drop]
      exact this

/-- The split of `x/a.ZIP//b.txt`: the inner path is a suffix of the path. -/
theorem PathSplitFirstZipFolder_true_spec_witness :
    (UnZipFileImpl.PathSplitFirstZipFolder id (some "x/a.ZIP//b.txt".toList) false).2.2
      <:+ "x/a.ZIP//b.txt".toList :=
  (PathSplitFirstZipFolder_true_spec id "x/a.ZIP//b.txt".toList (by decide)).2.1

/-- C12: when `PathSplitFirstZipFolder(p, rv1, rv2, false)` returns false on a
non-null `p`, `rv2` is empty and `rv1` is `p` unchanged. -/
theorem PathSplitFirstZipFolder_false_spec (GetAbsolutePath : CStr → CStr) (p : CStr)
    (h : (UnZipFileImpl.PathSplitFirstZipFolder GetAbsolutePath (some p) false).1 = false) :
    (UnZipFileImpl.PathSplitFirstZipFolder GetAbsolutePath (some p) false).2.2 = [] ∧
    (UnZipFileImpl.PathSplitFirstZipFolder GetAbsolutePath (some p) false).2.1 = p := by
  cases hs : UnZipFileImpl.PathSplitFirstZipFolder.scan p ((p.length : Int) - 4) (p.length + 1) 0 with
  | none =>
    rw [PathSplitFirstZipFolder_of_scan_none _ _ _ hs]
    simp
  | some i =>
    rw [PathSplitFirstZipFolder_of_scan_some _ _ _ i hs] at h
    simp at h

/-- The split of `data/notes.txt`, which holds no `.zip`. -/
theorem PathSplitFirstZipFolder_false_spec_witness :
    (UnZipFileImpl.PathSplitFirstZipFolder id (some "data/notes.txt".toList) false).2.2 = [] ∧
    (UnZipFileImpl.PathSplitFirstZipFolder id (some "data/notes.txt".toList) false).2.1
      = "data/notes.txt".toList :=
  PathSplitFirstZipFolder_false_spec id "data/notes.txt".toList (by decide)

/-! ## Breadcrumb navigation in the history -/

/-- The outcome of `switchTo(const char*)` for a path that names a breadcrumb
segment of the current entry. -/
theorem switchTo_breadcrumb_eq (h : History) (p : CStr) (hp : p ≠ []) (hc : 0 ≤ h.currentInfoIndex)
    (hne : (h.infoAt h.currentInfoIndex).isEqualPath p = false)
    (hk : (h.infoAt h.currentInfoIndex).getSplitPathIndexFor (some p) ≠ -1) :
    h.switchTo (some p) =
      if (h.currentInfoIndex + 1 + 1).toNat > h.Capacity then none
      else
        some (true, ⟨(ImVector.resize h.info (h.currentInfoIndex + 1 + 1).toNat).set
          (h.currentInfoIndex + 1).toNat
          { h.infoAt h.currentInfoIndex with
            splitPathIndex := (h.infoAt h.currentInfoIndex).getSplitPathIndexFor (some p)
            currentFolder := p },
          h.currentInfoIndex + 1,
          ImVector.resizeCapacity h.Capacity (h.currentInfoIndex + 1 + 1).toNat⟩) := by
  rw [switchTo_of_ne h p hp hc hne, if_neg hk]

theorem switchTo_breadcrumb_in_place (h : History) (i : Nat) (hi : h.currentInfoIndex = (i : Int))
    (p : CStr) (hp : p ≠ [])
    (hne : (h.infoAt h.currentInfoIndex).isEqualPath p = false)
    (k : Int) (hk : (h.infoAt h.currentInfoIndex).getSplitPathIndexFor (some p) = k)
    (hk0 : 0 ≤ k) (hcap : i + 2 ≤ h.Capacity) :
    ∃ r : History, h.switchTo (some p) = some (true, r) ∧
      r.currentInfoIndex = (i : Int) + 1 ∧ r.info.length = i + 2 ∧
      r.info[i + 1]? =
        some { fullFolder := (h.infoAt h.currentInfoIndex).fullFolder
               currentFolder := p
               splitPathIndex := k
               splitPathIndexOfZipFile :=
                 (h.infoAt h.currentInfoIndex).splitPathIndexOfZipFile } := by
  have hk1 : (h.infoAt h.currentInfoIndex).getSplitPathIndexFor (some p) ≠ -1 := by omega
  have e1 : (h.currentInfoIndex + 1 + 1).toNat = i + 2 := by omega
  have e2 : (h.currentInfoIndex + 1).toNat = i + 1 := by omega
  rw [switchTo_breadcrumb_eq h p hp (by omega) hne hk1, e1, e2, if_neg (by omega), hk]
  refine ⟨_, rfl, by simp only; omega, ?_, ?_⟩
  · rw [List.length_set, ImVector_resize_length]
  · rw [List.getElem?_set_self (by rw [ImVector_resize_length]; omega)]

theorem switchTo_breadcrumb_moved (h : History) (i : Nat) (hi : h.currentInfoIndex = (i : Int))
    (p : CStr) (hp : p ≠ [])
    (hne : (h.infoAt h.currentInfoIndex).isEqualPath p = false)
    (hk : (h.infoAt h.currentInfoIndex).getSplitPathIndexFor (some p) ≠ -1)
    (hcap : h.Capacity < i + 2) : h.switchTo (some p) = none := by
  have e1 : (h.currentInfoIndex + 1 + 1).toNat = i + 2 := by omega
  rw [switchTo_breadcrumb_eq h p hp (by omega) hne hk, e1, if_pos (by omega)]

/-- C19 fails on the code: in the reachable history left by eight `switchTo`
calls (8 entries, cursor 7, storage for 8) whose current entry is
`/a/b.zip/c`, the path `/a/b.zip` differs from the current entry and names its
breadcrumb segment 2, and `switchTo("/a/b.zip")` has no defined outcome:
`info.resize(9)` moves the storage and `fi = lastInfo` reads the freed entry,
where the claim has the call append a copy of it. For every history with
cursor `i ≥ 0` and every such path with breadcrumb index `k ≥ 0`, the call
returns true and leaves at index `i+1` (the new cursor) an entry with the
`fullFolder` and `splitPathIndexOfZipFile` of the previous current entry,
`splitPathIndex = k` and `currentFolder = p` when the storage has room for
`i+2` entries, and has no defined outcome otherwise. From `/a/b.zip/c` alone
the call appends `/a/b.zip/c` seen at `/a/b.zip`, segment 2, archive index 2. -/
theorem switchTo_breadcrumb_copies_freed_entry :
    (∃ h : History,
      History.switchToAll History.reset
        ["/a".toList, "/b".toList, "/c".toList, "/d".toList, "/e".toList, "/f".toList,
         "/g".toList, "/a/b.zip/c".toList] = some h ∧
      h.Reachable ∧ h.info.length = 8 ∧ h.currentInfoIndex = 7 ∧ h.Capacity = 8 ∧
      h.infoAt h.currentInfoIndex = ⟨"/a/b.zip/c".toList, "/a/b.zip/c".toList, 3, 2⟩ ∧
      (h.infoAt h.currentInfoIndex).isEqualPath "/a/b.zip".toList = false ∧
      (h.infoAt h.currentInfoIndex).getSplitPathIndexFor (some "/a/b.zip".toList) = 2 ∧
      h.switchTo (some "/a/b.zip".toList) = none) ∧
    (∀ (h : History) (i : Nat), h.currentInfoIndex = (i : Int) →
      ∀ p : CStr, p ≠ [] → (h.infoAt h.currentInfoIndex).isEqualPath p = false →
      ∀ k : Int, (h.infoAt h.currentInfoIndex).getSplitPathIndexFor (some p) = k → 0 ≤ k →
      (i + 2 ≤ h.Capacity →
        ∃ r : History, h.switchTo (some p) = some (true, r) ∧
          r.currentInfoIndex = (i : Int) + 1 ∧ r.info.length = i + 2 ∧
          r.info[i + 1]? =
            some { fullFolder := (h.infoAt h.currentInfoIndex).fullFolder
                   currentFolder := p
                   splitPathIndex := k
                   splitPathIndexOfZipFile :=
                     (h.infoAt h.currentInfoIndex).splitPathIndexOfZipFile }) ∧
      (h.Capacity < i + 2 → h.switchTo (some p) = none)) ∧
    History.switchToAll History.reset ["/a/b.zip/c".toList, "/a/b.zip".toList]
      = some ⟨[⟨"/a/b.zip/c".toList, "/a/b.zip/c".toList, 3, 2⟩,
          ⟨"/a/b.zip/c".toList, "/a/b.zip".toList, 2, 2⟩], 1, 8⟩ := by
  refine ⟨?_, ?_, by decide⟩
  · have hsome : (History.switchToAll History.reset
        ["/a".toList, "/b".toList, "/c".toList, "/d".toList, "/e".toList, "/f".toList,
         "/g".toList, "/a/b.zip/c".toList]).isSome = true := by decide
    obtain ⟨h, hh⟩ := Option.isSome_iff_exists.mp hsome
    have hm : (History.switchToAll History.reset
        ["/a".toList, "/b".toList, "/c".toList, "/d".toList, "/e".toList, "/f".toList,
         "/g".toList, "/a/b.zip/c".toList]).map
        (fun h => (h.info.length, h.currentInfoIndex, h.Capacity, h.infoAt h.currentInfoIndex))
        = some (8, 7, 8, ⟨"/a/b.zip/c".toList, "/a/b.zip/c".toList, 3, 2⟩) := by decide
    have hq : (History.switchToAll History.reset
        ["/a".toList, "/b".toList, "/c".toList, "/d".toList, "/e".toList, "/f".toList,
         "/g".toList, "/a/b.zip/c".toList]).map
        (fun h => ((h.infoAt h.currentInfoIndex).isEqualPath "/a/b.zip".toList,
          (h.infoAt h.currentInfoIndex).getSplitPathIndexFor (some "/a/b.zip".toList)))
        = some (false, 2) := by decide
    have hb : (History.switchToAll History.reset
        ["/a".toList, "/b".toList, "/c".toList, "/d".toList, "/e".toList, "/f".toList,
         "/g".toList, "/a/b.zip/c".toList]).bind
        (fun h => h.switchTo (some "/a/b.zip".toList)) = none := by decide
    rw [hh] at hm hq hb
    simp only [Option.map_some', Option.some.injEq, Prod.mk.injEq] at hm hq
    obtain ⟨h1, h2, h3, h4⟩ := hm
    exact ⟨h, hh, Reachable_switchToAll _ _ _ History.Reachable.reset hh, h1, h2, h3, h4,
      hq.1, hq.2, hb⟩
  · intro h i hi p hp hne k hk hk0
    exact ⟨switchTo_breadcrumb_in_place h i hi p hp hne k hk hk0,
      fun hcap => switchTo_breadcrumb_moved h i hi p hp hne (by omega) hcap⟩

/-! ## Extension filters -/

theorem extensionListed_iff (x : CStr) (l : List CStr) :
    ChooseFileMainMethod.extensionListed x l = true ↔ x ∈ l := by
  induction l with
  | nil => simp [ChooseFileMainMethod.extensionListed]
  | cons a l ih =>
    unfold ChooseFileMainMethod.extensionListed
    split_ifs with h
    · simp [h]
    · simp [ih, Ne.symm h]

theorem String_Split_nil (c : Char) : String.Split [] c = [] := by
  simp [String.Split]

/-- A press that finds the name's extension missing or unlisted. -/
theorem press_unlisted (I : Internal) (filter e : CStr) (rest : List CStr)
    (hmust : I.mustFilterSaveFilePathWithFileFilterExtensionString = true)
    (hname : I.saveFileName ≠ [])
    (hsplit : String.Split filter ';' = e :: rest)
    (hext : Path.GetExtension I.saveFileName = [] ∨
      Path.GetExtension I.saveFileName ∉ e :: rest) :
    ChooseFileMainMethod.pressSelectionButton false true (some filter) I =
      { I with chosenPath := [], saveFileName := I.saveFileName ++ e } := by
  have hfilter : filter ≠ [] := by
    intro h; rw [h, String_Split_nil] at hsplit; exact absurd hsplit (by simp)
  have hflen : ¬ filter.length = 0 := fun h => hfilter (List.length_eq_zero.mp h)
  have hnlen : I.saveFileName.length > 0 := List.length_pos.mpr hname
  unfold ChooseFileMainMethod.pressSelectionButton ChooseFileMainMethod.selectionButtonPressed
  simp only [Bool.false_eq_true, if_false, if_true, hnlen, hmust, isNullOrEmpty, Option.getD_some,
    hsplit, Bool.true_and]
  by_cases h0 : Path.GetExtension I.saveFileName = []
  · simp [h0, hflen]
  · have hnot : Path.GetExtension I.saveFileName ∉ e :: rest := by
      rcases hext with h | h
      · exact absurd h h0
      · exact h
    have hl : ChooseFileMainMethod.extensionListed (Path.GetExtension I.saveFileName) (e :: rest)
        = false := by
      rw [← Bool.not_eq_true, extensionListed_iff]; exact hnot
    have hpos : (Path.GetExtension I.saveFileName).length > 0 := List.length_pos.mpr h0
    simp [hflen, hpos, hl]

/-- A press with a listed extension. -/
theorem press_listed (I : Internal) (filter : CStr)
    (hmust : I.mustFilterSaveFilePathWithFileFilterExtensionString = true)
    (hname : I.saveFileName ≠ [])
    (hext : Path.GetExtension I.saveFileName ≠ [])
    (hin : Path.GetExtension I.saveFileName ∈ String.Split filter ';') :
    ChooseFileMainMethod.pressSelectionButton false true (some filter) I =
      { I with chosenPath := Path.Combine I.currentFolder I.saveFileName [] false,
               isOpen := true } := by
  have hfilter : filter ≠ [] := by
    intro h; rw [h, String_Split_nil] at hin; simp at hin
  have hflen : ¬ filter.length = 0 := fun h => hfilter (List.length_eq_zero.mp h)
  have hnlen : I.saveFileName.length > 0 := List.length_pos.mpr hname
  have hpos : (Path.GetExtension I.saveFileName).length > 0 := List.length_pos.mpr hext
  have hl := (extensionListed_iff _ _).mpr hin
  unfold ChooseFileMainMethod.pressSelectionButton ChooseFileMainMethod.selectionButtonPressed
  simp only [Bool.false_eq_true, if_false, if_true, hnlen, hmust, isNullOrEmpty, Option.getD_some,
    Bool.true_and]
  simp [hflen, hpos, hl]

/-- C13 fails on the code: with the filter `.png;.PNG` (two entries that are
equal once lower-cased) the wanted-extensions loop pushes `dir/a.png` twice,
once per matching entry, instead of once; the unwanted-extensions loop, which
has a `break`, treats `.txt;.TXT` as one exclusion. -/
theorem GetFiles_wanted_pushes_duplicates :
    String.Split (String.ToLower (some ".png;.PNG".toList)) ';' = [".png".toList, ".png".toList] ∧
    Directory.GetFiles ["dir/a.png".toList, "dir/c.txt".toList] ["a.png".toList, "c.txt".toList]
        (some ".png;.PNG".toList) none []
      = (["dir/a.png".toList, "dir/a.png".toList], ["a.png".toList, "a.png".toList]) ∧
    Directory.GetFiles ["dir/a.png".toList, "dir/c.txt".toList] ["a.png".toList, "c.txt".toList]
        none (some ".txt;.TXT".toList) []
      = (["dir/a.png".toList], ["a.png".toList]) := by
  decide

/-- C14, as stated, fails: with filter `.png;.jpg`, folder `/tmp` and the name
`result` (no extension), one press of Save leaves the chosen path empty, not
`Combine("/tmp","result.png")`. -/
theorem save_press_chooses_no_path :
    Path.GetExtension "result".toList = [] ∧
    String.Split ".png;.jpg".toList ';' = [".png".toList, ".jpg".toList] ∧
    (ChooseFileMainMethod.pressSelectionButton false true (some ".png;.jpg".toList)
      ⟨"result".toList, "/tmp".toList, [], false, true, false, false⟩).chosenPath = [] ∧
    (ChooseFileMainMethod.pressSelectionButton false true (some ".png;.jpg".toList)
      ⟨"result".toList, "/tmp".toList, [], false, true, false, false⟩).chosenPath ≠
      Path.Combine "/tmp".toList ("result".toList ++ ".png".toList) [] false := by
  decide

/-- C14, amended: in SaveFile mode with extension enforcement enabled and a
filter whose `;`-separated entries are `e :: rest`, pressing Save with a
non-empty name that has no extension, or whose extension is not among the
entries, chooses no path on that press and replaces the name by `name ++ e`.
A second press then yields `Combine(currentFolder, name ++ e)` when
`name ++ e` has a non-empty extension that is among the entries (compared as
written); otherwise the second press again chooses no path and appends `e`
once more. With filter `.png;.jpg` in `/tmp`, two presses turn `result` into
`/tmp/result.png` and `result.txt` into `/tmp/result.txt.png`; with filter
`;.png`, whose first entry is empty, two presses on `result` choose no path
and leave the name as it is. -/
theorem save_press_appends_then_accepts (I : Internal) (filter e : CStr) (rest : List CStr)
    (hmust : I.mustFilterSaveFilePathWithFileFilterExtensionString = true)
    (hname : I.saveFileName ≠ [])
    (hsplit : String.Split filter ';' = e :: rest)
    (hext : Path.GetExtension I.saveFileName = [] ∨
      Path.GetExtension I.saveFileName ∉ e :: rest) :
    (ChooseFileMainMethod.pressSelectionButton false true (some filter) I).chosenPath = [] ∧
    (ChooseFileMainMethod.pressSelectionButton false true (some filter) I).saveFileName
      = I.saveFileName ++ e ∧
    ((Path.GetExtension (I.saveFileName ++ e) ≠ [] ∧
        Path.GetExtension (I.saveFileName ++ e) ∈ e :: rest) →
      (ChooseFileMainMethod.pressSelectionButton false true (some filter)
        (ChooseFileMainMethod.pressSelectionButton false true (some filter) I)).chosenPath
        = Path.Combine I.currentFolder (I.saveFileName ++ e) [] false) ∧
    (¬ (Path.GetExtension (I.saveFileName ++ e) ≠ [] ∧
        Path.GetExtension (I.saveFileName ++ e) ∈ e :: rest) →
      (ChooseFileMainMethod.pressSelectionButton false true (some filter)
        (ChooseFileMainMethod.pressSelectionButton false true (some filter) I)).chosenPath = [] ∧
      (ChooseFileMainMethod.pressSelectionButton false true (some filter)
        (ChooseFileMainMethod.pressSelectionButton false true (some filter) I)).saveFileName
        = I.saveFileName ++ e ++ e) ∧
    (ChooseFileMainMethod.pressSelectionButton false true (some ".png;.jpg".toList)
      (ChooseFileMainMethod.pressSelectionButton false true (some ".png;.jpg".toList)
        ⟨"result".toList, "/tmp".toList, [], false, true, false, false⟩)).chosenPath
      = "/tmp/result.png".toList ∧
    (ChooseFileMainMethod.pressSelectionButton false true (some ".png;.jpg".toList)
      (ChooseFileMainMethod.pressSelectionButton false true (some ".png;.jpg".toList)
        ⟨"result.txt".toList, "/tmp".toList, [], false, true, false, false⟩)).chosenPath
      = "/tmp/result.txt.png".toList ∧
    String.Split ";.png".toList ';' = [[], ".png".toList] ∧
    ChooseFileMainMethod.pressSelectionButton false true (some ";.png".toList)
      (ChooseFileMainMethod.pressSelectionButton false true (some ";.png".toList)
        ⟨"result".toList, "/tmp".toList, [], false, true, false, false⟩)
      = ⟨"result".toList, "/tmp".toList, [], false, true, false, false⟩ := by
  have h1 := press_unlisted I filter e rest hmust hname hsplit hext
  refine ⟨by rw [h1], by rw [h1], ?_, ?_, by decide, by decide, by decide, by decide⟩
  · rintro ⟨hne, hin⟩
    rw [h1]
    have h2 := press_listed { I with chosenPath := [], saveFileName := I.saveFileName ++ e } filter
      hmust (by simp [hname]) hne (by rw [hsplit]; exact hin)
    rw [h2]
  · intro hno
    rw [h1]
    have h2 := press_unlisted { I with chosenPath := [], saveFileName := I.saveFileName ++ e }
      filter e rest hmust (by simp [hname]) hsplit (by
        by_cases hne : Path.GetExtension (I.saveFileName ++ e) = []
        · exact Or.inl hne
        · exact Or.inr (fun hin => hno ⟨hne, hin⟩))
    rw [h2]
    exact ⟨rfl, rfl⟩

/-- One press on the name `result` with filter `.png;.jpg`. -/
theorem save_press_appends_then_accepts_witness :
    (ChooseFileMainMethod.pressSelectionButton false true (some ".png;.jpg".toList)
      ⟨"result".toList, "/tmp".toList, [], false, true, false, false⟩).saveFileName
      = "result".toList ++ ".png".toList :=
  (save_press_appends_then_accepts ⟨"result".toList, "/tmp".toList, [], false, true, false, false⟩
    ".png;.jpg".toList ".png".toList [".jpg".toList] (by decide) (by decide) (by decide)
    (Or.inl (by decide))).2.1

/-! ## Listing the entries of an archive -/

theorem hasBadSeparator_of_sepFree (fileMode : Bool) (tmpLen : Nat) (rest : CStr)
    (h : ∀ c ∈ rest, isSep c = false) : ∀ k,
    UnZipFileImpl.hasBadSeparator fileMode tmpLen rest k = false := by
  induction rest with
  | nil => intro k; rfl
  | cons c r ih =>
    intro k
    have hc := (isSep_false_iff c).mp (h c (List.mem_cons_self _ _))
    unfold UnZipFileImpl.hasBadSeparator
    rw [if_neg (by tauto)]
    exact ih (fun x hx => h x (List.mem_cons_of_mem _ hx)) (k + 1)

theorem sepFree_of_hasBadSeparator_file (tmpLen : Nat) (rest : CStr) : ∀ k,
    UnZipFileImpl.hasBadSeparator true tmpLen rest k = false → ∀ c ∈ rest, isSep c = false := by
  induction rest with
  | nil => intro k _ c hc; simp at hc
  | cons a r ih =>
    intro k h c hc
    unfold UnZipFileImpl.hasBadSeparator at h
    by_cases h1 : (a = '/' ∨ a = '\\') ∧ (true = true ∨ (k : Int) ≠ (tmpLen : Int) - 1)
    · rw [if_pos h1] at h; exact absurd h (by simp)
    rw [if_neg h1] at h
    have ha : isSep a = false := by
      rw [isSep_false_iff]
      constructor
      · intro e; exact h1 ⟨Or.inl e, Or.inl rfl⟩
      · intro e; exact h1 ⟨Or.inr e, Or.inl rfl⟩
    rcases List.mem_cons.mp hc with rfl | hr
    · exact ha
    · exact ih (k + 1) h c hr

theorem shape_of_hasBadSeparator_dir (tmpLen : Nat) (rest : CStr) : ∀ k,
    k + rest.length = tmpLen →
    UnZipFileImpl.hasBadSeparator false tmpLen rest k = false →
    ∃ n, (∀ c ∈ n, isSep c = false) ∧ (rest = n ∨ ∃ s, isSep s = true ∧ rest = n ++ [s]) := by
  induction rest with
  | nil => intro k _ _; exact ⟨[], by simp, Or.inl rfl⟩
  | cons a r ih =>
    intro k hk h
    unfold UnZipFileImpl.hasBadSeparator at h
    by_cases h1 : (a = '/' ∨ a = '\\') ∧ (false = true ∨ (k : Int) ≠ (tmpLen : Int) - 1)
    · rw [if_pos h1] at h; exact absurd h (by simp)
    rw [if_neg h1] at h
    by_cases ha : isSep a = true
    · have hsep := (isSep_true_iff a).mp ha
      have hlast : ¬ ((k : Int) ≠ (tmpLen : Int) - 1) := fun hne => h1 ⟨hsep, Or.inr hne⟩
      have hr : r = [] := by
        apply List.length_eq_zero.mp
        simp only [List.length_cons] at hk
        have : (k : Int) = (tmpLen : Int) - 1 := by
          by_contra hcon; exact hlast hcon
        omega
      subst hr
      exact ⟨[], by simp, Or.inr ⟨a, ha, rfl⟩⟩
    · have ha' : isSep a = false := by simpa using ha
      obtain ⟨n, hn, hshape⟩ := ih (k + 1) (by simp only [List.length_cons] at hk; omega) h
      refine ⟨a :: n, ?_, ?_⟩
      · intro c hc
        rcases List.mem_cons.mp hc with rfl | hc'
        · exact ha'
        · exact hn c hc'
      · rcases hshape with rfl | ⟨s, hs, rfl⟩
        · exact Or.inl rfl
        · exact Or.inr ⟨s, hs, rfl⟩

theorem entry_isSome_iff (fileMode : Bool) (d : CStr) (info : unz_file_info64) (name : CStr) :
    (UnZipFileImpl.getFilesOrDirectories.entry fileMode d info name).isSome = true ↔
      UnZipFileImpl.getFilesOrDirectories.kindOk fileMode info name = true ∧
      (d.length > 0 → UnZipFileImpl.getFilesOrDirectories.placeOk fileMode d name = true) ∧
      UnZipFileImpl.hasBadSeparator fileMode (UnZipFileImpl.getFilesOrDirectories.plainName d name).length
        (UnZipFileImpl.getFilesOrDirectories.plainName d name) 0 = false := by
  unfold UnZipFileImpl.getFilesOrDirectories.entry
  by_cases h1 : UnZipFileImpl.getFilesOrDirectories.kindOk fileMode info name = true
  · by_cases h2 : d.length > 0 → UnZipFileImpl.getFilesOrDirectories.placeOk fileMode d name = true
    · cases h3 : UnZipFileImpl.hasBadSeparator fileMode (UnZipFileImpl.getFilesOrDirectories.plainName d name).length
          (UnZipFileImpl.getFilesOrDirectories.plainName d name) 0
      · simp [h1, h2, h3]
      · simp [h1, h2, h3]
    · simp only [h1, h2, if_true, if_false]
      simp
  · simp only [h1, if_false]
    simp

theorem isDirectory_iff (name : CStr) :
    (decide (name.length > 0) &&
      (name.getLast? == some '/' || name.getLast? == some '\\')) = true ↔ endsInSep name := by
  unfold endsInSep
  constructor
  · intro h
    simp only [Bool.and_eq_true, decide_eq_true_eq, Bool.or_eq_true, beq_iff_eq] at h
    rcases h.2 with h2 | h2
    · obtain ⟨q, hq⟩ := List.getLast?_eq_some_iff.mp h2
      exact ⟨q, '/', hq, by decide⟩
    · obtain ⟨q, hq⟩ := List.getLast?_eq_some_iff.mp h2
      exact ⟨q, '\\', hq, by decide⟩
  · rintro ⟨q, s, rfl, hs⟩
    simp only [Bool.and_eq_true, decide_eq_true_eq, Bool.or_eq_true, beq_iff_eq,
      List.getLast?_concat, Option.some.injEq, List.length_append, List.length_singleton]
    exact ⟨by omega, (isSep_true_iff s).mp hs⟩

theorem isDirectory_iff_and (name : CStr) :
    (decide (name.length > 0) = true ∧
      (name.getLast? == some '/' || name.getLast? == some '\\') = true) ↔ endsInSep name := by
  rw [← Bool.and_eq_true]; exact isDirectory_iff name

theorem getD_append_cons (d r : CStr) (s : Char) :
    (d ++ s :: r).getD d.length '\x00' = s := by
  rw [List.getD_eq_getElem?_getD, List.getElem?_append_right (le_refl _)]
  simp

theorem kindOk_file_iff (info : unz_file_info64) (name : CStr) :
    UnZipFileImpl.getFilesOrDirectories.kindOk true info name = true ↔ ¬ endsInSep name ∧ ¬ hasZeroSize info := by
  unfold UnZipFileImpl.getFilesOrDirectories.kindOk hasZeroSize
  simp only [if_true, Bool.and_eq_true, Bool.not_eq_true', ← Bool.not_eq_true, isDirectory_iff,
    beq_iff_eq]
  rw [isDirectory_iff_and]

theorem kindOk_dir_iff (info : unz_file_info64) (name : CStr) :
    UnZipFileImpl.getFilesOrDirectories.kindOk false info name = true ↔ endsInSep name ∧ hasZeroSize info := by
  unfold UnZipFileImpl.getFilesOrDirectories.kindOk hasZeroSize
  simp only [Bool.false_eq_true, if_false, Bool.and_eq_true, isDirectory_iff, beq_iff_eq]
  rw [isDirectory_iff_and]

theorem placeOk_iff (fileMode : Bool) (d name : CStr) :
    UnZipFileImpl.getFilesOrDirectories.placeOk fileMode d name = true ↔
      ∃ s r, isSep s = true ∧ name = d ++ s :: r ∧ (fileMode = false → r ≠ []) := by
  unfold UnZipFileImpl.getFilesOrDirectories.placeOk
  constructor
  · intro h
    simp only [Bool.and_eq_true, Bool.not_eq_true', decide_eq_false_iff_not, ge_iff_le, not_le,
      List.isPrefixOf_iff_prefix, Bool.and_eq_false_iff, bne_eq_false_iff_eq,
      Bool.not_eq_false', decide_eq_true_eq] at h
    obtain ⟨⟨⟨hlen, ⟨r0, hr0⟩⟩, hch⟩, hplus⟩ := h
    subst hr0
    rcases r0 with _ | ⟨s, r⟩
    · simp at hlen
    · have hget : (d ++ s :: r).getD d.length '\x00' = s := getD_append_cons d r s
      rw [hget] at hch
      refine ⟨s, r, (isSep_true_iff s).mpr hch, rfl, ?_⟩
      intro hm hr
      subst hr
      rcases hplus with h | h
      · rw [hm] at h; simp at h
      · simp at h
  · rintro ⟨s, r, hs, rfl, hr⟩
    have hget : (d ++ s :: r).getD d.length '\x00' = s := getD_append_cons d r s
    simp only [Bool.and_eq_true, Bool.not_eq_true', decide_eq_false_iff_not, ge_iff_le, not_le,
      List.isPrefixOf_iff_prefix, Bool.and_eq_false_iff, bne_eq_false_iff_eq,
      Bool.not_eq_false', decide_eq_true_eq, hget]
    refine ⟨⟨⟨by simp, List.prefix_append _ _⟩, (isSep_true_iff s).mp hs⟩, ?_⟩
    cases fileMode with
    | true => left; rfl
    | false =>
      right
      have := hr rfl
      have hpos : 0 < r.length := List.length_pos.mpr this
      simp only [List.length_append, List.length_cons]
      omega

theorem strippedName_concat (q : CStr) (s : Char) (hs : isSep s = true) :
    UnZipFileImpl.getFilesOrDirectories.strippedName (q ++ [s]) = q := by
  unfold UnZipFileImpl.getFilesOrDirectories.strippedName
  have := (isSep_true_iff s).mp hs
  simp [List.getLast?_concat, this]

theorem strippedName_of_not_endsInSep (name : CStr) (h : ¬ endsInSep name) :
    UnZipFileImpl.getFilesOrDirectories.strippedName name = name := by
  unfold UnZipFileImpl.getFilesOrDirectories.strippedName
  rw [if_neg]
  intro hc
  apply h
  apply (isDirectory_iff name).mp
  simp only [Bool.and_eq_true, decide_eq_true_eq, Bool.or_eq_true, beq_iff_eq]
  exact hc

theorem sepFree_append_cons_inj (n : CStr) : ∀ (n2 x y : CStr) (s s2 : Char),
    (∀ c ∈ n, isSep c = false) → (∀ c ∈ n2, isSep c = false) →
    isSep s = true → isSep s2 = true → n ++ s :: x = n2 ++ s2 :: y →
    n = n2 ∧ s = s2 ∧ x = y := by
  induction n with
  | nil =>
    intro n2 x y s s2 _ h2 hs _ heq
    cases n2 with
    | nil => simp at heq; exact ⟨rfl, heq.1, heq.2⟩
    | cons a n2 =>
      simp at heq
      have := h2 a (List.mem_cons_self _ _)
      rw [← heq.1, hs] at this
      exact absurd this (by simp)
  | cons a n ih =>
    intro n2 x y s s2 h1 h2 hs hs2 heq
    cases n2 with
    | nil =>
      simp at heq
      have := h1 a (List.mem_cons_self _ _)
      rw [heq.1, hs2] at this
      exact absurd this (by simp)
    | cons b n2 =>
      simp at heq
      obtain ⟨hab, hrest⟩ := heq
      obtain ⟨e1, e2, e3⟩ := ih n2 x y s s2 (fun c hc => h1 c (List.mem_cons_of_mem _ hc))
        (fun c hc => h2 c (List.mem_cons_of_mem _ hc)) hs hs2 hrest
      exact ⟨by rw [hab, e1], e2, e3⟩

theorem childPrefix_unique (d pre pre2 x y : CStr) (h1 : childPrefix d pre)
    (h2 : childPrefix d pre2) (heq : pre ++ x = pre2 ++ y) : pre = pre2 ∧ x = y := by
  rcases h1 with ⟨hd, rfl⟩ | ⟨hd, s, _, rfl⟩
  · rcases h2 with ⟨_, rfl⟩ | ⟨hd2, _⟩
    · exact ⟨rfl, by simpa using heq⟩
    · exact absurd hd hd2
  · rcases h2 with ⟨hd2, _⟩ | ⟨_, s2, _, rfl⟩
    · exact absurd hd2 hd
    · simp only [List.append_assoc, List.singleton_append, List.append_cancel_left_eq,
        List.cons.injEq] at heq
      exact ⟨by rw [heq.1], heq.2⟩

theorem plainName_of_childPrefix (d pre name : CStr) (h : childPrefix d pre) :
    UnZipFileImpl.getFilesOrDirectories.plainName d name =
      (UnZipFileImpl.getFilesOrDirectories.strippedName name).drop pre.length := by
  unfold UnZipFileImpl.getFilesOrDirectories.plainName
  rcases h with ⟨hd, rfl⟩ | ⟨hd, s, _, rfl⟩
  · subst hd; simp
  · have : d.length > 0 := List.length_pos.mpr hd
    simp [this]

theorem not_endsInSep_of_sepFree (pre n : CStr) (hn : n ≠ [])
    (hfree : ∀ c ∈ n, isSep c = false) : ¬ endsInSep (pre ++ n) := by
  rintro ⟨q, s, heq, hs⟩
  have h1 : (pre ++ n).getLast? = some s := by rw [heq, List.getLast?_concat]
  rw [List.getLast?_append_of_ne_nil _ hn] at h1
  have := hfree s (List.mem_of_getLast?_eq_some h1)
  rw [hs] at this
  exact absurd this (by simp)

/-- What the listing loop pushes for an entry that has the shape of a child. -/
theorem entry_child (fileMode : Bool) (d : CStr) (info : unz_file_info64) (pre n t : CStr)
    (hpre : childPrefix d pre) (hne : n ≠ []) (hfree : ∀ c ∈ n, isSep c = false)
    (ht : t = [] ∨ ∃ s, isSep s = true ∧ t = [s]) :
    (UnZipFileImpl.getFilesOrDirectories.entry fileMode d info (pre ++ n ++ t)).isSome = true ↔
      UnZipFileImpl.getFilesOrDirectories.kindOk fileMode info (pre ++ n ++ t) = true := by
  rw [entry_isSome_iff]
  constructor
  · exact fun h => h.1
  · intro hk
    refine ⟨hk, ?_, ?_⟩
    · intro hd
      rw [placeOk_iff]
      rcases hpre with ⟨hd0, _⟩ | ⟨_, s, hs, rfl⟩
      · subst hd0; simp at hd
      · refine ⟨s, n ++ t, hs, by simp, fun _ => by simp [hne]⟩
    · rw [plainName_of_childPrefix d pre _ hpre]
      have hstr : UnZipFileImpl.getFilesOrDirectories.strippedName (pre ++ n ++ t) = pre ++ n := by
        rcases ht with rfl | ⟨s, hs, rfl⟩
        · rw [List.append_nil]
          exact strippedName_of_not_endsInSep _ (not_endsInSep_of_sepFree pre n hne hfree)
        · exact strippedName_concat _ s hs
      rw [hstr, List.drop_left]
      exact hasBadSeparator_of_sepFree _ _ _ hfree 0

theorem endsInSep_child_iff (pre n t : CStr) (hne : n ≠ []) (hfree : ∀ c ∈ n, isSep c = false)
    (ht : t = [] ∨ ∃ s, isSep s = true ∧ t = [s]) : endsInSep (pre ++ n ++ t) ↔ t ≠ [] := by
  rcases ht with rfl | ⟨s, hs, rfl⟩
  · rw [List.append_nil]
    constructor
    · intro h; exact absurd h (not_endsInSep_of_sepFree pre n hne hfree)
    · intro h; exact absurd rfl h
  · constructor
    · intro _; simp
    · intro _; exact ⟨pre ++ n, s, rfl, hs⟩

/-- The shape of every stored path for which the loop pushes a record. -/
theorem entry_shape (fileMode : Bool) (d : CStr) (info : unz_file_info64) (name : CStr)
    (h : (UnZipFileImpl.getFilesOrDirectories.entry fileMode d info name).isSome = true) :
    ∃ pre n t, childPrefix d pre ∧ name = pre ++ n ++ t ∧ (∀ c ∈ n, isSep c = false) ∧
      ((fileMode = true ∧ t = []) ∨
       (fileMode = false ∧ ((∃ s, isSep s = true ∧ t = [s]) ∨
          ∃ s1 s2, isSep s1 = true ∧ isSep s2 = true ∧ t = [s1, s2]))) := by
  obtain ⟨hk, hp, hb⟩ := (entry_isSome_iff fileMode d info name).mp h
  -- the prefix and what follows it
  have hpre : ∃ pre r, childPrefix d pre ∧ name = pre ++ r ∧ (fileMode = false → d ≠ [] → r ≠ []) := by
    by_cases hd : d = []
    · exact ⟨[], name, Or.inl ⟨hd, rfl⟩, rfl, fun _ h0 => absurd hd h0⟩
    · obtain ⟨s, r, hs, hname, hr⟩ :=
        (placeOk_iff fileMode d name).mp (hp (List.length_pos.mpr hd))
      exact ⟨d ++ [s], r, Or.inr ⟨hd, s, hs, rfl⟩, by simp [hname], fun hm _ => hr hm⟩
  obtain ⟨pre, r, hcp, rfl, hrne⟩ := hpre
  rw [plainName_of_childPrefix d pre _ hcp] at hb
  cases fileMode with
  | true =>
    have hnot := ((kindOk_file_iff info _).mp hk).1
    rw [strippedName_of_not_endsInSep _ hnot, List.drop_left] at hb
    exact ⟨pre, r, [], hcp, by simp, sepFree_of_hasBadSeparator_file _ _ 0 hb, Or.inl ⟨rfl, rfl⟩⟩
  | false =>
    obtain ⟨q, s1, hq, hs1⟩ := ((kindOk_dir_iff info _).mp hk).1
    -- the last character belongs to `r`, or `r` is empty and `d` is empty
    by_cases hr : r = []
    · subst hr
      have hd : d = [] := by
        by_contra hd; exact hrne rfl hd rfl
      rcases hcp with ⟨_, rfl⟩ | ⟨hd2, _⟩
      · -- name = q ++ [s1] with empty prefix
        simp at hq
      · exact absurd hd hd2
    · obtain ⟨r2, rfl⟩ : ∃ r2, r = r2 ++ [s1] := by
        have hlast : (pre ++ r).getLast? = some s1 := by rw [hq, List.getLast?_concat]
        rw [List.getLast?_append_of_ne_nil _ hr] at hlast
        exact List.getLast?_eq_some_iff.mp hlast
      have hstr : UnZipFileImpl.getFilesOrDirectories.strippedName (pre ++ (r2 ++ [s1])) = pre ++ r2 := by
        rw [← List.append_assoc]; exact strippedName_concat _ s1 hs1
      rw [hstr, List.drop_left] at hb
      obtain ⟨n, hn, hshape⟩ := shape_of_hasBadSeparator_dir r2.length r2 0 (by simp) hb
      rcases hshape with hrn | ⟨s, hs, hrn⟩
      · exact ⟨pre, n, [s1], hcp, by simp [hrn], hn, Or.inr ⟨rfl, Or.inl ⟨s1, hs1, rfl⟩⟩⟩
      · exact ⟨pre, n, [s, s1], hcp, by simp [hrn], hn,
          Or.inr ⟨rfl, Or.inr ⟨s, s1, hs, hs1, rfl⟩⟩⟩

/-- The entry for `d` itself is never listed. -/
theorem entry_self_none (fileMode : Bool) (d : CStr) (info : unz_file_info64) (name : CStr)
    (hd : d ≠ []) (hname : name = d ∨ ∃ s, isSep s = true ∧ name = d ++ [s]) :
    UnZipFileImpl.getFilesOrDirectories.entry fileMode d info name = none := by
  rw [← Option.not_isSome_iff_eq_none]
  intro h
  obtain ⟨hk, hp, _⟩ := (entry_isSome_iff fileMode d info name).mp h
  obtain ⟨s, r, hs, hn, hr⟩ := (placeOk_iff fileMode d name).mp (hp (List.length_pos.mpr hd))
  rcases hname with rfl | ⟨s2, hs2, rfl⟩
  · have := congrArg List.length hn
    simp at this
  · simp only [List.append_cancel_left_eq, List.cons.injEq] at hn
    obtain ⟨_, hr0⟩ := hn
    cases fileMode with
    | false => exact hr rfl hr0.symm
    | true =>
      exact ((kindOk_file_iff info _).mp hk).1 ⟨d, s2, rfl, hs2⟩

/-- An entry nested more deeply (a further name after a separator) is never listed. -/
theorem entry_nested_none (fileMode : Bool) (d : CStr) (info : unz_file_info64)
    (pre n m : CStr) (s : Char) (hpre : childPrefix d pre) (hn : ∀ c ∈ n, isSep c = false)
    (hs : isSep s = true) (hm : ∃ c ∈ m, isSep c = false) :
    UnZipFileImpl.getFilesOrDirectories.entry fileMode d info (pre ++ n ++ s :: m) = none := by
  rw [← Option.not_isSome_iff_eq_none]
  intro h
  obtain ⟨pre2, n2, t, hpre2, heq, hn2, ht⟩ := entry_shape fileMode d info _ h
  rw [List.append_assoc, List.append_assoc] at heq
  obtain ⟨_, heq2⟩ := childPrefix_unique d pre pre2 _ _ hpre hpre2 heq
  obtain ⟨c, hc, hcsep⟩ := hm
  have key : ∀ (s1 : Char) (y : CStr), isSep s1 = true → t = s1 :: y → m = y := by
    intro s1 y hs1 hty
    rw [hty] at heq2
    exact (sepFree_append_cons_inj n n2 m y s s1 hn hn2 hs hs1 heq2).2.2
  rcases ht with ⟨_, rfl⟩ | ⟨_, ⟨s1, hs1, rfl⟩ | ⟨s1, s2, hs1, hs2, rfl⟩⟩
  · have hmem : s ∈ n2 := by
      have : s ∈ n ++ s :: m := by simp
      rw [heq2] at this; simpa using this
    have := hn2 s hmem
    rw [hs] at this; exact absurd this (by simp)
  · have := key s1 [] hs1 rfl
    subst this; simp at hc
  · have := key s1 [s2] hs1 rfl
    subst this
    simp at hc; subst hc
    rw [hs2] at hcsep; exact absurd hcsep (by simp)

/-- The rows returned are the records pushed by the loop, whatever order the
sort puts them in. -/
theorem getFilesOrDirectories_rows
    (SortInfos : Nat → List unz_file_info64_plus → List unz_file_info64_plus)
    (hperm : ∀ k l, (SortInfos k l).Perm l)
    (zipFilePath : CStr) (archive : List (unz_file_info64 × CStr)) (fileMode : Bool)
    (directoryName : Option CStr) (sorting : Nat) (row : CStr) :
    row ∈ (UnZipFileImpl.getFilesOrDirectories SortInfos zipFilePath archive fileMode directoryName sorting
        false).1 ↔
      ∃ e ∈ archive, ∃ fip,
        UnZipFileImpl.getFilesOrDirectories.entry fileMode (UnZipFileImpl.cleanDirName directoryName) e.1 e.2 = some fip ∧
        row = fip.path := by
  unfold UnZipFileImpl.getFilesOrDirectories
  simp only [Bool.false_eq_true, if_false]
  by_cases hlen : (archive.filterMap
      (fun e => UnZipFileImpl.getFilesOrDirectories.entry fileMode (UnZipFileImpl.cleanDirName directoryName) e.1 e.2)).length > 0
  · simp only [hlen, if_true, List.mem_map, (hperm _ _).mem_iff, List.mem_filterMap]
    constructor
    · rintro ⟨fip, ⟨e, he, hfe⟩, rfl⟩
      exact ⟨e, he, fip, hfe, rfl⟩
    · rintro ⟨e, he, fip, hfe, rfl⟩
      exact ⟨fip, ⟨e, he, hfe⟩, rfl⟩
  · simp only [hlen, if_false]
    have hnil : archive.filterMap
        (fun e => UnZipFileImpl.getFilesOrDirectories.entry fileMode (UnZipFileImpl.cleanDirName directoryName) e.1 e.2) = [] := by
      apply List.length_eq_zero.mp; omega
    constructor
    · intro h; simp at h
    · rintro ⟨e, he, fip, hfe, _⟩
      have : fip ∈ archive.filterMap
          (fun e => UnZipFileImpl.getFilesOrDirectories.entry fileMode (UnZipFileImpl.cleanDirName directoryName) e.1 e.2) :=
        List.mem_filterMap.mpr ⟨e, he, hfe⟩
      rw [hnil] at this; simp at this

/-- The path of the record pushed for an entry is its stored name without the
trailing separator. -/
theorem entry_path (fileMode : Bool) (d : CStr) (info : unz_file_info64) (name : CStr)
    (fip : unz_file_info64_plus)
    (h : UnZipFileImpl.getFilesOrDirectories.entry fileMode d info name = some fip) :
    fip.path = UnZipFileImpl.getFilesOrDirectories.strippedName name := by
  unfold UnZipFileImpl.getFilesOrDirectories.entry at h
  by_cases h1 : UnZipFileImpl.getFilesOrDirectories.kindOk fileMode info name = true
  · rw [if_pos h1] at h
    by_cases h2 : d.length > 0 → UnZipFileImpl.getFilesOrDirectories.placeOk fileMode d name = true
    · rw [if_pos h2] at h
      cases h3 : UnZipFileImpl.hasBadSeparator fileMode
          (UnZipFileImpl.getFilesOrDirectories.plainName d name).length
          (UnZipFileImpl.getFilesOrDirectories.plainName d name) 0
      · simp only [h3, Bool.false_eq_true, if_false, Option.some.injEq] at h
        rw [← h]
      · simp [h3] at h
    · rw [if_neg h2] at h; exact absurd h (by simp)
  · rw [if_neg h1] at h; exact absurd h (by simp)

theorem storedRow_eq (zipFilePath : CStr) (withPrefix : Bool) (name : CStr) :
    storedRow zipFilePath withPrefix name =
      (if withPrefix then zipFilePath ++ ['/'] else []) ++
        UnZipFileImpl.getFilesOrDirectories.strippedName name := by
  have hs : (if name.getLast? = some '/' ∨ name.getLast? = some '\\' then name.dropLast
      else name) = UnZipFileImpl.getFilesOrDirectories.strippedName name := by
    unfold UnZipFileImpl.getFilesOrDirectories.strippedName
    by_cases h : name.getLast? = some '/' ∨ name.getLast? = some '\\'
    · have hlen : name.length > 0 := by
        rcases name with _ | ⟨c, r⟩
        · simp at h
        · simp
      rw [if_pos h, if_pos ⟨hlen, h⟩]
    · rw [if_neg h, if_neg (fun hc => h hc.2)]
  unfold storedRow
  rw [hs]

/-- The rows returned are the rows of the records pushed by the loop, in the
order chosen by the sort. -/
theorem getFilesOrDirectories_perm
    (SortInfos : Nat → List unz_file_info64_plus → List unz_file_info64_plus)
    (hperm : ∀ k l, (SortInfos k l).Perm l)
    (zipFilePath : CStr) (archive : List (unz_file_info64 × CStr)) (fileMode : Bool)
    (directoryName : Option CStr) (sorting : Nat) (withPrefix : Bool) :
    (UnZipFileImpl.getFilesOrDirectories SortInfos zipFilePath archive fileMode directoryName
        sorting withPrefix).1.Perm
      ((archive.filterMap (fun e => UnZipFileImpl.getFilesOrDirectories.entry fileMode
          (UnZipFileImpl.cleanDirName directoryName) e.1 e.2)).map
        (fun fip => (if withPrefix then zipFilePath ++ ['/'] else []) ++ fip.path)) := by
  have hf : (fun fip : unz_file_info64_plus =>
        if withPrefix = true then zipFilePath ++ ['/'] ++ fip.path else fip.path) =
      (fun fip => (if withPrefix then zipFilePath ++ ['/'] else []) ++ fip.path) := by
    funext fip
    cases withPrefix <;> simp
  unfold UnZipFileImpl.getFilesOrDirectories
  by_cases hlen : (archive.filterMap (fun e => UnZipFileImpl.getFilesOrDirectories.entry fileMode
      (UnZipFileImpl.cleanDirName directoryName) e.1 e.2)).length > 0
  · simp only [hlen, if_true]
    rw [hf]
    exact (hperm _ _).map _
  · simp only [hlen, if_false]
    have hnil : archive.filterMap (fun e => UnZipFileImpl.getFilesOrDirectories.entry fileMode
        (UnZipFileImpl.cleanDirName directoryName) e.1 e.2) = [] := by
      apply List.length_eq_zero.mp; omega
    rw [hnil]
    exact List.Perm.refl _

/-- An entry for which the loop pushes a record adds its row to the rows
returned without it. -/
theorem getFilesOrDirectories_insert
    (SortInfos : Nat → List unz_file_info64_plus → List unz_file_info64_plus)
    (hperm : ∀ k l, (SortInfos k l).Perm l)
    (zipFilePath : CStr) (a b : List (unz_file_info64 × CStr)) (info : unz_file_info64)
    (name : CStr) (fileMode : Bool) (directoryName : Option CStr) (sorting : Nat)
    (withPrefix : Bool)
    (h : (UnZipFileImpl.getFilesOrDirectories.entry fileMode
      (UnZipFileImpl.cleanDirName directoryName) info name).isSome = true) :
    (UnZipFileImpl.getFilesOrDirectories SortInfos zipFilePath (a ++ (info, name) :: b) fileMode
        directoryName sorting withPrefix).1.Perm
      (storedRow zipFilePath withPrefix name ::
        (UnZipFileImpl.getFilesOrDirectories SortInfos zipFilePath (a ++ b) fileMode
          directoryName sorting withPrefix).1) := by
  obtain ⟨fip, hfip⟩ := Option.isSome_iff_exists.mp h
  have hrow : (if withPrefix then zipFilePath ++ ['/'] else []) ++ fip.path =
      storedRow zipFilePath withPrefix name := by
    rw [storedRow_eq, entry_path fileMode _ info name fip hfip]
  have h1 := getFilesOrDirectories_perm SortInfos hperm zipFilePath (a ++ (info, name) :: b)
    fileMode directoryName sorting withPrefix
  have h2 := getFilesOrDirectories_perm SortInfos hperm zipFilePath (a ++ b)
    fileMode directoryName sorting withPrefix
  refine h1.trans ?_
  rw [List.filterMap_append, List.filterMap_cons, hfip, List.map_append, List.map_cons, hrow]
  refine List.perm_middle.trans (List.Perm.cons _ ?_)
  rw [← List.map_append, ← List.filterMap_append]
  exact h2.symm

/-- An entry for which the loop pushes no record leaves the result as it is
without the entry. -/
theorem getFilesOrDirectories_skip
    (SortInfos : Nat → List unz_file_info64_plus → List unz_file_info64_plus)
    (zipFilePath : CStr) (a b : List (unz_file_info64 × CStr)) (info : unz_file_info64)
    (name : CStr) (fileMode : Bool) (directoryName : Option CStr) (sorting : Nat)
    (withPrefix : Bool)
    (h : UnZipFileImpl.getFilesOrDirectories.entry fileMode
      (UnZipFileImpl.cleanDirName directoryName) info name = none) :
    UnZipFileImpl.getFilesOrDirectories SortInfos zipFilePath (a ++ (info, name) :: b) fileMode
        directoryName sorting withPrefix =
      UnZipFileImpl.getFilesOrDirectories SortInfos zipFilePath (a ++ b) fileMode
        directoryName sorting withPrefix := by
  unfold UnZipFileImpl.getFilesOrDirectories
  simp only [List.filterMap_append, List.filterMap_cons, h]

/-- Every row returned is the row of an entry for which the loop pushes a
record. -/
theorem getFilesOrDirectories_origin
    (SortInfos : Nat → List unz_file_info64_plus → List unz_file_info64_plus)
    (hperm : ∀ k l, (SortInfos k l).Perm l)
    (zipFilePath : CStr) (archive : List (unz_file_info64 × CStr)) (fileMode : Bool)
    (directoryName : Option CStr) (sorting : Nat) (withPrefix : Bool) (row : CStr)
    (hrow : row ∈ (UnZipFileImpl.getFilesOrDirectories SortInfos zipFilePath archive fileMode
      directoryName sorting withPrefix).1) :
    ∃ e ∈ archive, row = storedRow zipFilePath withPrefix e.2 ∧
      (UnZipFileImpl.getFilesOrDirectories.entry fileMode
        (UnZipFileImpl.cleanDirName directoryName) e.1 e.2).isSome = true := by
  have h1 := getFilesOrDirectories_perm SortInfos hperm zipFilePath archive
    fileMode directoryName sorting withPrefix
  rw [h1.mem_iff, List.mem_map] at hrow
  obtain ⟨fip, hmem, rfl⟩ := hrow
  obtain ⟨e, he, hfe⟩ := List.mem_filterMap.mp hmem
  refine ⟨e, he, ?_, by rw [hfe]; rfl⟩
  rw [storedRow_eq, entry_path fileMode _ e.1 e.2 fip hfe]

/-- An immediate child is listed in directory mode exactly when it is a
zero-size entry ending in a separator, in file mode exactly when it is
neither. -/
theorem entry_immediateChild (directoryName : Option CStr) (info : unz_file_info64) (name : CStr)
    (hchild : immediateChild (UnZipFileImpl.cleanDirName directoryName) name) :
    ((UnZipFileImpl.getFilesOrDirectories.entry false (UnZipFileImpl.cleanDirName directoryName)
        info name).isSome = true ↔ (hasZeroSize info ∧ endsInSep name)) ∧
    ((UnZipFileImpl.getFilesOrDirectories.entry true (UnZipFileImpl.cleanDirName directoryName)
        info name).isSome = true ↔ (¬ hasZeroSize info ∧ ¬ endsInSep name)) := by
  obtain ⟨pre, n, t, hpre, rfl, hne, hfree, ht⟩ := hchild
  have hd := entry_child false _ info pre n t hpre hne hfree ht
  have hf := entry_child true _ info pre n t hpre hne hfree ht
  rw [kindOk_dir_iff] at hd
  rw [kindOk_file_iff] at hf
  refine ⟨?_, ?_⟩
  · rw [hd]; tauto
  · rw [hf]; tauto

/-- C15, as stated, fails: the zero-byte file `empty.txt` at the archive root
is an immediate child, is not a directory entry (so the claim assigns it to
`getFiles`), and an archive that holds just this entry is listed as empty by
`getFiles` and by `getDirectories`. -/
theorem empty_file_listed_by_neither :
    immediateChild (UnZipFileImpl.cleanDirName (some [])) "empty.txt".toList ∧
    ¬ (hasZeroSize ⟨0, 0, 0, 0⟩ ∧ endsInSep "empty.txt".toList) ∧
    UnZipFile.getFiles (fun _ l => l) "a.zip".toList [(⟨0, 0, 0, 0⟩, "empty.txt".toList)]
      (some []) 0 false = ([], []) ∧
    UnZipFile.getDirectories (fun _ l => l) "a.zip".toList [(⟨0, 0, 0, 0⟩, "empty.txt".toList)]
      (some []) 0 false = ([], []) ∧
    UnZipFile.getFiles (fun _ l => l) "a.zip".toList [(⟨3, 3, 0, 0⟩, "full.txt".toList)]
      (some []) 0 false = (["full.txt".toList], ["full.txt".toList]) := by
  refine ⟨⟨[], "empty.txt".toList, [], Or.inl ⟨rfl, rfl⟩, rfl, by decide, by decide, Or.inl rfl⟩,
    ?_, by decide, by decide, by decide⟩
  rintro ⟨_, h⟩
  have := (isDirectory_iff _).mpr h
  exact absurd this (by decide)

/-- C15, amended: take a list of archive entries, one of whose entries has a
stored path that is an immediate child of `d`, and a sort that only reorders
the records. `UnZipFile::getDirectories(d)` returns a row for that entry (its
rows are the rows returned without the entry plus the stored path without the
trailing separator, in the order chosen by the sort) when both sizes of the
entry are zero and its stored name ends in a separator, and otherwise returns
what it returns without the entry; `UnZipFile::getFiles(d)` returns a row for
it when its sizes are not both zero and its stored name does not end in a
separator, and otherwise returns what it returns without the entry. So the
entry adds a row to at most one of the two, and to neither when it is an empty
file or a separator-terminated name with data. Every row of `getDirectories`
stems from a zero-size entry whose name ends in a separator, every row of
`getFiles` from an entry with data whose name does not. -/
theorem child_listed_iff
    (SortInfos : Nat → List unz_file_info64_plus → List unz_file_info64_plus)
    (hperm : ∀ k l, (SortInfos k l).Perm l)
    (zipFilePath : CStr) (a b : List (unz_file_info64 × CStr))
    (directoryName : Option CStr) (info : unz_file_info64) (name : CStr)
    (sorting : Nat) (withPrefix : Bool)
    (hchild : immediateChild (UnZipFileImpl.cleanDirName directoryName) name) :
    ((hasZeroSize info ∧ endsInSep name) →
      (UnZipFile.getDirectories SortInfos zipFilePath (a ++ (info, name) :: b) directoryName
          sorting withPrefix).1.Perm
        (storedRow zipFilePath withPrefix name ::
          (UnZipFile.getDirectories SortInfos zipFilePath (a ++ b) directoryName
            sorting withPrefix).1)) ∧
    (¬ (hasZeroSize info ∧ endsInSep name) →
      UnZipFile.getDirectories SortInfos zipFilePath (a ++ (info, name) :: b) directoryName
          sorting withPrefix =
        UnZipFile.getDirectories SortInfos zipFilePath (a ++ b) directoryName
          sorting withPrefix) ∧
    ((¬ hasZeroSize info ∧ ¬ endsInSep name) →
      (UnZipFile.getFiles SortInfos zipFilePath (a ++ (info, name) :: b) directoryName
          sorting withPrefix).1.Perm
        (storedRow zipFilePath withPrefix name ::
          (UnZipFile.getFiles SortInfos zipFilePath (a ++ b) directoryName
            sorting withPrefix).1)) ∧
    (¬ (¬ hasZeroSize info ∧ ¬ endsInSep name) →
      UnZipFile.getFiles SortInfos zipFilePath (a ++ (info, name) :: b) directoryName
          sorting withPrefix =
        UnZipFile.getFiles SortInfos zipFilePath (a ++ b) directoryName
          sorting withPrefix) ∧
    (UnZipFile.getDirectories SortInfos zipFilePath (a ++ (info, name) :: b) directoryName
          sorting withPrefix =
        UnZipFile.getDirectories SortInfos zipFilePath (a ++ b) directoryName
          sorting withPrefix ∨
      UnZipFile.getFiles SortInfos zipFilePath (a ++ (info, name) :: b) directoryName
          sorting withPrefix =
        UnZipFile.getFiles SortInfos zipFilePath (a ++ b) directoryName
          sorting withPrefix) ∧
    (∀ archive, ∀ row ∈ (UnZipFile.getDirectories SortInfos zipFilePath archive directoryName
        sorting withPrefix).1,
      ∃ e ∈ archive, row = storedRow zipFilePath withPrefix e.2 ∧
        hasZeroSize e.1 ∧ endsInSep e.2) ∧
    (∀ archive, ∀ row ∈ (UnZipFile.getFiles SortInfos zipFilePath archive directoryName
        sorting withPrefix).1,
      ∃ e ∈ archive, row = storedRow zipFilePath withPrefix e.2 ∧
        ¬ hasZeroSize e.1 ∧ ¬ endsInSep e.2) := by
  obtain ⟨hd, hf⟩ := entry_immediateChild directoryName info name hchild
  have hnone : ∀ fileMode, ¬ (UnZipFileImpl.getFilesOrDirectories.entry fileMode
      (UnZipFileImpl.cleanDirName directoryName) info name).isSome = true →
      UnZipFileImpl.getFilesOrDirectories.entry fileMode
        (UnZipFileImpl.cleanDirName directoryName) info name = none := by
    intro fileMode h
    exact Option.not_isSome_iff_eq_none.mp h
  have hdskip : ¬ (hasZeroSize info ∧ endsInSep name) →
      UnZipFile.getDirectories SortInfos zipFilePath (a ++ (info, name) :: b) directoryName
          sorting withPrefix =
        UnZipFile.getDirectories SortInfos zipFilePath (a ++ b) directoryName
          sorting withPrefix := fun hc =>
    getFilesOrDirectories_skip SortInfos zipFilePath a b info name false directoryName sorting
      withPrefix (hnone false (fun h => hc (hd.mp h)))
  have hfskip : ¬ (¬ hasZeroSize info ∧ ¬ endsInSep name) →
      UnZipFile.getFiles SortInfos zipFilePath (a ++ (info, name) :: b) directoryName
          sorting withPrefix =
        UnZipFile.getFiles SortInfos zipFilePath (a ++ b) directoryName
          sorting withPrefix := fun hc =>
    getFilesOrDirectories_skip SortInfos zipFilePath a b info name true directoryName sorting
      withPrefix (hnone true (fun h => hc (hf.mp h)))
  refine ⟨?_, hdskip, ?_, hfskip, ?_, ?_, ?_⟩
  · intro hc
    exact getFilesOrDirectories_insert SortInfos hperm zipFilePath a b info name false
      directoryName sorting withPrefix (hd.mpr hc)
  · intro hc
    exact getFilesOrDirectories_insert SortInfos hperm zipFilePath a b info name true
      directoryName sorting withPrefix (hf.mpr hc)
  · by_cases hc : hasZeroSize info ∧ endsInSep name
    · exact Or.inr (hfskip (fun h => h.1 hc.1))
    · exact Or.inl (hdskip hc)
  · intro archive row hrow
    obtain ⟨e, he, hr, hsome⟩ := getFilesOrDirectories_origin SortInfos hperm zipFilePath archive
      false directoryName sorting withPrefix row hrow
    have hk := ((entry_isSome_iff false _ e.1 e.2).mp hsome).1
    rw [kindOk_dir_iff] at hk
    exact ⟨e, he, hr, hk.2, hk.1⟩
  · intro archive row hrow
    obtain ⟨e, he, hr, hsome⟩ := getFilesOrDirectories_origin SortInfos hperm zipFilePath archive
      true directoryName sorting withPrefix row hrow
    have hk := ((entry_isSome_iff true _ e.1 e.2).mp hsome).1
    rw [kindOk_file_iff] at hk
    exact ⟨e, he, hr, hk.2, hk.1⟩

/-- The file `docs/readme.txt` (5 bytes compressed, 9 uncompressed) between the
directory entries `docs/` and `docs/img/`, listed under `docs` without
sorting. -/
theorem child_listed_iff_witness :
    (UnZipFile.getFiles (fun _ l => l) "a.zip".toList
        ([(⟨0, 0, 0, 0⟩, "docs/".toList)] ++ (⟨5, 9, 0, 0⟩, "docs/readme.txt".toList) ::
          [(⟨0, 0, 0, 0⟩, "docs/img/".toList)]) (some "docs".toList) 0 false).1.Perm
      (storedRow "a.zip".toList false "docs/readme.txt".toList ::
        (UnZipFile.getFiles (fun _ l => l) "a.zip".toList
          ([(⟨0, 0, 0, 0⟩, "docs/".toList)] ++ [(⟨0, 0, 0, 0⟩, "docs/img/".toList)])
          (some "docs".toList) 0 false).1) :=
  (child_listed_iff (fun _ l => l) (fun _ _ => List.Perm.refl _) "a.zip".toList
    [(⟨0, 0, 0, 0⟩, "docs/".toList)] [(⟨0, 0, 0, 0⟩, "docs/img/".toList)]
    (some "docs".toList) ⟨5, 9, 0, 0⟩ "docs/readme.txt".toList 0 false
    ⟨"docs/".toList, "readme.txt".toList, [],
      Or.inr ⟨by decide, '/', by decide, by decide⟩, by decide, by decide, by decide,
      Or.inl rfl⟩).2.2.1
    ⟨by unfold hasZeroSize; decide, fun h => absurd ((isDirectory_iff _).mpr h) (by decide)⟩

/-- C16, as stated, fails: the directory entry `sub//` (two trailing
separators) is listed at the archive root, with path and name `sub/`, although
its stored path is not a separator-free name followed by at most one
separator. -/
theorem double_trailing_separator_listed :
    UnZipFileImpl.getFilesOrDirectories (fun _ l => l) "a.zip".toList
        [(⟨0, 0, 0, 0⟩, "sub//".toList)] false (some []) 0 false
      = (["sub/".toList], ["sub/".toList]) ∧
    UnZipFileImpl.getFilesOrDirectories.entry false (UnZipFileImpl.cleanDirName (some []))
        ⟨0, 0, 0, 0⟩ "sub//".toList
      = some ⟨⟨0, 0, 0, 0⟩, "sub/".toList, "sub/".toList⟩ ∧
    ¬ childShape (UnZipFileImpl.cleanDirName (some [])) "sub//".toList := by
  refine ⟨by decide, by decide, ?_⟩
  rintro ⟨pre, n, t, hpre, heq, hn, ht⟩
  have hd : UnZipFileImpl.cleanDirName (some []) = [] := by decide
  rw [hd] at hpre
  rcases hpre with ⟨_, rfl⟩ | ⟨h0, _⟩
  · rcases ht with rfl | ⟨s, _, rfl⟩
    · simp only [List.nil_append, List.append_nil] at heq
      have := hn '/' (by rw [← heq]; decide)
      exact absurd this (by decide)
    · have h2 : "sub//".toList = "sub/".toList ++ ['/'] := by decide
      rw [h2, List.nil_append] at heq
      have := (List.append_inj' heq rfl).1
      have := hn '/' (by rw [← this]; decide)
      exact absurd this (by decide)
  · exact h0 rfl

/-- C16, amended: with `d` the inner path after removing a leading `./` and
the trailing separators, and a sort that only reorders the records, every row
returned by `getFilesOrDirectories` is the stored path, without its trailing
separator, of an archive entry of the form `d ++ sep ++ n` (just `n` when `d`
is empty) with `n` free of `/` and `\` (`n` may be empty), followed by nothing
for files and by one or two trailing separators for directories. Entries
nested more deeply (a further name after a separator) and, when `d` is not
empty, the entry for `d` itself (`d` or `d ++ sep`) add nothing to the result.
At the archive root (`d` empty) a zero-size entry whose stored name is a lone
separator is returned in directory mode, with an empty path and name. -/
theorem listed_entry_shape
    (SortInfos : Nat → List unz_file_info64_plus → List unz_file_info64_plus)
    (hperm : ∀ k l, (SortInfos k l).Perm l)
    (zipFilePath : CStr) (fileMode : Bool) (directoryName : Option CStr)
    (sorting : Nat) (withPrefix : Bool) :
    (∀ archive, ∀ row ∈ (UnZipFileImpl.getFilesOrDirectories SortInfos zipFilePath archive
        fileMode directoryName sorting withPrefix).1,
      ∃ e ∈ archive, row = storedRow zipFilePath withPrefix e.2 ∧
        listedShape fileMode (UnZipFileImpl.cleanDirName directoryName) e.2) ∧
    (∀ a b info name, UnZipFileImpl.cleanDirName directoryName ≠ [] →
      (name = UnZipFileImpl.cleanDirName directoryName ∨
        ∃ s, isSep s = true ∧ name = UnZipFileImpl.cleanDirName directoryName ++ [s]) →
      UnZipFileImpl.getFilesOrDirectories SortInfos zipFilePath (a ++ (info, name) :: b)
          fileMode directoryName sorting withPrefix =
        UnZipFileImpl.getFilesOrDirectories SortInfos zipFilePath (a ++ b)
          fileMode directoryName sorting withPrefix) ∧
    (∀ a b info pre n m s, childPrefix (UnZipFileImpl.cleanDirName directoryName) pre →
      (∀ c ∈ n, isSep c = false) → isSep s = true → (∃ c ∈ m, isSep c = false) →
      UnZipFileImpl.getFilesOrDirectories SortInfos zipFilePath
          (a ++ (info, pre ++ n ++ s :: m) :: b) fileMode directoryName sorting withPrefix =
        UnZipFileImpl.getFilesOrDirectories SortInfos zipFilePath (a ++ b)
          fileMode directoryName sorting withPrefix) ∧
    UnZipFileImpl.getFilesOrDirectories (fun _ l => l) "a.zip".toList
        [(⟨0, 0, 0, 0⟩, "/".toList)] false (some []) 0 false = ([[]], [[]]) ∧
    UnZipFileImpl.getFilesOrDirectories (fun _ l => l) "a.zip".toList
        [(⟨0, 0, 0, 0⟩, "docs/".toList), (⟨0, 0, 0, 0⟩, "docs/img/".toList),
         (⟨0, 0, 0, 0⟩, "docs/img/big/".toList), (⟨5, 9, 0, 0⟩, "docs/readme.txt".toList)]
        false (some "docs/".toList) 0 true
      = (["a.zip/docs/img".toList], ["img".toList]) := by
  refine ⟨?_, ?_, ?_, by decide, by decide⟩
  · intro archive row hrow
    obtain ⟨e, he, hr, hsome⟩ := getFilesOrDirectories_origin SortInfos hperm zipFilePath archive
      fileMode directoryName sorting withPrefix row hrow
    exact ⟨e, he, hr, entry_shape fileMode _ e.1 e.2 hsome⟩
  · intro a b info name hd hname
    exact getFilesOrDirectories_skip SortInfos zipFilePath a b info name fileMode directoryName
      sorting withPrefix (entry_self_none fileMode _ info name hd hname)
  · intro a b info pre n m s hpre hn hs hm
    exact getFilesOrDirectories_skip SortInfos zipFilePath a b info _ fileMode directoryName
      sorting withPrefix (entry_nested_none fileMode _ info pre n m s hpre hn hs hm)

/-- The entry `docs/` for the listed directory itself, ahead of
`docs/readme.txt`, adds nothing to the files listed under `docs`. -/
theorem listed_entry_shape_witness :
    UnZipFileImpl.getFilesOrDirectories (fun _ l => l) "a.zip".toList
        ([] ++ (⟨0, 0, 0, 0⟩, "docs/".toList) :: [(⟨5, 9, 0, 0⟩, "docs/readme.txt".toList)])
        true (some "docs".toList) 0 false =
      UnZipFileImpl.getFilesOrDirectories (fun _ l => l) "a.zip".toList
        ([] ++ [(⟨5, 9, 0, 0⟩, "docs/readme.txt".toList)])
        true (some "docs".toList) 0 false :=
  (listed_entry_shape (fun _ l => l) (fun _ _ => List.Perm.refl _) "a.zip".toList true
    (some "docs".toList) 0 false).2.1
    [] [(⟨5, 9, 0, 0⟩, "docs/readme.txt".toList)] ⟨0, 0, 0, 0⟩ "docs/".toList
    (by decide) (Or.inr ⟨'/', by decide, by decide⟩)

/-! ## The segments of `Path::Split` and the archive index -/

theorem GetSplitPathIndexOfZipFile_go_cons (jsz : Nat) (seg : CStr) (rest : List CStr) (j : Nat) :
    FolderInfo.GetSplitPathIndexOfZipFile.go jsz (seg :: rest) j =
      if zipTest jsz seg j = true then (j : Int)
      else FolderInfo.GetSplitPathIndexOfZipFile.go jsz rest (j + 1) := by
  unfold zipTest
  conv_lhs => unfold FolderInfo.GetSplitPathIndexOfZipFile.go
  simp only []
  split_ifs <;> simp_all

theorem endsWithZip_iff (n : CStr) :
    endsWithZip n = true ↔ 4 ≤ n.length ∧ isZipAt n (n.length - 4) := by
  unfold endsWithZip isZipAt
  rw [List.isSuffixOf_iff_suffix]
  have hz : ".zip".toList = ['.', 'z', 'i', 'p'] := rfl
  rw [hz]
  constructor
  · intro h
    have hlen := h.length_le
    simp only [List.length_cons, List.length_nil, List.length_map] at hlen
    refine ⟨by omega, ?_⟩
    have h2 := List.suffix_iff_eq_drop.mp h
    simp only [List.length_cons, List.length_nil, List.length_map] at h2
    rw [List.take_of_length_le (by rw [List.length_drop]; omega), List.map_drop]
    exact h2.symm
  · rintro ⟨hlen, h⟩
    rw [List.take_of_length_le (by rw [List.length_drop]; omega), List.map_drop] at h
    rw [← h]
    exact List.drop_suffix _ _

theorem stripOneSlash_of_not_mem (n : CStr) (h : '/' ∉ n) : stripOneSlash n = n := by
  unfold stripOneSlash
  rw [if_neg]
  intro hl
  exact h (List.mem_of_getLast?_eq_some hl)

theorem stripOneSlash_concat (n : CStr) : stripOneSlash (n ++ ['/']) = n := by
  unfold stripOneSlash
  simp [List.getLast?_concat]

theorem isZipAt_concat (n : CStr) (hlen : 4 ≤ n.length) :
    isZipAt (n ++ ['/']) (n.length - 4) ↔ isZipAt n (n.length - 4) := by
  unfold isZipAt
  rw [List.drop_append_of_le_length (by omega),
    List.take_append_of_le_length (by rw [List.length_drop]; omega)]

theorem zipTest_last (jsz : Nat) (n : CStr) (j : Nat) (hj : (j : Int) = (jsz : Int) - 1)
    (h : '/' ∉ n) : zipTest jsz n j = properArchiveSegment n := by
  unfold zipTest properArchiveSegment
  rw [stripOneSlash_of_not_mem n h]
  simp only [hj, if_true]
  by_cases hlen : 4 < n.length
  · have e : ((n.length : Int) - 4).toNat = n.length - 4 := by omega
    have h1 : ¬ ((n.length : Int) ≤ 4) := by omega
    rw [e]
    rw [Bool.eq_iff_iff]
    simp only [Bool.and_eq_true, Bool.not_eq_true', decide_eq_false_iff_not, h1, not_false_eq_true,
      true_and, decide_eq_true_eq, hlen, zipMatch_iff, endsWithZip_iff]
    constructor
    · intro hz; exact ⟨by omega, hz⟩
    · intro hz; exact hz.2
  · have h1 : (n.length : Int) ≤ 4 := by omega
    simp [h1, hlen]

theorem zipTest_mid (jsz : Nat) (n : CStr) (j : Nat) (hj : (j : Int) ≠ (jsz : Int) - 1) :
    zipTest jsz (n ++ ['/']) j = properArchiveSegment (n ++ ['/']) := by
  unfold zipTest properArchiveSegment
  rw [stripOneSlash_concat]
  simp only [hj, if_false, List.length_append, List.length_singleton]
  by_cases hlen : 4 < n.length
  · have e : (((n.length + 1 : Nat) : Int) - (4 + 1)).toNat = n.length - 4 := by omega
    have h1 : ¬ (((n.length + 1 : Nat) : Int) ≤ 4 + 1) := by omega
    rw [e]
    rw [Bool.eq_iff_iff]
    simp only [Bool.and_eq_true, Bool.not_eq_true', decide_eq_false_iff_not, h1, not_false_eq_true,
      true_and, decide_eq_true_eq, hlen, zipMatch_iff, endsWithZip_iff]
    rw [isZipAt_concat n (by omega)]
    constructor
    · intro hz; exact ⟨by omega, hz⟩
    · intro hz; exact hz.2
  · have h1 : ((n.length + 1 : Nat) : Int) ≤ 4 + 1 := by omega
    have h2 : decide (((n.length + 1 : Nat) : Int) ≤ 4 + 1) = true := by simpa using h1
    simp only [h2, Bool.not_true, Bool.false_and, hlen, decide_False]

theorem Find_go_cons (c x : Char) (l : CStr) (i : Nat) :
    String.Find.go c (x :: l) i = if x = c then (i : Int) else String.Find.go c l (i + 1) := rfl

theorem cutSegs_cons (leave : Bool) (acc : CStr) (c : Char) (rest : CStr) :
    cutSegs leave acc (c :: rest) =
      if c = '/' then (acc ++ (if leave then ['/'] else [])) :: cutSegs leave [] rest
      else cutSegs leave (acc ++ [c]) rest := rfl

theorem Find_go_of_not_mem (c : Char) (l : CStr) (h : c ∉ l) : ∀ i, String.Find.go c l i = -1 := by
  induction l with
  | nil => intro i; rfl
  | cons a l ih =>
    intro i
    unfold String.Find.go
    have ha : a ≠ c := fun e => h (e ▸ List.mem_cons_self _ _)
    rw [if_neg ha]
    exact ih (fun hm => h (List.mem_cons_of_mem _ hm)) (i + 1)

theorem Find_go_first (c : Char) (a b : CStr) (h : c ∉ a) : ∀ i,
    String.Find.go c (a ++ c :: b) i = ((i + a.length : Nat) : Int) := by
  induction a with
  | nil => intro i; simp [String.Find.go]
  | cons x a ih =>
    intro i
    have hx : x ≠ c := fun e => h (e ▸ List.mem_cons_self _ _)
    rw [List.cons_append, Find_go_cons, if_neg hx]
    rw [ih (fun hm => h (List.mem_cons_of_mem _ hm)) (i + 1)]
    simp only [List.length_cons]
    congr 1
    omega

theorem Find_of_not_mem (c : Char) (l : CStr) (h : c ∉ l) : String.Find l c 0 = -1 := by
  unfold String.Find; simpa using Find_go_of_not_mem c l h 0

theorem Find_first (c : Char) (a b : CStr) (h : c ∉ a) :
    String.Find (a ++ c :: b) c 0 = (a.length : Int) := by
  unfold String.Find
  simpa using Find_go_first c a b h 0

/-- One turn of the loop of `Path::Split`. -/
theorem Split_loop_step (leave : Bool) (fuel : Nat) (a b : CStr) (rv : List CStr)
    (h : '/' ∉ a) :
    Path.Split.loop leave (fuel + 1) (a ++ '/' :: b) rv =
      Path.Split.loop leave fuel b (rv ++ [a ++ (if leave then ['/'] else [])]) := by
  have hsplit : a ++ '/' :: b = (a ++ ['/']) ++ b := by simp
  have hlen : (((a ++ ['/']).length : Nat) : Int) = (a.length : Int) + 1 := by simp
  have h1 : String.Substr (a ++ '/' :: b) ((a.length : Int) + 1) (-1) = b := by
    rw [hsplit, ← hlen]; exact Substr_to_end _ _
  have h2 : String.Substr (a ++ '/' :: b) 0 ((a.length : Int) + 1) = a ++ ['/'] := by
    rw [hsplit, ← hlen]; exact Substr_from_start _ _
  have h3 : String.Substr (a ++ '/' :: b) 0 (a.length : Int) = a := Substr_from_start a _
  have hne : (a.length : Int) ≠ -1 := by omega
  conv_lhs => unfold Path.Split.loop
  simp only [Find_first '/' a b h, hne, ne_eq, not_false_eq_true, if_true, h1]
  cases leave with
  | true => simp only [if_true, h2]
  | false => simp only [Bool.false_eq_true, if_false, h3, List.append_nil]

theorem Split_loop_stop (leave : Bool) (fuel : Nat) (tex : CStr) (rv : List CStr)
    (h : '/' ∉ tex) : Path.Split.loop leave fuel tex rv = (rv, tex) := by
  cases fuel with
  | zero => rfl
  | succ n =>
    unfold Path.Split.loop
    simp [Find_of_not_mem '/' tex h]

theorem exists_first_split (c : Char) (l : CStr) (h : c ∈ l) :
    ∃ a b, l = a ++ c :: b ∧ c ∉ a := by
  induction l with
  | nil => simp at h
  | cons x l ih =>
    by_cases hx : x = c
    · exact ⟨[], l, by simp [hx], by simp⟩
    · have hl : c ∈ l := by
        rcases List.mem_cons.mp h with e | e
        · exact absurd e.symm hx
        · exact e
      obtain ⟨a, b, hab, ha⟩ := ih hl
      refine ⟨x :: a, b, by simp [hab], ?_⟩
      intro hm
      rcases List.mem_cons.mp hm with e | e
      · exact hx e.symm
      · exact ha e

theorem cutSegs_of_not_mem (leave : Bool) (acc tex : CStr) (h : '/' ∉ tex) :
    cutSegs leave acc tex = [acc ++ tex] := by
  induction tex generalizing acc with
  | nil => simp [cutSegs]
  | cons x l ih =>
    have hx : x ≠ '/' := fun e => h (e ▸ List.mem_cons_self _ _)
    rw [cutSegs_cons, if_neg hx]
    rw [ih _ (fun hm => h (List.mem_cons_of_mem _ hm))]
    simp

theorem cutSegs_first (leave : Bool) (acc a b : CStr) (h : '/' ∉ a) :
    cutSegs leave acc (a ++ '/' :: b) =
      (acc ++ a ++ (if leave then ['/'] else [])) :: cutSegs leave [] b := by
  induction a generalizing acc with
  | nil => simp [cutSegs]
  | cons x l ih =>
    have hx : x ≠ '/' := fun e => h (e ▸ List.mem_cons_self _ _)
    rw [List.cons_append, cutSegs_cons, if_neg hx]
    rw [ih _ (fun hm => h (List.mem_cons_of_mem _ hm))]
    simp

/-- With enough turns the loop of `Path::Split` pushes the cut pieces and leaves the last one. -/
theorem Split_loop_eq (leave : Bool) : ∀ (fuel : Nat) (tex : CStr) (rv : List CStr),
    tex.length ≤ fuel →
    (Path.Split.loop leave fuel tex rv).1 ++ [(Path.Split.loop leave fuel tex rv).2] =
      rv ++ cutSegs leave [] tex := by
  intro fuel
  induction fuel with
  | zero =>
    intro tex rv h
    have : tex = [] := List.length_eq_zero.mp (by omega)
    subst this
    simp [Path.Split.loop, cutSegs]
  | succ n ih =>
    intro tex rv h
    by_cases hm : '/' ∈ tex
    · obtain ⟨a, b, rfl, ha⟩ := exists_first_split '/' tex hm
      rw [Split_loop_step leave n a b rv ha, cutSegs_first leave [] a b ha]
      rw [ih b _ (by simp at h; omega)]
      simp
    · rw [Split_loop_stop leave _ tex rv hm, cutSegs_of_not_mem leave [] tex hm]
      simp

theorem Split_eq (path : CStr) (leave : Bool) (h : path ≠ []) :
    Path.Split path leave = fixFirst (cutSegs leave [] (String.Replace path '\\' '/')) := by
  unfold Path.Split
  have hlen : (String.Replace path '\\' '/').length ≠ 0 := by
    simp [String.Replace, String.ReplaceInPlace, h]
  simp only [hlen, if_false]
  have := Split_loop_eq leave (String.Replace path '\\' '/').length (String.Replace path '\\' '/') []
    (le_refl _)
  simp only [List.nil_append] at this
  rw [← this]
  rfl

theorem Path_Split_nil (leave : Bool) : Path.Split [] leave = [] := by
  simp [Path.Split, String.Replace, String.ReplaceInPlace]

theorem getLast?_cons_of_ne (c : Char) (r : CStr) (hr : r ≠ []) :
    (c :: r).getLast? = r.getLast? := by
  cases r with
  | nil => exact absurd rfl hr
  | cons b l => exact List.getLast?_cons_cons

theorem cutSegs_true_nonempty : ∀ (rest acc : CStr), (rest = [] → acc ≠ []) →
    rest.getLast? ≠ some '/' → ∀ seg ∈ cutSegs true acc rest, seg ≠ [] := by
  intro rest
  induction rest with
  | nil =>
    intro acc h1 _ seg hseg
    simp only [cutSegs, List.mem_singleton] at hseg
    subst hseg; exact h1 rfl
  | cons c r ih =>
    intro acc _ h2 seg hseg
    rw [cutSegs_cons] at hseg
    have hlast : r ≠ [] → r.getLast? ≠ some '/' := by
      intro hr; rwa [getLast?_cons_of_ne c r hr] at h2
    by_cases hc : c = '/'
    · rw [if_pos hc] at hseg
      rcases List.mem_cons.mp hseg with rfl | hmem
      · simp
      · have hr : r ≠ [] := by
          intro hr; subst hr; subst hc; simp at h2
        exact ih [] (fun h => absurd h hr) (hlast hr) seg hmem
    · rw [if_neg hc] at hseg
      by_cases hr : r = []
      · subst hr
        simp only [cutSegs, List.mem_singleton] at hseg
        subst hseg; simp
      · exact ih (acc ++ [c]) (fun h => absurd h hr) (hlast hr) seg hseg

theorem cutSegs_false_nonempty : ∀ (rest acc : CStr),
    (acc = [] → rest ≠ [] ∧ rest.head? ≠ some '/') → noDoubleSlash rest →
    rest.getLast? ≠ some '/' → ∀ seg ∈ cutSegs false acc rest, seg ≠ [] := by
  intro rest
  induction rest with
  | nil =>
    intro acc h1 _ _ seg hseg
    simp only [cutSegs, List.mem_singleton] at hseg
    subst hseg
    intro h; exact (h1 h).1 rfl
  | cons c r ih =>
    intro acc h1 hch h2 seg hseg
    rw [cutSegs_cons] at hseg
    have hlast : r ≠ [] → r.getLast? ≠ some '/' := by
      intro hr; rwa [getLast?_cons_of_ne c r hr] at h2
    have hch2 : noDoubleSlash r := List.Chain'.tail hch
    by_cases hc : c = '/'
    · rw [if_pos hc] at hseg
      have hr : r ≠ [] := by
        intro hr; subst hr; subst hc; simp at h2
      rcases List.mem_cons.mp hseg with rfl | hmem
      · simp only [Bool.false_eq_true, if_false, List.append_nil]
        intro hacc
        have := (h1 hacc).2
        simp [hc] at this
      · refine ih [] (fun _ => ⟨hr, ?_⟩) hch2 (hlast hr) seg hmem
        cases r with
        | nil => exact absurd rfl hr
        | cons b l =>
          simp only [List.head?_cons, ne_eq, Option.some.injEq]
          intro hb
          have := List.Chain'.rel_head hch
          exact this ⟨hc, hb⟩
    · rw [if_neg hc] at hseg
      by_cases hr : r = []
      · subst hr
        simp only [cutSegs, List.mem_singleton] at hseg
        subst hseg; simp
      · exact ih (acc ++ [c]) (fun h => by simp at h) hch2 (hlast hr) seg hseg

theorem cutSegs_true_structure : ∀ (rest acc : CStr), '/' ∉ acc →
    ∃ init last, cutSegs true acc rest = init ++ [last] ∧
      (∀ seg ∈ init, ∃ n, seg = n ++ ['/'] ∧ '/' ∉ n) ∧ '/' ∉ last := by
  intro rest
  induction rest with
  | nil => intro acc h; exact ⟨[], acc, rfl, by simp, h⟩
  | cons c r ih =>
    intro acc h
    rw [cutSegs_cons]
    by_cases hc : c = '/'
    · rw [if_pos hc]
      obtain ⟨init, last, he, hi, hl⟩ := ih [] (by simp)
      refine ⟨(acc ++ ['/']) :: init, last, by simp [he], ?_, hl⟩
      intro seg hseg
      rcases List.mem_cons.mp hseg with rfl | hm
      · exact ⟨acc, rfl, h⟩
      · exact hi seg hm
    · rw [if_neg hc]
      exact ih (acc ++ [c]) (by simp [h, Ne.symm hc])

theorem replace_eq_slash_iff (c : Char) :
    (if c = '\\' then '/' else c) = '/' ↔ isSep c = true := by
  rw [isSep_true_iff]
  by_cases h : c = '\\'
  · simp [h]
  · simp [h]

theorem Replace_cons (c : Char) (r : CStr) :
    String.Replace (c :: r) '\\' '/' = (if c = '\\' then '/' else c) :: String.Replace r '\\' '/' :=
  rfl

theorem Replace_getLast? (p : CStr) (hend : ∀ c, p.getLast? = some c → isSep c = false) :
    (String.Replace p '\\' '/').getLast? ≠ some '/' := by
  unfold String.Replace String.ReplaceInPlace
  rw [List.getLast?_map]
  intro h
  cases hp : p.getLast? with
  | none => rw [hp] at h; simp at h
  | some c =>
    rw [hp] at h
    simp only [Option.map_some', Option.some.injEq] at h
    have := hend c hp
    rw [(replace_eq_slash_iff c).mp h] at this
    exact absurd this (by simp)

theorem Replace_noDoubleSlash (p : CStr)
    (h : p.Chain' (fun a b => ¬ (isSep a = true ∧ isSep b = true))) :
    noDoubleSlash (String.Replace p '\\' '/') := by
  unfold noDoubleSlash String.Replace String.ReplaceInPlace
  rw [List.chain'_map]
  refine List.Chain'.imp ?_ h
  intro a b hab hc
  exact hab ⟨(replace_eq_slash_iff a).mp hc.1, (replace_eq_slash_iff b).mp hc.2⟩

theorem fixFirst_of_nonempty (l : List CStr) (h : ∀ seg ∈ l, seg ≠ []) : fixFirst l = l := by
  cases l with
  | nil => rfl
  | cons a l =>
    unfold fixFirst
    have : a.length ≠ 0 := fun h0 => h a (List.mem_cons_self _ _) (List.length_eq_zero.mp h0)
    simp [this]

theorem GetSplitPathIndexOfZipFile_go_spec (jsz : Nat) (P : CStr → Bool) :
    ∀ (rest : List CStr) (j : Nat),
    (∀ k seg, rest[k]? = some seg → zipTest jsz seg (j + k) = P seg) →
    (FolderInfo.GetSplitPathIndexOfZipFile.go jsz rest j = -1 ∧ ∀ seg ∈ rest, P seg = false) ∨
    (∃ k seg, rest[k]? = some seg ∧
      FolderInfo.GetSplitPathIndexOfZipFile.go jsz rest j = ((j + k : Nat) : Int) ∧
      P seg = true ∧ ∀ i seg2, i < k → rest[i]? = some seg2 → P seg2 = false) := by
  intro rest
  induction rest with
  | nil => intro j _; left; exact ⟨rfl, by simp⟩
  | cons seg rest ih =>
    intro j hT
    rw [GetSplitPathIndexOfZipFile_go_cons]
    have h0 : zipTest jsz seg j = P seg := by simpa using hT 0 seg (by simp)
    by_cases hP : P seg = true
    · right
      rw [if_pos (by rw [h0]; exact hP)]
      exact ⟨0, seg, by simp, by simp, hP, fun i _ hi => by omega⟩
    · have hPf : P seg = false := by simpa using hP
      rw [if_neg (by rw [h0]; exact hP)]
      have hT2 : ∀ k s2, rest[k]? = some s2 → zipTest jsz s2 (j + 1 + k) = P s2 := by
        intro k s2 hk
        have := hT (k + 1) s2 (by simpa using hk)
        rwa [show j + (k + 1) = j + 1 + k by omega] at this
      rcases ih (j + 1) hT2 with ⟨hgo, hall⟩ | ⟨k, s2, hk, hgo, hPk, hmin⟩
      · left
        refine ⟨hgo, ?_⟩
        intro s hs
        rcases List.mem_cons.mp hs with rfl | hm
        · exact hPf
        · exact hall s hm
      · right
        refine ⟨k + 1, s2, by simpa using hk, by rw [hgo]; congr 1; omega, hPk, ?_⟩
        intro i s3 hi hs3
        cases i with
        | zero => simp at hs3; subst hs3; exact hPf
        | succ i => exact hmin i s3 (by omega) (by simpa using hs3)

theorem cutSegs_true_head_ne_nil : ∀ (rest acc : CStr), (acc ≠ [] ∨ rest ≠ []) →
    ∀ first, (cutSegs true acc rest).head? = some first → first ≠ [] := by
  intro rest
  induction rest with
  | nil =>
    intro acc h first hf
    simp only [cutSegs, List.head?_cons, Option.some.injEq] at hf
    subst hf
    rcases h with h | h
    · exact h
    · exact absurd rfl h
  | cons c r ih =>
    intro acc _ first hf
    rw [cutSegs_cons] at hf
    by_cases hc : c = '/'
    · rw [if_pos hc] at hf
      simp only [if_true, List.head?_cons, Option.some.injEq] at hf
      subst hf; simp
    · rw [if_neg hc] at hf
      exact ih (acc ++ [c]) (Or.inl (by simp)) first hf

theorem Split_true_eq (p : CStr) (h : p ≠ []) :
    Path.Split p true = cutSegs true [] (String.Replace p '\\' '/') := by
  rw [Split_eq p true h]
  have hne : String.Replace p '\\' '/' ≠ [] := by
    simp [String.Replace, String.ReplaceInPlace, h]
  have hh := cutSegs_true_head_ne_nil (String.Replace p '\\' '/') [] (Or.inr hne)
  cases hcs : cutSegs true [] (String.Replace p '\\' '/') with
  | nil => rfl
  | cons a l =>
    rw [hcs] at hh
    have := hh a (by simp)
    unfold fixFirst
    have hl : a.length ≠ 0 := fun h0 => this (List.length_eq_zero.mp h0)
    simp [hl]

/-- The loop test agrees with `properArchiveSegment` on the segments `Path::Split`
returns with `leaveIntermediateTrailingSlashes` set. -/
theorem zipTest_Split (p : CStr) (k : Nat) (seg : CStr)
    (hk : (Path.Split p true)[k]? = some seg) :
    zipTest (Path.Split p true).length seg k = properArchiveSegment seg := by
  by_cases hp : p = []
  · subst hp; rw [Path_Split_nil] at hk; simp at hk
  · rw [Split_true_eq p hp] at hk ⊢
    obtain ⟨init, last, he, hi, hl⟩ :=
      cutSegs_true_structure (String.Replace p '\\' '/') [] (by simp)
    rw [he] at hk ⊢
    have hlen : ((init ++ [last]).length : Int) - 1 = (init.length : Int) := by simp
    by_cases hki : k < init.length
    · rw [List.getElem?_append_left hki] at hk
      obtain ⟨n, rfl, _⟩ := hi seg (List.getElem?_mem hk)
      exact zipTest_mid _ n k (by rw [hlen]; omega)
    · have hkl : k < (init ++ [last]).length := by
        by_contra hcon
        rw [List.getElem?_eq_none (by omega)] at hk
        exact absurd hk (by simp)
      have hke : k = init.length := by simp at hkl; omega
      subst hke
      rw [List.getElem?_append_right (le_refl _)] at hk
      simp at hk
      subst hk
      exact zipTest_last _ _ _ (by rw [hlen]) hl

/-- The archive index of a split path: the first segment that passes
`properArchiveSegment`, or `-1`. -/
theorem GetSplitPathIndexOfZipFile_Split_spec (p : CStr) :
    (FolderInfo.GetSplitPathIndexOfZipFile (Path.Split p true) = -1 ∧
        ∀ seg ∈ Path.Split p true, properArchiveSegment seg = false) ∨
      (∃ (k : Nat) (seg : CStr), (Path.Split p true)[k]? = some seg ∧
        FolderInfo.GetSplitPathIndexOfZipFile (Path.Split p true) = (k : Int) ∧
        properArchiveSegment seg = true ∧
        ∀ i seg2, i < k → (Path.Split p true)[i]? = some seg2 →
          properArchiveSegment seg2 = false) := by
  unfold FolderInfo.GetSplitPathIndexOfZipFile
  have := GetSplitPathIndexOfZipFile_go_spec (Path.Split p true).length properArchiveSegment
    (Path.Split p true) 0 (fun k seg hk => by rw [Nat.zero_add]; exact zipTest_Split p k seg hk)
  simpa using this

theorem GetSplitPathIndexOfZipFile_go_bounds (jsz : Nat) : ∀ (rest : List CStr) (j : Nat),
    FolderInfo.GetSplitPathIndexOfZipFile.go jsz rest j = -1 ∨
      ((j : Int) ≤ FolderInfo.GetSplitPathIndexOfZipFile.go jsz rest j ∧
        FolderInfo.GetSplitPathIndexOfZipFile.go jsz rest j < ((j + rest.length : Nat) : Int)) := by
  intro rest
  induction rest with
  | nil => intro j; left; rfl
  | cons seg rest ih =>
    intro j
    rw [GetSplitPathIndexOfZipFile_go_cons]
    split_ifs
    · right; simp
    · rcases ih (j + 1) with h | ⟨h1, h2⟩
      · left; exact h
      · right
        refine ⟨by omega, ?_⟩
        simp only [List.length_cons]
        push_cast at h2 ⊢
        omega

theorem GetSplitPathIndexOfZipFile_bounds (segs : List CStr) :
    -1 ≤ FolderInfo.GetSplitPathIndexOfZipFile segs ∧
      FolderInfo.GetSplitPathIndexOfZipFile segs < (segs.length : Int) := by
  unfold FolderInfo.GetSplitPathIndexOfZipFile
  rcases GetSplitPathIndexOfZipFile_go_bounds segs.length segs 0 with h | ⟨h1, h2⟩
  · rw [h]; constructor <;> omega
  · simp only [Nat.zero_add] at h2
    constructor <;> omega

theorem ZipIndexOk_reset : ZipIndexOk FolderInfo.reset := by
  unfold ZipIndexOk; decide

theorem ZipIndexOk_fromCurrentFolder (self : FolderInfo) (path : Option CStr) :
    ZipIndexOk (self.fromCurrentFolder path) ∧
      (self.fromCurrentFolder path).splitPathIndexOfZipFile ≤
        (self.fromCurrentFolder path).splitPathIndex := by
  unfold FolderInfo.fromCurrentFolder
  cases path with
  | none => exact ⟨ZipIndexOk_reset, by decide⟩
  | some p =>
    simp only
    split_ifs
    · exact ⟨ZipIndexOk_reset, by decide⟩
    · refine ⟨rfl, ?_⟩
      have := (GetSplitPathIndexOfZipFile_bounds (Path.Split p true)).2
      simp only
      omega

theorem ZipIndexOk_getFolderInfoForSplitPathIndex (self : FolderInfo) (k : Int) (rv : FolderInfo)
    (h : (self.getFolderInfoForSplitPathIndex k rv).1 = true) :
    ZipIndexOk (self.getFolderInfoForSplitPathIndex k rv).2 ∧
      (self.getFolderInfoForSplitPathIndex k rv).2.splitPathIndex = k ∧
      (self.getFolderInfoForSplitPathIndex k rv).2.fullFolder = self.fullFolder := by
  unfold FolderInfo.getFolderInfoForSplitPathIndex at h ⊢
  simp only at h ⊢
  by_cases hk : k < 0 ∨ k ≥ ((Path.Split self.fullFolder true).length : Int)
  · rw [if_pos hk] at h; simp at h
  · rw [if_neg hk]
    exact ⟨rfl, rfl, rfl⟩

theorem mem_resize {α : Type} [Inhabited α] (v : List α) (n : Nat) (x : α)
    (h : x ∈ ImVector.resize v n) : x ∈ v ∨ x = default := by
  unfold ImVector.resize at h
  rcases List.mem_append.mp h with h1 | h1
  · exact Or.inl (List.mem_of_mem_take h1)
  · exact Or.inr (List.eq_of_mem_replicate h1)

theorem ZipIndexOk_no_archive (fi : FolderInfo) (hok : ZipIndexOk fi)
    (hno : ∀ seg ∈ Path.Split fi.fullFolder true, archiveSegment seg = false) :
    fi.splitPathIndexOfZipFile = -1 := by
  rw [hok]
  rcases GetSplitPathIndexOfZipFile_Split_spec fi.fullFolder with ⟨h, _⟩ | ⟨k, seg, hk, _, hp, _⟩
  · exact h
  · have := hno seg (List.getElem?_mem hk)
    unfold properArchiveSegment at hp
    unfold archiveSegment at this
    rw [this] at hp
    simp at hp

/-- C20, as stated, fails: the root path `/` is split into `/` and an empty
segment, a path ending in a separator gets an empty last segment, and without
the trailing slashes two adjacent separators give an empty segment. -/
theorem Split_returns_empty_segments :
    Path.Split "/".toList true = ["/".toList, []] ∧
    Path.Split "/usr/".toList true = ["/".toList, "usr/".toList, []] ∧
    Path.Split "a//b".toList false = ["a".toList, [], "b".toList] := by
  decide

/-- C20, amended: for every path `p` that does not end in a separator and,
when `leaveIntermediateTrailingSlashes` is false, has no two adjacent
separators, no segment returned by `Path::Split(p)` is empty; when `p` begins
with a separator the first segment is the root segment `/`. -/
theorem Split_segments_nonempty (p : CStr) (leave : Bool)
    (hend : ∀ c, p.getLast? = some c → isSep c = false)
    (hadj : leave = false → p.Chain' (fun a b => ¬ (isSep a = true ∧ isSep b = true))) :
    (∀ seg ∈ Path.Split p leave, seg ≠ []) ∧
    (∀ c r, p = c :: r → isSep c = true → (Path.Split p leave).head? = some ['/']) := by
  cases p with
  | nil => simp [Path_Split_nil]
  | cons c r =>
    rw [Split_eq (c :: r) leave (by simp)]
    have hlast := Replace_getLast? (c :: r) hend
    rw [Replace_cons] at hlast ⊢
    cases leave with
    | true =>
      have hne : ∀ seg ∈ cutSegs true [] ((if c = '\\' then '/' else c) :: String.Replace r '\\' '/'),
          seg ≠ [] :=
        cutSegs_true_nonempty _ [] (fun h => by simp at h) hlast
      rw [fixFirst_of_nonempty _ hne]
      refine ⟨hne, ?_⟩
      intro c2 r2 heq hs
      simp only [List.cons.injEq] at heq
      obtain ⟨rfl, rfl⟩ := heq
      rw [cutSegs_cons, if_pos ((replace_eq_slash_iff c).mpr hs)]
      simp
    | false =>
      have hch := Replace_noDoubleSlash (c :: r) (hadj rfl)
      rw [Replace_cons] at hch
      by_cases hs : isSep c = true
      · have hc := (replace_eq_slash_iff c).mpr hs
        rw [hc] at hlast hch ⊢
        rw [cutSegs_cons, if_pos rfl]
        simp only [Bool.false_eq_true, if_false, List.append_nil]
        have hr : String.Replace r '\\' '/' ≠ [] := by
          intro h0; rw [h0] at hlast; simp at hlast
        have hne : ∀ seg ∈ cutSegs false [] (String.Replace r '\\' '/'), seg ≠ [] := by
          refine cutSegs_false_nonempty _ [] (fun _ => ⟨hr, ?_⟩) (List.Chain'.tail hch) ?_
          · intro hh
            cases hr2 : String.Replace r '\\' '/' with
            | nil => exact hr hr2
            | cons b l =>
              rw [hr2] at hh hch
              simp only [List.head?_cons, Option.some.injEq] at hh
              exact List.Chain'.rel_head hch ⟨rfl, hh⟩
          · rwa [getLast?_cons_of_ne _ _ hr] at hlast
        refine ⟨?_, fun _ _ _ _ => by simp [fixFirst]⟩
        intro seg hseg
        simp only [fixFirst, List.length_nil, if_true] at hseg
        rcases List.mem_cons.mp hseg with rfl | hm
        · simp
        · exact hne seg hm
      · have hc : ¬ (if c = '\\' then '/' else c) = '/' := fun h => hs ((replace_eq_slash_iff c).mp h)
        have hne : ∀ seg ∈ cutSegs false []
            ((if c = '\\' then '/' else c) :: String.Replace r '\\' '/'), seg ≠ [] := by
          refine cutSegs_false_nonempty _ [] (fun _ => ⟨by simp, ?_⟩) hch hlast
          simp only [List.head?_cons, ne_eq, Option.some.injEq]
          exact hc
        rw [fixFirst_of_nonempty _ hne]
        refine ⟨hne, ?_⟩
        intro c2 r2 heq hs2
        simp only [List.cons.injEq] at heq
        obtain ⟨rfl, rfl⟩ := heq
        exact absurd hs2 hs

/-- The segments of `/usr/lib`, split without the trailing slashes: the first
is the root segment and none is empty. -/
theorem Split_segments_nonempty_witness :
    (Path.Split "/usr/lib".toList false).head? = some ['/'] ∧
    [] ∉ Path.Split "/usr/lib".toList false := by
  have h := Split_segments_nonempty "/usr/lib".toList false
    (by
      intro c hc
      have h : "/usr/lib".toList.getLast? = some 'b' := by decide
      rw [h] at hc
      rw [← Option.some.inj hc]
      decide)
    (fun _ => by
      have h : "/usr/lib".toList = ['/', 'u', 's', 'r', '/', 'l', 'i', 'b'] := by decide
      rw [h]
      simp only [List.chain'_cons, List.chain'_singleton, and_true]
      decide)
  exact ⟨h.2 '/' "usr/lib".toList (by decide) (by decide), fun hm => h.1 [] hm rfl⟩

/-- C18 fails on the code: in `/a/.zip/b` segment 2 is `.zip/`, which ends in
`.zip` once its trailing `/` is removed, but the result is `-1`: the test
`sz<=startCharToMatch` skips a segment that has nothing before the `.zip`,
although `Path::HasZipExtension(".zip")` is true and
`PathSplitFirstZipFolder` finds the archive in the same path. For every path
the result is the smallest index of a segment that, with one trailing `/`
removed, has more than four characters and ends in `.zip` in any letter case,
and `-1` when there is none; for `/home/u/bundle.zip/docs` it is 3, the index
of the segment `bundle.zip/`. -/
theorem GetSplitPathIndexOfZipFile_skips_bare_zip :
    (Path.Split "/a/.zip/b".toList true)[2]? = some ".zip/".toList ∧
    archiveSegment ".zip/".toList = true ∧
    FolderInfo.GetSplitPathIndexOfZipFile (Path.Split "/a/.zip/b".toList true) = -1 ∧
    Path.HasZipExtension ".zip".toList = true ∧
    UnZipFileImpl.PathSplitFirstZipFolder (fun p => p) (some "/a/.zip/b".toList) false
      = (true, "/a/.zip".toList, "/b".toList) ∧
    (∀ p : CStr,
      (FolderInfo.GetSplitPathIndexOfZipFile (Path.Split p true) = -1 ∧
        ∀ seg ∈ Path.Split p true, properArchiveSegment seg = false) ∨
      (∃ (k : Nat) (seg : CStr), (Path.Split p true)[k]? = some seg ∧
        FolderInfo.GetSplitPathIndexOfZipFile (Path.Split p true) = (k : Int) ∧
        properArchiveSegment seg = true ∧
        ∀ i seg2, i < k → (Path.Split p true)[i]? = some seg2 →
          properArchiveSegment seg2 = false)) ∧
    Path.Split "/home/u/bundle.zip/docs".toList true =
      ["/".toList, "home/".toList, "u/".toList, "bundle.zip/".toList, "docs".toList] ∧
    FolderInfo.GetSplitPathIndexOfZipFile (Path.Split "/home/u/bundle.zip/docs".toList true) = 3 :=
  ⟨by decide, by decide, by decide, by decide, by decide,
   GetSplitPathIndexOfZipFile_Split_spec, by decide, by decide⟩

theorem archiveSegment_of_proper (seg : CStr) (h : properArchiveSegment seg = true) :
    archiveSegment seg = true := by
  unfold properArchiveSegment at h
  unfold archiveSegment
  simp only [Bool.and_eq_true] at h
  exact h.2

/-- The archive index computed by the code has the recorded properties. -/
theorem ArchiveIndexOk_of_ZipIndexOk (fi : FolderInfo) (hok : ZipIndexOk fi) :
    ArchiveIndexOk fi := by
  have hb := GetSplitPathIndexOfZipFile_bounds (Path.Split fi.fullFolder true)
  rw [← hok] at hb
  refine ⟨hb.1, hb.2, ZipIndexOk_no_archive fi hok, ?_⟩
  intro h0
  rcases GetSplitPathIndexOfZipFile_Split_spec fi.fullFolder with ⟨h, _⟩ | ⟨k, seg, hk, hz, hp, _⟩
  · rw [← hok] at h; omega
  · rw [← hok] at hz
    refine ⟨seg, ?_, archiveSegment_of_proper seg hp⟩
    rw [hz]
    simpa using hk

theorem ArchiveIndexOk_reset : ArchiveIndexOk FolderInfo.reset :=
  ArchiveIndexOk_of_ZipIndexOk _ ZipIndexOk_reset

/-- The property only looks at `fullFolder` and `splitPathIndexOfZipFile`. -/
theorem ArchiveIndexOk_congr (fi fi2 : FolderInfo) (h1 : fi2.fullFolder = fi.fullFolder)
    (h2 : fi2.splitPathIndexOfZipFile = fi.splitPathIndexOfZipFile) (h : ArchiveIndexOk fi) :
    ArchiveIndexOk fi2 := by
  unfold ArchiveIndexOk at h ⊢
  rw [h1, h2]
  exact h

theorem ArchiveIndexOk_infoAt (h : History) (i : Int) (hall : ∀ fi ∈ h.info, ArchiveIndexOk fi) :
    ArchiveIndexOk (h.infoAt i) := by
  unfold History.infoAt
  rw [List.getD_eq_getElem?_getD]
  cases hg : h.info[i.toNat]? with
  | none => exact ArchiveIndexOk_reset
  | some fi => exact hall fi (List.getElem?_mem hg)

theorem ArchiveIndexOk_push (info : List FolderInfo) (n k : Nat) (fi0 : FolderInfo)
    (hall : ∀ fi ∈ info, ArchiveIndexOk fi) (h0 : ArchiveIndexOk fi0) :
    ∀ fi ∈ (ImVector.resize info n).set k fi0, ArchiveIndexOk fi := by
  intro fi hfi
  rcases List.mem_or_eq_of_mem_set hfi with hm | rfl
  · rcases mem_resize info n fi hm with h1 | rfl
    · exact hall fi h1
    · exact ArchiveIndexOk_reset
  · exact h0

theorem ArchiveIndexOk_fromCurrentFolder (self : FolderInfo) (path : Option CStr) :
    ArchiveIndexOk (self.fromCurrentFolder path) :=
  ArchiveIndexOk_of_ZipIndexOk _ (ZipIndexOk_fromCurrentFolder self path).1

theorem ArchiveIndexOk_switchTo (h : History) (p : Option CStr) (r : Bool × History)
    (hs : h.switchTo p = some r) (hall : ∀ fi ∈ h.info, ArchiveIndexOk fi) :
    ∀ fi ∈ r.2.info, ArchiveIndexOk fi := by
  cases p with
  | none =>
    have : r = (false, h) := (Option.some.inj hs).symm
    rw [this]; exact hall
  | some p =>
    by_cases hp : p = []
    · subst hp
      have : r = (false, h) := (Option.some.inj hs).symm
      rw [this]; exact hall
    · have hlen : p.length ≠ 0 := fun h0 => hp (List.length_eq_zero.mp h0)
      by_cases hc : h.currentInfoIndex < 0
      · unfold History.switchTo at hs
        simp only [hlen, if_false, hc, if_true] at hs
        rw [← Option.some.inj hs]
        exact ArchiveIndexOk_push _ _ _ _ hall (ArchiveIndexOk_fromCurrentFolder _ _)
      · by_cases he : (h.infoAt h.currentInfoIndex).isEqualPath p = true
        · unfold History.switchTo at hs
          simp only [hlen, if_false, hc, he, if_true] at hs
          rw [← Option.some.inj hs]; exact hall
        · have he2 : (h.infoAt h.currentInfoIndex).isEqualPath p = false := by
            simpa using he
          rw [switchTo_of_ne h p hp (by omega) he2] at hs
          by_cases h1 : (h.infoAt h.currentInfoIndex).getSplitPathIndexFor (some p) = -1
          · rw [if_pos h1] at hs
            rw [← Option.some.inj hs]
            exact ArchiveIndexOk_push _ _ _ _ hall (ArchiveIndexOk_fromCurrentFolder _ _)
          · rw [if_neg h1] at hs
            by_cases h2 : (h.currentInfoIndex + 1 + 1).toNat > h.Capacity
            · rw [if_pos h2] at hs; exact absurd hs (by simp)
            · rw [if_neg h2] at hs
              rw [← Option.some.inj hs]
              exact ArchiveIndexOk_push _ _ _ _ hall
                (ArchiveIndexOk_congr (h.infoAt h.currentInfoIndex) _ rfl rfl
                  (ArchiveIndexOk_infoAt h _ hall))

theorem ArchiveIndexOk_switchToFolderInfo (h : History) (fi0 : FolderInfo)
    (hall : ∀ fi ∈ h.info, ArchiveIndexOk fi) (h0 : ArchiveIndexOk fi0) :
    ∀ fi ∈ (h.switchToFolderInfo fi0).2.info, ArchiveIndexOk fi := by
  unfold History.switchToFolderInfo
  split_ifs
  · exact hall
  · exact hall
  · exact ArchiveIndexOk_push _ _ _ _ hall h0

theorem ArchiveIndexOk_of_Browsed (h : History) (hb : h.Browsed) :
    ∀ fi ∈ h.info, ArchiveIndexOk fi := by
  induction hb with
  | reset => intro fi hfi; simp [History.reset] at hfi
  | switchTo h p r _ hs ih => exact ArchiveIndexOk_switchTo h p r hs ih
  | switchToFolderInfo h fi0 _ h0 ih => exact ArchiveIndexOk_switchToFolderInfo h fi0 ih h0
  | goBack h _ ih =>
    unfold History.goBack
    split_ifs
    · exact ih
    · exact ih
  | goForward h _ ih =>
    unfold History.goForward
    split_ifs
    · exact ih
    · exact ih

/-- C17, as stated, fails: jumping to breadcrumb segment 1 of `/a/b.zip/c`
with `getFolderInfoForSplitPathIndex`, or by `History::switchTo("/a")`, gives
a `FolderInfo` with `splitPathIndex = 1` and `splitPathIndexOfZipFile = 2`. -/
theorem zip_index_above_selected_index :
    ((FolderInfo.reset.fromCurrentFolder (some "/a/b.zip/c".toList)).getFolderInfoForSplitPathIndex
        1 FolderInfo.reset) =
      (true, ⟨"/a/b.zip/c".toList, "/a".toList, 1, 2⟩) ∧
    History.switchToAll History.reset ["/a/b.zip/c".toList, "/a".toList]
      = some ⟨[⟨"/a/b.zip/c".toList, "/a/b.zip/c".toList, 3, 2⟩,
          ⟨"/a/b.zip/c".toList, "/a".toList, 1, 2⟩], 1, 8⟩ := by
  decide

/-- C17, amended: every `FolderInfo` produced by `fromCurrentFolder` has
`splitPathIndexOfZipFile <= splitPathIndex`. For every `FolderInfo` produced
by `fromCurrentFolder` or by `getFolderInfoForSplitPathIndex` (when it returns
true), and for every entry of a history built from `reset()` by
`switchTo(const char*)`, `goBack()`, `goForward()` and by
`switchTo(const FolderInfo&)` called with `FolderInfo`s that have this same
property, `splitPathIndexOfZipFile` is at least `-1` and below the number of
segments of `fullFolder`, is `-1` when no segment of `fullFolder` ends in
`.zip`, and otherwise names a segment of `fullFolder` that ends in `.zip`.
After a jump to an earlier breadcrumb segment it may exceed `splitPathIndex`.
`switchTo(const FolderInfo&)` stores its argument as it is: on the empty
history the argument `/a` with index 5 is stored with index 5. -/
theorem zip_index_invariant :
    (∀ (self : FolderInfo) (path : Option CStr),
      ArchiveIndexOk (self.fromCurrentFolder path) ∧
      (self.fromCurrentFolder path).splitPathIndexOfZipFile ≤
        (self.fromCurrentFolder path).splitPathIndex) ∧
    (∀ (self : FolderInfo) (k : Int) (rv : FolderInfo),
      (self.getFolderInfoForSplitPathIndex k rv).1 = true →
      ArchiveIndexOk (self.getFolderInfoForSplitPathIndex k rv).2 ∧
      (self.getFolderInfoForSplitPathIndex k rv).2.splitPathIndex = k) ∧
    (∀ h : History, h.Browsed → ∀ fi ∈ h.info, ArchiveIndexOk fi) ∧
    (History.reset.switchToFolderInfo ⟨"/a".toList, "/a".toList, 0, 5⟩).2.info
      = [⟨"/a".toList, "/a".toList, 0, 5⟩] := by
  refine ⟨?_, ?_, ArchiveIndexOk_of_Browsed, by decide⟩
  · intro self path
    exact ⟨ArchiveIndexOk_fromCurrentFolder self path, (ZipIndexOk_fromCurrentFolder self path).2⟩
  · intro self k rv h
    have := ZipIndexOk_getFolderInfoForSplitPathIndex self k rv h
    exact ⟨ArchiveIndexOk_of_ZipIndexOk _ this.1, this.2.1⟩

/-! ## The directory and the file name of a path -/

/-- C22: for every path `p` the recursion of `Path::GetDirectoryName`
terminates: run with any bound above the length of `p`, the body returns
before the bound is reached, always with the same result. That result is a
prefix of `p`; it equals `p` exactly when `p` is empty, is `/` or `\`, or ends
with `:`, and it is strictly shorter than `p` otherwise. -/
theorem GetDirectoryName_terminates_and_shortens (p : CStr) :
    (∀ fuel, p.length < fuel →
      Path.GetDirectoryName.go fuel p = some (Path.GetDirectoryName p)) ∧
    Path.GetDirectoryName p <+: p ∧
    (Path.GetDirectoryName p = p ↔ isRootToken p) ∧
    (¬ isRootToken p → (Path.GetDirectoryName p).length < p.length) ∧
    Path.GetDirectoryName.go 17 "/home/user/docs/".toList = some "/home/user".toList ∧
    Path.GetDirectoryName "/usr/lib//".toList = "/usr".toList ∧
    Path.GetDirectoryName "/usr".toList = "/".toList ∧
    Path.GetDirectoryName "C:".toList = "C:".toList := by
  obtain ⟨r, hr, h1, h2, h3⟩ := GetDirectoryName_go_returns (p.length + 1) p (Nat.lt_succ_self _)
  have hrp : r = Path.GetDirectoryName p := by
    have := GetDirectoryName_fuel (p.length + 1) p (Nat.lt_succ_self _)
    rw [hr] at this
    exact Option.some.inj this
  rw [hrp] at h1 h2 h3
  refine ⟨fun fuel hf => GetDirectoryName_fuel fuel p hf, h1, ⟨?_, h2⟩, h3,
    by decide, by decide, by decide, by decide⟩
  intro heq
  by_contra hn
  have := h3 hn
  rw [heq] at this
  exact absurd this (lt_irrefl _)

theorem getLast?_sep_iff_endsInSep (d : CStr) :
    (d.getLast? = some '/' ∨ d.getLast? = some '\\') ↔ endsInSep d := by
  constructor
  · intro h
    have hne : d ≠ [] := by rintro rfl; simp at h
    refine ⟨d.dropLast, d.getLast hne, (List.dropLast_append_getLast hne).symm, ?_⟩
    rw [List.getLast?_eq_getLast _ hne] at h
    simp only [Option.some.injEq] at h
    exact (isSep_true_iff _).mpr h
  · rintro ⟨q, s, rfl, hs⟩
    have : (q ++ [s]).getLast? = some s := by simp
    rw [this]
    simp only [Option.some.injEq]
    exact (isSep_true_iff s).mp hs

theorem Combine_eq (d n rv : CStr) :
    Path.Combine d n rv false =
      if d = [] then n
      else if d.getLast? = some '/' ∨ d.getLast? = some '\\' then d ++ n else d ++ ['/'] ++ n := by
  unfold Path.Combine
  by_cases hd : d = []
  · subst hd; simp
  · have hl : ¬ d.length = 0 := fun h => hd (List.length_eq_zero.mp h)
    simp only [Bool.not_false, if_true, hl, if_false, hd, List.nil_append]
    by_cases he : d.getLast? = some '/' ∨ d.getLast? = some '\\'
    · have h2 : ¬ (d.getLast? ≠ some '\\' ∧ d.getLast? ≠ some '/') := by
        rintro ⟨h1, h2⟩; rcases he with h | h
        · exact h2 h
        · exact h1 h
      rw [if_neg h2, if_pos he]
    · have h2 : d.getLast? ≠ some '\\' ∧ d.getLast? ≠ some '/' :=
        ⟨fun h => he (Or.inr h), fun h => he (Or.inl h)⟩
      rw [if_pos h2, if_neg he]

/-- C23: `Path::Combine(d,n)` in non-append mode is `n` when `d` is empty,
`d ++ n` when `d` ends in `/` or `\`, and `d ++ "/" ++ n` otherwise; so for a
non-empty `d` exactly one separator stands between the directory without its
final separator and the name. The previous content of `rv` plays no part. -/
theorem Combine_cases (d n rv : CStr) :
    (d = [] → Path.Combine d n rv false = n) ∧
    (endsInSep d → Path.Combine d n rv false = d ++ n) ∧
    (d ≠ [] → ¬ endsInSep d → Path.Combine d n rv false = d ++ ['/'] ++ n) ∧
    (d ≠ [] → ∃ d0 s, isSep s = true ∧ Path.Combine d n rv false = d0 ++ s :: n ∧
      (d = d0 ++ [s] ∨ (d = d0 ∧ ¬ endsInSep d))) ∧
    Path.Combine "".toList "a.txt".toList [] false = "a.txt".toList ∧
    Path.Combine "/usr/".toList "a.txt".toList [] false = "/usr/a.txt".toList ∧
    Path.Combine "/usr".toList "a.txt".toList [] false = "/usr/a.txt".toList := by
  have hne_of : endsInSep d → d ≠ [] := by
    rintro ⟨q, s, rfl, -⟩; simp
  have hyes : endsInSep d → Path.Combine d n rv false = d ++ n := by
    intro h
    rw [Combine_eq, if_neg (hne_of h), if_pos ((getLast?_sep_iff_endsInSep d).mpr h)]
  have hno : d ≠ [] → ¬ endsInSep d → Path.Combine d n rv false = d ++ ['/'] ++ n := by
    intro h1 h2
    rw [Combine_eq, if_neg h1, if_neg (fun h => h2 ((getLast?_sep_iff_endsInSep d).mp h))]
  refine ⟨?_, hyes, hno, ?_, by decide, by decide, by decide⟩
  · intro h; rw [Combine_eq, if_pos h]
  · intro h1
    by_cases he : endsInSep d
    · obtain ⟨q, s, hq, hs⟩ := he
      refine ⟨q, s, hs, ?_, Or.inl hq⟩
      rw [hyes ⟨q, s, hq, hs⟩, hq]
      simp
    · refine ⟨d, '/', by decide, ?_, Or.inr ⟨rfl, he⟩⟩
      rw [hno h1 he]
      simp

/-- C21: `Path::GetFileName(p)` is `p` when `p` contains no separator, and is
the text after the last `/` or `\` (whichever occurs later) otherwise; the
result is a suffix of `p` and contains no separator. -/
theorem GetFileName_after_last_separator (p : CStr) :
    ((∀ c ∈ p, isSep c = false) → Path.GetFileName p = p) ∧
    (∀ pre s f, p = pre ++ s :: f → isSep s = true → (∀ c ∈ f, isSep c = false) →
      Path.GetFileName p = f) ∧
    Path.GetFileName p <:+ p ∧
    (∀ c ∈ Path.GetFileName p, isSep c = false) ∧
    Path.GetFileName "dir/sub\\name.txt".toList = "name.txt".toList ∧
    Path.GetFileName "dir\\sub/name.txt".toList = "name.txt".toList := by
  refine ⟨GetFileName_of_sepFree p, ?_, ?_, ?_, by decide, by decide⟩
  · intro pre s f hp hs hf
    rw [hp]
    exact GetFileName_after_sep pre f s hs hf
  · obtain ⟨pre, hpre, -, -⟩ := GetFileName_spec p
    exact ⟨pre, hpre.symm⟩
  · exact (GetFileName_spec p).choose_spec.2.1

/-! ## The archive extension of a path -/

theorem strrchr_cons (ch : Char) (rest : CStr) (c : Char) :
    strrchr (ch :: rest) c =
      match strrchr rest c with
      | some p => some p
      | none => if ch = c then some (ch :: rest) else none := rfl

theorem strrchr_of_not_mem (s : CStr) (c : Char) (h : c ∉ s) : strrchr s c = none := by
  induction s with
  | nil => rfl
  | cons ch rest ih =>
    rw [strrchr_cons, ih (fun hm => h (List.mem_cons_of_mem _ hm))]
    have : ¬ ch = c := fun he => h (he ▸ List.mem_cons_self _ _)
    simp [this]

theorem not_mem_of_strrchr_none (s : CStr) (c : Char) (h : strrchr s c = none) : c ∉ s := by
  induction s with
  | nil => simp
  | cons ch rest ih =>
    rw [strrchr_cons] at h
    cases hr : strrchr rest c with
    | some p => rw [hr] at h; simp at h
    | none =>
      rw [hr] at h
      by_cases hc : ch = c
      · simp [hc] at h
      · intro hm
        rcases List.mem_cons.mp hm with h1 | h1
        · exact hc h1.symm
        · exact ih hr h1

theorem strrchr_last (pre rest : CStr) (c : Char) (h : c ∉ rest) :
    strrchr (pre ++ c :: rest) c = some (c :: rest) := by
  induction pre with
  | nil =>
    rw [List.nil_append, strrchr_cons, strrchr_of_not_mem rest c h]
    simp
  | cons ch pre ih =>
    rw [List.cons_append, strrchr_cons, ih]

theorem strrchr_some (s : CStr) (c : Char) (t : CStr) (h : strrchr s c = some t) :
    ∃ pre rest, s = pre ++ c :: rest ∧ c ∉ rest ∧ t = c :: rest := by
  induction s with
  | nil => simp [strrchr] at h
  | cons ch rest ih =>
    rw [strrchr_cons] at h
    cases hr : strrchr rest c with
    | some p =>
      rw [hr] at h
      simp only [Option.some.injEq] at h
      obtain ⟨pre, r2, h1, h2, h3⟩ := ih (h ▸ hr)
      exact ⟨ch :: pre, r2, by rw [h1]; rfl, h2, h3⟩
    | none =>
      rw [hr] at h
      by_cases hc : ch = c
      · simp only [hc, if_true, Option.some.injEq] at h
        exact ⟨[], rest, by rw [hc]; rfl, not_mem_of_strrchr_none rest c hr, h.symm⟩
      · simp [hc] at h

theorem HasZipExtension_loop_iff (d a b c : Char) :
    Path.HasZipExtension.loop [d, a, b, c] 3 1 = true ↔
      (a = 'z' ∨ a = 'Z') ∧ (b = 'i' ∨ b = 'I') ∧ (c = 'p' ∨ c = 'P') := by
  have hz : ".zip".toList = ['.', 'z', 'i', 'p'] := rfl
  have hZ : ".ZIP".toList = ['.', 'Z', 'I', 'P'] := rfl
  simp only [Path.HasZipExtension.loop, hz, hZ, List.getD_cons_succ, List.getD_cons_zero]
  by_cases ha : a = 'z' ∨ a = 'Z' <;> by_cases hb : b = 'i' ∨ b = 'I' <;>
    by_cases hc : c = 'p' ∨ c = 'P' <;> simp [ha, hb, hc]

theorem HasZipExtension_iff_decomp (p : CStr) :
    Path.HasZipExtension p = true ↔
      ∃ pre a b c, p = pre ++ ['.', a, b, c] ∧
        (a = 'z' ∨ a = 'Z') ∧ (b = 'i' ∨ b = 'I') ∧ (c = 'p' ∨ c = 'P') := by
  unfold Path.HasZipExtension
  constructor
  · intro h
    cases hr : strrchr p '.' with
    | none => rw [hr] at h; simp at h
    | some p1 =>
      rw [hr] at h
      obtain ⟨pre, rest, hp, -, hp1⟩ := strrchr_some p '.' p1 hr
      simp only at h
      by_cases hl : p1.length ≠ 4
      · rw [if_pos hl] at h; simp at h
      · rw [if_neg hl] at h
        have hl3 : rest.length = 3 := by
          rw [hp1] at hl; simp at hl; exact hl
        obtain ⟨a, b, c, rfl⟩ := List.length_eq_three.mp hl3
        rw [hp1] at h
        exact ⟨pre, a, b, c, hp, (HasZipExtension_loop_iff '.' a b c).mp h⟩
  · rintro ⟨pre, a, b, c, rfl, ha, hb, hc⟩
    have hnm : '.' ∉ [a, b, c] := by
      intro hm
      simp only [List.mem_cons, List.mem_singleton, List.not_mem_nil, or_false] at hm
      rcases hm with h | h | h
      · rw [← h] at ha; revert ha; decide
      · rw [← h] at hb; revert hb; decide
      · rw [← h] at hc; revert hc; decide
    rw [strrchr_last pre [a, b, c] '.' hnm]
    simp only [List.length_cons, List.length_nil, ne_eq, not_true_eq_false, if_false]
    exact (HasZipExtension_loop_iff '.' a b c).mpr ⟨ha, hb, hc⟩

theorem endsWithZip_iff_decomp (p : CStr) :
    endsWithZip p = true ↔
      ∃ pre a b c, p = pre ++ ['.', a, b, c] ∧
        (a = 'z' ∨ a = 'Z') ∧ (b = 'i' ∨ b = 'I') ∧ (c = 'p' ∨ c = 'P') := by
  unfold endsWithZip
  rw [List.isSuffixOf_iff_suffix]
  have hz : ".zip".toList = ['.', 'z', 'i', 'p'] := rfl
  rw [hz]
  constructor
  · rintro ⟨t, ht⟩
    obtain ⟨l1, l2, hp, -, h2⟩ := List.map_eq_append_iff.mp ht.symm
    have hl : l2.length = 4 := by
      have := congrArg List.length h2; simpa using this
    match l2, hl with
    | [d, a, b, c], _ =>
      simp only [List.map_cons, List.map_nil, List.cons.injEq, and_true] at h2
      obtain ⟨hd, ha, hb, hc⟩ := h2
      rw [(tolower_eq_dot d).mp hd] at hp
      exact ⟨l1, a, b, c, hp, (tolower_eq_z a).mp ha, (tolower_eq_i b).mp hb,
        (tolower_eq_p c).mp hc⟩
  · rintro ⟨pre, a, b, c, rfl, ha, hb, hc⟩
    refine ⟨pre.map tolower, ?_⟩
    rw [List.map_append]
    simp only [List.map_cons, List.map_nil]
    rw [(tolower_eq_z a).mpr ha, (tolower_eq_i b).mpr hb, (tolower_eq_p c).mpr hc,
      (tolower_eq_dot '.').mpr rfl]

/-- C24: `Path::HasZipExtension(p)` is true if and only if `p`, with its ASCII
letters lower-cased, ends with `.zip`. -/
theorem HasZipExtension_iff_lowercase_suffix (p : CStr) :
    (Path.HasZipExtension p = true ↔ ".zip".toList <:+ p.map tolower) ∧
    Path.HasZipExtension "a/Pack.ZiP".toList = true ∧
    Path.HasZipExtension ".zip".toList = true ∧
    Path.HasZipExtension "pack.zip.bak".toList = false ∧
    Path.HasZipExtension "pack.zipx".toList = false ∧
    Path.HasZipExtension "packzip".toList = false := by
  refine ⟨?_, by decide, by decide, by decide, by decide, by decide⟩
  rw [HasZipExtension_iff_decomp, ← endsWithZip_iff_decomp]
  unfold endsWithZip
  rw [List.isSuffixOf_iff_suffix]

/-! ## Scanning a directory -/

theorem getD_zero_eq (n : CStr) (hne : n ≠ []) (c : Char) :
    n.getD 0 '\x00' = c ↔ n.head? = some c := by
  cases n with
  | nil => exact absurd rfl hne
  | cons a r => simp

theorem getD_last_eq (n : CStr) (hne : n ≠ []) (c : Char) :
    n.getD (n.length - 1) '\x00' = c ↔ n.getLast? = some c := by
  obtain ⟨q, s, rfl⟩ : ∃ q s, n = q ++ [s] :=
    ⟨n.dropLast, n.getLast hne, (List.dropLast_append_getLast hne).symm⟩
  have h1 : (q ++ [s]).length - 1 = q.length := by simp
  rw [h1, List.getD_eq_getElem?_getD, List.getElem?_append_right (le_refl _)]
  simp

theorem directoryNameWithoutSlash_eq (d : CStr) :
    Directory.directoryNameWithoutSlash d = stripOneSlash d := by
  unfold Directory.directoryNameWithoutSlash stripOneSlash
  by_cases hne : d = []
  · subst hne; rfl
  · have hpos : d.length > 0 := List.length_pos.mpr hne
    by_cases hl : d.getLast? = some '/'
    · have h1 := (getD_last_eq d hne '/').mpr hl
      simp only [hpos, h1, and_self, if_true, hl]
      obtain ⟨q, s, rfl⟩ : ∃ q s, d = q ++ [s] :=
        ⟨d.dropLast, d.getLast hne, (List.dropLast_append_getLast hne).symm⟩
      rw [List.dropLast_concat]
      have := Substr_from_start q [s]
      have hlen : (((q ++ [s]).length : Nat) : Int) - 1 = (q.length : Int) := by
        rw [List.length_append]; simp
      rw [hlen]; exact this
    · have h1 : ¬ d.getD (d.length - 1) '\x00' = '/' := fun h => hl ((getD_last_eq d hne '/').mp h)
      simp only [h1, and_false, if_false, hl]

theorem keepName_iff_dirs (pName : CStr) (hne : pName ≠ []) :
    (pName ≠ ['.'] ∧ pName ≠ ['.', '.'] ∧ pName.getD 0 '\x00' ≠ '.' ∧
        pName.getD (pName.length - 1) '\x00' ≠ '~') ↔ keepName pName = true := by
  unfold keepName
  simp only [Bool.and_eq_true, decide_eq_true_eq]
  rw [ne_eq (pName.getD 0 '\x00'), getD_zero_eq pName hne, ne_eq (pName.getD _ '\x00'),
    getD_last_eq pName hne]
  constructor
  · rintro ⟨-, -, h3, h4⟩; exact ⟨⟨hne, h3⟩, h4⟩
  · rintro ⟨⟨-, h3⟩, h4⟩
    refine ⟨?_, ?_, h3, h4⟩
    · rintro rfl; exact h3 rfl
    · rintro rfl; exact h3 rfl

theorem keepName_iff_files (pName : CStr) (hne : pName ≠ []) :
    (pName.getD 0 '\x00' ≠ '.' ∧ pName.getD (pName.length - 1) '\x00' ≠ '~') ↔
      keepName pName = true := by
  unfold keepName
  simp only [Bool.and_eq_true, decide_eq_true_eq]
  rw [ne_eq (pName.getD 0 '\x00'), getD_zero_eq pName hne, ne_eq (pName.getD _ '\x00'),
    getD_last_eq pName hne]
  constructor
  · rintro ⟨h3, h4⟩; exact ⟨⟨hne, h3⟩, h4⟩
  · rintro ⟨⟨-, h3⟩, h4⟩; exact ⟨h3, h4⟩

theorem keepName_nil : keepName [] = false := rfl

theorem GetDirectories_loop_eq (d : CStr) : ∀ (eps : List CStr) (acc : List CStr × List CStr),
    Directory.GetDirectories.loop d eps acc =
      (acc.1 ++ (eps.filter keepName).map (fun n => d ++ ['/'] ++ n),
       acc.2 ++ eps.filter keepName) := by
  intro eps
  induction eps with
  | nil => intro acc; simp [Directory.GetDirectories.loop]
  | cons pName eps ih =>
    intro acc
    rw [Directory.GetDirectories.loop]
    by_cases h0 : pName.length = 0
    · have hn : pName = [] := List.length_eq_zero.mp h0
      simp only [h0, if_true]
      rw [ih, hn, List.filter_cons_of_neg (by rw [keepName_nil]; simp)]
    · have hne : pName ≠ [] := fun h => h0 (by rw [h]; rfl)
      simp only [h0, if_false]
      by_cases hk : keepName pName = true
      · rw [if_pos ((keepName_iff_dirs pName hne).mpr hk), ih, List.filter_cons_of_pos hk]
        simp
      · rw [if_neg (fun h => hk ((keepName_iff_dirs pName hne).mp h)), ih,
          List.filter_cons_of_neg hk]

theorem GetFiles_scanLoop_eq (d : CStr) : ∀ (eps : List CStr) (acc : List CStr × List CStr),
    Directory.GetFiles.scanLoop d eps acc =
      (acc.1 ++ (eps.filter keepName).map (fun n => d ++ ['/'] ++ n),
       acc.2 ++ eps.filter keepName) := by
  intro eps
  induction eps with
  | nil => intro acc; simp [Directory.GetFiles.scanLoop]
  | cons pName eps ih =>
    intro acc
    rw [Directory.GetFiles.scanLoop]
    by_cases h0 : pName.length = 0
    · have hn : pName = [] := List.length_eq_zero.mp h0
      simp only [h0, if_true]
      rw [ih, hn, List.filter_cons_of_neg (by rw [keepName_nil]; simp)]
    · have hne : pName ≠ [] := fun h => h0 (by rw [h]; rfl)
      simp only [h0, if_false]
      by_cases hk : keepName pName = true
      · rw [if_pos ((keepName_iff_files pName hne).mpr hk), ih, List.filter_cons_of_pos hk]
        simp
      · rw [if_neg (fun h => hk ((keepName_iff_files pName hne).mp h)), ih,
          List.filter_cons_of_neg hk]

/-- C25: for every sequence `eps` of names delivered by the scan, the
unfiltered `Directory::GetFiles` and `Directory::GetDirectories` return, in
scan order, exactly the names that are non-empty, do not begin with `.` and do
not end with `~`; the path returned for a name is the directory name with one
trailing `/` removed, then `/`, then the name, at the same position. -/
theorem scan_listing_filter (directoryName : CStr) (eps : List CStr) :
    Directory.GetFiles.unfiltered directoryName (some eps) =
      ((eps.filter keepName).map (fun n => stripOneSlash directoryName ++ ['/'] ++ n),
        eps.filter keepName) ∧
    Directory.GetDirectories directoryName (some eps) =
      ((eps.filter keepName).map (fun n => stripOneSlash directoryName ++ ['/'] ++ n),
        eps.filter keepName) ∧
    Directory.GetFiles.unfiltered "/home/u/".toList
        (some [".".toList, "..".toList, "a.txt".toList, ".cache".toList, "b.c~".toList,
          "".toList, "z".toList]) =
      (["/home/u/a.txt".toList, "/home/u/z".toList], ["a.txt".toList, "z".toList]) := by
  refine ⟨?_, ?_, by decide⟩
  · unfold Directory.GetFiles.unfiltered
    simp only
    rw [GetFiles_scanLoop_eq, directoryNameWithoutSlash_eq]
    simp
  · unfold Directory.GetDirectories
    simp only
    rw [GetDirectories_loop_eq, directoryNameWithoutSlash_eq]
    simp

/-! ## The chosen path of a dialog -/

theorem run_untriggered
    (mainMethod : Internal → Option CStr → Bool → Bool → Option CStr → Option CStr → Internal)
    (I : Internal) (h : I.chosenPath ≠ []) (call : DialogCall) :
    call.run mainMethod I false = ([], I) := by
  have hl : ¬ I.chosenPath.length = 0 := fun h0 => h (List.length_eq_zero.mp h0)
  cases call <;>
    simp [DialogCall.run, Dialog.chooseFileDialog, Dialog.chooseFolderDialog,
      Dialog.saveFileDialog, Dialog.getChosenPath, h]

theorem runAll_untriggered
    (mainMethod : Internal → Option CStr → Bool → Bool → Option CStr → Option CStr → Internal)
    (I : Internal) (h : I.chosenPath ≠ []) (calls : List DialogCall) :
    DialogCall.runAll mainMethod I calls = I := by
  induction calls with
  | nil => rfl
  | cons call calls ih =>
    rw [DialogCall.runAll, run_untriggered mainMethod I h call]
    exact ih

theorem run_triggered
    (mainMethod : Internal → Option CStr → Bool → Bool → Option CStr → Option CStr → Internal)
    (I : Internal) (call : DialogCall) :
    call.run mainMethod I true =
      (let J := mainMethod { I with rescan := true, chosenPath := [] } call.mainArgs.1
          call.mainArgs.2.1 call.mainArgs.2.2.1 call.mainArgs.2.2.2.1 call.mainArgs.2.2.2.2
       (J.chosenPath, if J.chosenPath ≠ [] then { J with unz := false } else J)) := by
  cases call <;>
    simp [DialogCall.run, DialogCall.mainArgs, Dialog.chooseFileDialog, Dialog.chooseFolderDialog,
      Dialog.saveFileDialog, Dialog.getChosenPath]

theorem run_chosenPath
    (mainMethod : Internal → Option CStr → Bool → Bool → Option CStr → Option CStr → Internal)
    (I : Internal) (t : Bool) (call : DialogCall)
    (h : (call.run mainMethod I t).1 ≠ []) :
    (call.run mainMethod I t).2.chosenPath = (call.run mainMethod I t).1 := by
  cases call <;>
    simp only [DialogCall.run, Dialog.chooseFileDialog, Dialog.chooseFolderDialog,
      Dialog.saveFileDialog] at h ⊢ <;>
    split_ifs at h ⊢ <;> first | rfl | exact absurd rfl h

/-- C26: for a dialog whose chosen path is non-empty, every call of
`chooseFileDialog`, `chooseFolderDialog` or `saveFileDialog` with
`dialogTriggerButton = false` returns the empty string and leaves the state
unchanged, so `getChosenPath()` stays the same over any sequence of such
calls; a call with `dialogTriggerButton = true` clears the chosen path (and
sets `rescan`) before it runs `ChooseFileMainMethod`. A call that returns a
non-empty path leaves it in `getChosenPath()`, and the calls after it that do
not trigger return the empty string. -/
theorem chosen_path_kept_until_trigger
    (mainMethod : Internal → Option CStr → Bool → Bool → Option CStr → Option CStr → Internal)
    (I : Internal) (h : Dialog.getChosenPath I ≠ []) :
    (∀ call : DialogCall, call.run mainMethod I false = ([], I)) ∧
    (∀ calls : List DialogCall,
      Dialog.getChosenPath (DialogCall.runAll mainMethod I calls) = Dialog.getChosenPath I) ∧
    (∀ call : DialogCall, call.run mainMethod I true =
      (let J := mainMethod { I with rescan := true, chosenPath := [] } call.mainArgs.1
          call.mainArgs.2.1 call.mainArgs.2.2.1 call.mainArgs.2.2.2.1 call.mainArgs.2.2.2.2
       (J.chosenPath, if J.chosenPath ≠ [] then { J with unz := false } else J))) ∧
    (∀ (I0 : Internal) (t : Bool) (call : DialogCall),
      (call.run mainMethod I0 t).1 ≠ [] →
      Dialog.getChosenPath (call.run mainMethod I0 t).2 = (call.run mainMethod I0 t).1 ∧
      ∀ later : DialogCall,
        later.run mainMethod (call.run mainMethod I0 t).2 false =
          ([], (call.run mainMethod I0 t).2)) :=
  ⟨run_untriggered mainMethod I h,
   fun calls => by rw [runAll_untriggered mainMethod I h calls],
   run_triggered mainMethod I,
   fun I0 t call hne =>
     ⟨run_chosenPath mainMethod I0 t call hne,
      run_untriggered mainMethod _ (by
        have := run_chosenPath mainMethod I0 t call hne
        rw [this]; exact hne)⟩⟩

/-- A chosen `/tmp/a.txt`, then `chooseFileDialog(false,"./","")`: the window
would accept a selection at once, yet the call returns the empty string. -/
theorem chosen_path_kept_until_trigger_witness :
    (DialogCall.chooseFile (some "./".toList) (some [])).run (fun J _ f s _ filter => ChooseFileMainMethod.pressSelectionButton f s filter J)
        ⟨[], "/tmp".toList, "/tmp/a.txt".toList, false, true, false, false⟩ false
      = ([], ⟨[], "/tmp".toList, "/tmp/a.txt".toList, false, true, false, false⟩) :=
  (chosen_path_kept_until_trigger (fun J _ f s _ filter => ChooseFileMainMethod.pressSelectionButton f s filter J)
    ⟨[], "/tmp".toList, "/tmp/a.txt".toList, false, true, false, false⟩ (by decide)).1
    (DialogCall.chooseFile (some "./".toList) (some []))

/-! ## Cutting a path after each separator -/

theorem cutSegs_true_flatten : ∀ (rest acc : CStr),
    (cutSegs true acc rest).flatten = acc ++ rest := by
  intro rest
  induction rest with
  | nil => intro acc; simp [cutSegs]
  | cons c rest ih =>
    intro acc
    rw [cutSegs_cons]
    by_cases hc : c = '/'
    · rw [if_pos hc, List.flatten_cons, ih, hc]
      simp
    · rw [if_neg hc, ih]
      simp

theorem cutSegs_length (leave : Bool) : ∀ (rest acc : CStr),
    (cutSegs leave acc rest).length = rest.count '/' + 1 := by
  intro rest
  induction rest with
  | nil => intro acc; simp [cutSegs]
  | cons c rest ih =>
    intro acc
    rw [cutSegs_cons]
    by_cases hc : c = '/'
    · rw [if_pos hc, List.length_cons, ih, hc, List.count_cons_self]
    · rw [if_neg hc, ih, List.count_cons_of_ne (fun h => hc h.symm)]

theorem count_Replace (p : CStr) :
    (String.Replace p '\\' '/').count '/' = p.countP isSep := by
  induction p with
  | nil => rfl
  | cons c r ih =>
    rw [Replace_cons, List.countP_cons]
    by_cases h1 : c = '\\'
    · rw [if_pos h1, List.count_cons_self, ih, h1]
      rfl
    · rw [if_neg h1]
      by_cases h2 : c = '/'
      · rw [h2, List.count_cons_self, ih]
        rfl
      · rw [List.count_cons_of_ne (fun h => h2 h.symm), ih, (isSep_false_iff c).mpr ⟨h2, h1⟩]
        simp

/-- C27: for every non-empty path `p`, `Path::Split(p,true)` is the list
obtained by cutting `p'`, the copy of `p` with every `\` replaced by `/`,
immediately after each `/`: every segment but the last ends in its only `/`,
the last has none, the segments concatenated give `p'`, and their number is
one more than the number of separators of `p`. -/
theorem Split_true_cuts_after_each_slash (p : CStr) (h : p ≠ []) :
    Path.Split p true = cutSegs true [] (String.Replace p '\\' '/') ∧
    (Path.Split p true).flatten = String.Replace p '\\' '/' ∧
    (Path.Split p true).length = p.countP isSep + 1 ∧
    (∃ init last, Path.Split p true = init ++ [last] ∧
      (∀ seg ∈ init, ∃ n, seg = n ++ ['/'] ∧ '/' ∉ n) ∧ '/' ∉ last) := by
  rw [Split_true_eq p h]
  refine ⟨rfl, ?_, ?_, cutSegs_true_structure _ [] (by simp)⟩
  · rw [cutSegs_true_flatten]; rfl
  · rw [cutSegs_length, count_Replace]

/-- The path `/usr\lib/`: three separators, four segments. -/
theorem Split_true_cuts_after_each_slash_witness :
    Path.Split "/usr\\lib/".toList true = cutSegs true [] (String.Replace "/usr\\lib/".toList '\\' '/') ∧
    (Path.Split "/usr\\lib/".toList true).flatten = String.Replace "/usr\\lib/".toList '\\' '/' ∧
    (Path.Split "/usr\\lib/".toList true).length = "/usr\\lib/".toList.countP isSep + 1 :=
  have h := Split_true_cuts_after_each_slash "/usr\\lib/".toList (by decide)
  ⟨h.1, h.2.1, h.2.2.1⟩

/-! ## Jumping to a breadcrumb segment and looking it up -/

theorem absPath_nil : absPath [] = [] := rfl

theorem absPath_cons (s : CStr) (t : List CStr) : absPath (s :: t) = '/' :: s ++ absPath t := rfl

theorem absPath_append (a b : List CStr) : absPath (a ++ b) = absPath a ++ absPath b := by
  unfold absPath
  rw [List.map_append, List.flatten_append]

theorem Replace_of_not_mem (p : CStr) (h : '\\' ∉ p) : String.Replace p '\\' '/' = p := by
  induction p with
  | nil => rfl
  | cons c r ih =>
    rw [Replace_cons, ih (fun hm => h (List.mem_cons_of_mem _ hm))]
    have : ¬ c = '\\' := fun he => h (he ▸ List.mem_cons_self _ _)
    rw [if_neg this]

theorem absPath_no_backslash (segs : List CStr)
    (hseg : ∀ s ∈ segs, s ≠ [] ∧ ∀ c ∈ s, isSep c = false) : '\\' ∉ absPath segs := by
  induction segs with
  | nil => simp [absPath_nil]
  | cons s t ih =>
    rw [absPath_cons]
    intro hm
    rcases List.mem_cons.mp hm with h | h
    · exact absurd h (by decide)
    · rcases List.mem_append.mp h with h | h
      · exact (not_mem_of_sepFree s (hseg s (List.mem_cons_self _ _)).2).2 h
      · exact ih (fun x hx => hseg x (List.mem_cons_of_mem _ hx)) h

theorem cutSegs_slashed : ∀ (t : List CStr) (s : CStr),
    (∀ x ∈ s :: t, x ≠ [] ∧ ∀ c ∈ x, isSep c = false) →
    cutSegs true [] (s ++ absPath t) = slashed (s :: t) := by
  intro t
  induction t with
  | nil =>
    intro s hs
    rw [absPath_nil, List.append_nil,
      cutSegs_of_not_mem true [] s (not_mem_of_sepFree s (hs s (List.mem_cons_self _ _)).2).1]
    rfl
  | cons s2 t ih =>
    intro s hs
    rw [absPath_cons, List.cons_append,
      cutSegs_first true [] s _ (not_mem_of_sepFree s (hs s (List.mem_cons_self _ _)).2).1,
      ih s2 (fun x hx => hs x (List.mem_cons_of_mem _ hx))]
    simp [slashed]

theorem Split_absPath (segs : List CStr) (hne : segs ≠ [])
    (hseg : ∀ s ∈ segs, s ≠ [] ∧ ∀ c ∈ s, isSep c = false) :
    Path.Split (absPath segs) true = ['/'] :: slashed segs := by
  obtain ⟨s, t, rfl⟩ := List.exists_cons_of_ne_nil hne
  have hp : absPath (s :: t) ≠ [] := by rw [absPath_cons]; simp
  rw [Split_true_eq _ hp, Replace_of_not_mem _ (absPath_no_backslash _ hseg), absPath_cons,
    List.cons_append, cutSegs_cons, if_pos rfl, cutSegs_slashed t s hseg]
  rfl

theorem Append_strip_of_not_sep (fuel : Nat) (Y : CStr) (c : Char) (hc : isSep c = false) :
    Path.Append.strip fuel (Y ++ [c]) = Y ++ [c] := by
  cases fuel with
  | zero => rfl
  | succ n =>
    rw [Path.Append.strip]
    have hl : (Y ++ [c]).getLast? = some c := by simp
    have h1 := (isSep_false_iff c).mp hc
    have : ¬ ((Y ++ [c]).length > 0 ∧
        ((Y ++ [c]).getLast? = some '\\' ∨ (Y ++ [c]).getLast? = some '/')) := by
      rw [hl]
      rintro ⟨-, h | h⟩
      · exact h1.2 (Option.some.inj h)
      · exact h1.1 (Option.some.inj h)
    rw [if_neg this]

theorem Append_strip_slash (fuel : Nat) (Y : CStr) :
    Path.Append.strip (fuel + 1) (Y ++ ['/']) = Path.Append.strip fuel Y := by
  rw [Path.Append.strip]
  have hl : (Y ++ ['/']).getLast? = some '/' := by simp
  have : (Y ++ ['/']).length > 0 ∧
      ((Y ++ ['/']).getLast? = some '\\' ∨ (Y ++ ['/']).getLast? = some '/') :=
    ⟨by simp, Or.inr hl⟩
  rw [if_pos this, List.dropLast_concat]

theorem Append_segment (B cur s t : CStr)
    (hcur : cur = B ++ ['/'] ∨
      (cur = B ∧ B ≠ [] ∧ B.getLast? ≠ some '\\' ∧ B.getLast? ≠ some '/'))
    (hs : s ≠ []) (hfree : ∀ c ∈ s, isSep c = false) (ht : t = [] ∨ t = ['/']) :
    Path.Append (s ++ t) cur = B ++ '/' :: s ++ colonFix s := by
  obtain ⟨s0, c, rfl⟩ : ∃ s0 c, s = s0 ++ [c] :=
    ⟨s.dropLast, s.getLast hs, (List.dropLast_append_getLast hs).symm⟩
  have hc : isSep c = false := hfree c (by simp)
  unfold Path.Append
  have hd : ¬ (s0 ++ [c] ++ t).length = 0 := by simp
  rw [if_neg hd]
  have hstep : (if cur.length > 0 ∧ (cur.getLast? ≠ some '\\' ∧ cur.getLast? ≠ some '/') then
      cur ++ ['/'] else cur) = B ++ ['/'] := by
    rcases hcur with rfl | ⟨rfl, hB, h1, h2⟩
    · have hl : (B ++ ['/']).getLast? = some '/' := by simp
      have : ¬ ((B ++ ['/']).length > 0 ∧
          ((B ++ ['/']).getLast? ≠ some '\\' ∧ (B ++ ['/']).getLast? ≠ some '/')) := by
        rintro ⟨-, -, h⟩; exact h hl
      rw [if_neg this]
    · rw [if_pos ⟨List.length_pos.mpr hB, h1, h2⟩]
  simp only [hstep]
  have hstrip : Path.Append.strip (B ++ ['/'] ++ (s0 ++ [c] ++ t)).length
      (B ++ ['/'] ++ (s0 ++ [c] ++ t)) = (B ++ ['/'] ++ s0) ++ [c] := by
    rcases ht with rfl | rfl
    · rw [List.append_nil, ← List.append_assoc]
      exact Append_strip_of_not_sep _ _ c hc
    · have e : B ++ ['/'] ++ (s0 ++ [c] ++ ['/']) = ((B ++ ['/'] ++ s0) ++ [c]) ++ ['/'] := by
        simp
      rw [e]
      have e2 : (((B ++ ['/'] ++ s0) ++ [c]) ++ ['/']).length =
          ((B ++ ['/'] ++ s0) ++ [c]).length + 1 := List.length_append _ _
      rw [e2, Append_strip_slash]
      exact Append_strip_of_not_sep _ _ c hc
  rw [hstrip]
  have hl : ((B ++ ['/'] ++ s0) ++ [c]).getLast? = some c := List.getLast?_concat _
  have hl2 : (s0 ++ [c]).getLast? = some c := List.getLast?_concat _
  have hlen : ¬ ((B ++ ['/'] ++ s0) ++ [c]).length = 0 := by simp
  unfold colonFix
  rw [hl, hl2]
  by_cases hcc : c = ':'
  · rw [if_pos (Or.inr (by rw [hcc])), if_pos (by rw [hcc])]
    simp
  · have : ¬ (((B ++ ['/'] ++ s0) ++ [c]).length = 0 ∨ some c = some ':') := by
      rintro (h | h)
      · exact hlen h
      · exact hcc (Option.some.inj h)
    rw [if_neg this, if_neg (fun h => hcc (Option.some.inj h))]
    simp

theorem getLast?_cons_of_ne_nil (a : CStr) (l : List CStr) (h : l ≠ []) :
    (a :: l).getLast? = l.getLast? := by
  cases l with
  | nil => exact absurd rfl h
  | cons b r => rfl

theorem appendSegments_cons (seg : CStr) (rest : List CStr) (cur : CStr) :
    FolderInfo.appendSegments (seg :: rest) cur =
      FolderInfo.appendSegments rest (Path.Append seg cur) := rfl

theorem appendSegments_slashed : ∀ (segs : List CStr) (B cur : CStr) (k : Nat),
    (∀ s ∈ segs, s ≠ [] ∧ ∀ c ∈ s, isSep c = false) →
    (cur = B ++ ['/'] ∨ (cur = B ∧ B ≠ [] ∧ B.getLast? ≠ some '\\' ∧ B.getLast? ≠ some '/')) →
    1 ≤ k → k ≤ segs.length →
    ∃ s, (segs.take k).getLast? = some s ∧
      FolderInfo.appendSegments ((slashed segs).take k) cur =
        B ++ absPath (segs.take k) ++ colonFix s := by
  intro segs
  induction segs with
  | nil => intro B cur k _ _ h1 h2; simp at h2; omega
  | cons s t ih =>
    intro B cur k hseg hcur h1 h2
    obtain ⟨k2, rfl⟩ : ∃ k2, k = k2 + 1 := ⟨k - 1, by omega⟩
    have hs := hseg s (List.mem_cons_self _ _)
    have hstep : Path.Append (if t = [] then s else s ++ ['/']) cur =
        B ++ '/' :: s ++ colonFix s := by
      by_cases ht : t = []
      · rw [if_pos ht]
        have := Append_segment B cur s [] hcur hs.1 hs.2 (Or.inl rfl)
        rwa [List.append_nil] at this
      · rw [if_neg ht]
        exact Append_segment B cur s ['/'] hcur hs.1 hs.2 (Or.inr rfl)
    rw [slashed, List.take_succ_cons, List.take_succ_cons, appendSegments_cons, hstep]
    by_cases hk : k2 = 0
    · subst hk
      refine ⟨s, rfl, ?_⟩
      simp [FolderInfo.appendSegments, absPath_cons, absPath_nil]
    · obtain ⟨s0, c, hsc⟩ : ∃ s0 c, s = s0 ++ [c] :=
        ⟨s.dropLast, s.getLast hs.1, (List.dropLast_append_getLast hs.1).symm⟩
      have hc : isSep c = false := hs.2 c (by rw [hsc]; simp)
      have hc2 := (isSep_false_iff c).mp hc
      have hB2 : (B ++ '/' :: s).getLast? = some c := by
        rw [hsc]
        have : B ++ '/' :: (s0 ++ [c]) = (B ++ '/' :: s0) ++ [c] := by simp
        rw [this]; exact List.getLast?_concat _
      have hcur2 : (B ++ '/' :: s ++ colonFix s = (B ++ '/' :: s) ++ ['/']) ∨
          (B ++ '/' :: s ++ colonFix s = B ++ '/' :: s ∧ B ++ '/' :: s ≠ [] ∧
            (B ++ '/' :: s).getLast? ≠ some '\\' ∧ (B ++ '/' :: s).getLast? ≠ some '/') := by
        unfold colonFix
        by_cases hcol : s.getLast? = some ':'
        · left; rw [if_pos hcol]
        · right
          rw [if_neg hcol, hB2]
          refine ⟨by simp, by simp, ?_, ?_⟩
          · intro h; exact hc2.2 (Option.some.inj h)
          · intro h; exact hc2.1 (Option.some.inj h)
      obtain ⟨s2, hs2, heq⟩ := ih (B ++ '/' :: s) (B ++ '/' :: s ++ colonFix s) k2
        (fun x hx => hseg x (List.mem_cons_of_mem _ hx)) hcur2 (by omega)
        (by simp at h2; omega)
      have hne : t.take k2 ≠ [] := by
        intro h; rw [h] at hs2; simp at hs2
      refine ⟨s2, ?_, ?_⟩
      · rw [getLast?_cons_of_ne_nil s _ hne]; exact hs2
      · rw [heq, absPath_cons]
        simp

theorem Append_root : Path.Append ['/'] [] = ['/'] := by decide

theorem crumb_eq (segs : List CStr) (hne : segs ≠ [])
    (hseg : ∀ s ∈ segs, s ≠ [] ∧ ∀ c ∈ s, isSep c = false) (k : Nat) (hk : k ≤ segs.length) :
    FolderInfo.appendSegments ((Path.Split (absPath segs) true).take (k + 1)) [] =
      crumbOf (segs.take k) := by
  rw [Split_absPath segs hne hseg, List.take_succ_cons, appendSegments_cons, Append_root]
  by_cases h0 : k = 0
  · subst h0; rfl
  · obtain ⟨s, hs, heq⟩ := appendSegments_slashed segs [] ['/'] k hseg (Or.inl rfl)
      (by omega) hk
    rw [heq]
    unfold crumbOf
    rw [hs]
    rfl

theorem getSplitPathIndexFor_go_cons (path seg : CStr) (rest : List CStr) (tmp : CStr) (i : Nat) :
    FolderInfo.getSplitPathIndexFor.go path (seg :: rest) tmp i =
      if Path.Append seg tmp = path then (i : Int)
      else FolderInfo.getSplitPathIndexFor.go path rest (Path.Append seg tmp) (i + 1) := rfl

theorem getSplitPathIndexFor_go_first (path : CStr) : ∀ (l : List CStr) (tmp : CStr) (i m : Nat),
    m < l.length → FolderInfo.appendSegments (l.take (m + 1)) tmp = path →
    (∀ j, j < m → FolderInfo.appendSegments (l.take (j + 1)) tmp ≠ path) →
    FolderInfo.getSplitPathIndexFor.go path l tmp i = ((i + m : Nat) : Int) := by
  intro l
  induction l with
  | nil => intro tmp i m h; simp at h
  | cons seg rest ih =>
    intro tmp i m hm heq hne
    rw [getSplitPathIndexFor_go_cons]
    cases m with
    | zero =>
      have : Path.Append seg tmp = path := heq
      rw [if_pos this]; rfl
    | succ m =>
      have h0 : Path.Append seg tmp ≠ path := hne 0 (by omega)
      rw [if_neg h0]
      rw [List.take_succ_cons, appendSegments_cons] at heq
      have := ih (Path.Append seg tmp) (i + 1) m (by simpa using hm) heq
        (fun j hj => by
          have := hne (j + 1) (by omega)
          rwa [List.take_succ_cons, appendSegments_cons] at this)
      rw [this]
      congr 1
      omega

theorem length_crumbOf_le (pre : List CStr) : (crumbOf pre).length ≤ (absPath pre).length + 1 := by
  unfold crumbOf colonFix
  cases pre.getLast? with
  | none => simp
  | some s =>
    simp only [List.length_append]
    split_ifs <;> simp

theorem length_crumbOf_ge (pre : List CStr) : (absPath pre).length ≤ (crumbOf pre).length := by
  unfold crumbOf
  cases h : pre.getLast? with
  | none =>
    have : pre = [] := List.getLast?_eq_none_iff.mp h
    rw [this]; simp [absPath_nil]
  | some s => simp

theorem length_absPath_take (segs : List CStr)
    (hseg : ∀ s ∈ segs, s ≠ [] ∧ ∀ c ∈ s, isSep c = false) (j k : Nat) (hjk : j < k)
    (hk : k ≤ segs.length) :
    (absPath (segs.take j)).length + 2 ≤ (absPath (segs.take k)).length := by
  have h1 : segs.take k = segs.take j ++ (segs.take k).drop j := by
    have := (List.take_append_drop j (segs.take k)).symm
    rwa [List.take_take, min_eq_left (le_of_lt hjk)] at this
  have hlen : ((segs.take k).drop j).length = k - j := by
    rw [List.length_drop, List.length_take, min_eq_left hk]
  cases hd : (segs.take k).drop j with
  | nil => rw [hd] at hlen; simp at hlen; omega
  | cons x r =>
    have hx : x ∈ segs :=
      List.mem_of_mem_take (List.mem_of_mem_drop (by rw [hd]; exact List.mem_cons_self _ _))
    have hxl : 0 < x.length := List.length_pos.mpr (hseg x hx).1
    rw [h1, hd, absPath_append, absPath_cons]
    simp only [List.length_append, List.length_cons]
    omega

theorem crumbOf_ne (segs : List CStr)
    (hseg : ∀ s ∈ segs, s ≠ [] ∧ ∀ c ∈ s, isSep c = false) (j k : Nat) (hjk : j < k)
    (hk : k ≤ segs.length) : crumbOf (segs.take j) ≠ crumbOf (segs.take k) := by
  intro h
  have h1 := length_crumbOf_le (segs.take j)
  have h2 := length_crumbOf_ge (segs.take k)
  have h3 := length_absPath_take segs hseg j k hjk hk
  rw [h] at h1
  omega

theorem absPath_take_drop (segs : List CStr) (k : Nat) :
    absPath segs = absPath (segs.take k) ++ absPath (segs.drop k) := by
  rw [← absPath_append, List.take_append_drop]

theorem crumbOf_initial (segs : List CStr) (hne : segs ≠ []) (k : Nat) (hk : k ≤ segs.length)
    (h : ¬ (k = segs.length ∧ ∃ s, segs.getLast? = some s ∧ s.getLast? = some ':')) :
    crumbOf (segs.take k) <+: absPath segs := by
  unfold crumbOf
  cases hl : (segs.take k).getLast? with
  | none =>
    obtain ⟨s, t, rfl⟩ := List.exists_cons_of_ne_nil hne
    rw [absPath_cons]
    exact ⟨s ++ absPath t, rfl⟩
  | some s =>
    simp only
    rw [absPath_take_drop segs k]
    unfold colonFix
    by_cases hc : s.getLast? = some ':'
    · rw [if_pos hc]
      have hlt : k < segs.length := by
        by_contra hge
        have hkeq : k = segs.length := by omega
        apply h
        refine ⟨hkeq, s, ?_, hc⟩
        rw [hkeq, List.take_length] at hl
        exact hl
      cases hd : segs.drop k with
      | nil =>
        have := congrArg List.length hd
        rw [List.length_drop] at this
        simp at this; omega
      | cons x r =>
        rw [absPath_cons]
        exact ⟨x ++ absPath r, by simp⟩
    · rw [if_neg hc, List.append_nil]
      exact List.prefix_append _ _

theorem crumbOf_colon_not_initial (segs : List CStr) (s : CStr) (hs : segs.getLast? = some s)
    (hc : s.getLast? = some ':') : ¬ crumbOf segs <+: absPath segs := by
  intro h
  have := h.length_le
  unfold crumbOf colonFix at this
  rw [hs] at this
  simp only [hc, if_true, List.length_append, List.length_singleton] at this
  omega

theorem length_slashed (segs : List CStr) : (slashed segs).length = segs.length := by
  induction segs with
  | nil => rfl
  | cons s t ih => rw [slashed, List.length_cons, List.length_cons, ih]

theorem getFolderInfoForSplitPathIndex_absPath (fi rv : FolderInfo) (segs : List CStr) (k : Nat)
    (hfull : fi.fullFolder = absPath segs) (hne : segs ≠ [])
    (hseg : ∀ s ∈ segs, s ≠ [] ∧ ∀ c ∈ s, isSep c = false) (hk : k ≤ segs.length) :
    fi.getFolderInfoForSplitPathIndex (k : Int) rv =
      (true, ⟨fi.fullFolder, crumbOf (segs.take k), (k : Int),
        FolderInfo.GetSplitPathIndexOfZipFile (Path.Split fi.fullFolder true)⟩) := by
  unfold FolderInfo.getFolderInfoForSplitPathIndex
  have hlen : (Path.Split fi.fullFolder true).length = segs.length + 1 := by
    rw [hfull, Split_absPath segs hne hseg, List.length_cons, length_slashed]
  have hcond : ¬ ((k : Int) < 0 ∨ (k : Int) ≥ ((Path.Split fi.fullFolder true).length : Int)) := by
    rw [hlen]; push_cast; omega
  simp only [hcond, if_false]
  have hnat : ((k : Int) + 1).toNat = k + 1 := by omega
  rw [hnat]
  have hc := crumb_eq segs hne hseg k hk
  rw [← hfull] at hc
  rw [hc]

theorem getSplitPathIndexFor_crumb (fi : FolderInfo) (segs : List CStr) (k : Nat)
    (hfull : fi.fullFolder = absPath segs) (hne : segs ≠ [])
    (hseg : ∀ s ∈ segs, s ≠ [] ∧ ∀ c ∈ s, isSep c = false) (hk : k ≤ segs.length)
    (h : ¬ (k = segs.length ∧ ∃ s, segs.getLast? = some s ∧ s.getLast? = some ':')) :
    fi.getSplitPathIndexFor (some (crumbOf (segs.take k))) = (k : Int) := by
  unfold FolderInfo.getSplitPathIndexFor
  simp only
  have hp : ¬ ¬ (crumbOf (segs.take k)).isPrefixOf fi.fullFolder = true := by
    rw [not_not, List.isPrefixOf_iff_prefix, hfull]
    exact crumbOf_initial segs hne k hk h
  rw [if_neg hp]
  have hlen : (Path.Split fi.fullFolder true).length = segs.length + 1 := by
    rw [hfull, Split_absPath segs hne hseg, List.length_cons, length_slashed]
  have := getSplitPathIndexFor_go_first (crumbOf (segs.take k)) (Path.Split fi.fullFolder true)
    [] 0 k (by rw [hlen]; omega) (by rw [hfull]; exact crumb_eq segs hne hseg k hk)
    (fun j hj => by
      rw [hfull, crumb_eq segs hne hseg j (by omega)]
      exact crumbOf_ne segs hseg j k hj hk)
  rw [this]
  simp

theorem getSplitPathIndexFor_crumb_colon (fi : FolderInfo) (segs : List CStr) (s : CStr)
    (hfull : fi.fullFolder = absPath segs) (hs : segs.getLast? = some s)
    (hc : s.getLast? = some ':') :
    fi.getSplitPathIndexFor (some (crumbOf segs)) = -1 := by
  unfold FolderInfo.getSplitPathIndexFor
  simp only
  have hnp : ¬ (crumbOf segs).isPrefixOf fi.fullFolder = true := by
    rw [ List.isPrefixOf_iff_prefix, hfull]
    exact crumbOf_colon_not_initial segs s hs hc
  rw [if_pos hnp]

/-- C28, as stated, fails: for `/a/c:` (segments `a` and `c:`) the jump to
index 2 gives the current folder `/a/c:/`, because `Path::Append` puts a `/`
after a segment ending in `:`, and looking that folder up returns `-1`. -/
theorem breadcrumb_of_colon_segment_not_found :
    absPath ["a".toList, "c:".toList] = "/a/c:".toList ∧
    (FolderInfo.getFolderInfoForSplitPathIndex ⟨"/a/c:".toList, "/a/c:".toList, 2, -1⟩ 2
        FolderInfo.reset) = (true, ⟨"/a/c:".toList, "/a/c:/".toList, 2, -1⟩) ∧
    FolderInfo.getSplitPathIndexFor ⟨"/a/c:".toList, "/a/c:".toList, 2, -1⟩
      (some "/a/c:/".toList) = -1 := by
  decide

/-- C28, amended: for a `FolderInfo` whose `fullFolder` is `/s1/.../sn` with
`n >= 1` and every `si` non-empty and free of separators, and for every
`k <= n`, `getFolderInfoForSplitPathIndex(k,rv)` returns true with
`rv.fullFolder` the same `fullFolder`, `rv.splitPathIndex = k` and
`rv.currentFolder` the path through segment `k` (the root `/` for `k = 0`;
followed by `/` when the segment ends in `:`); `getSplitPathIndexFor` of that
folder returns `k` again, except when `k = n` and `sn` ends in `:`, where it
returns `-1`. -/
theorem breadcrumb_jump_lookup_roundtrip (fi rv : FolderInfo) (segs : List CStr) (k : Nat)
    (hfull : fi.fullFolder = absPath segs) (hne : segs ≠ [])
    (hseg : ∀ s ∈ segs, s ≠ [] ∧ ∀ c ∈ s, isSep c = false) (hk : k ≤ segs.length) :
    (fi.getFolderInfoForSplitPathIndex (k : Int) rv).1 = true ∧
    (fi.getFolderInfoForSplitPathIndex (k : Int) rv).2.fullFolder = fi.fullFolder ∧
    (fi.getFolderInfoForSplitPathIndex (k : Int) rv).2.splitPathIndex = (k : Int) ∧
    (fi.getFolderInfoForSplitPathIndex (k : Int) rv).2.currentFolder = crumbOf (segs.take k) ∧
    (¬ (k = segs.length ∧ ∃ s, segs.getLast? = some s ∧ s.getLast? = some ':') →
      fi.getSplitPathIndexFor (some (fi.getFolderInfoForSplitPathIndex (k : Int) rv).2.currentFolder)
        = (k : Int)) ∧
    ((k = segs.length ∧ ∃ s, segs.getLast? = some s ∧ s.getLast? = some ':') →
      fi.getSplitPathIndexFor (some (fi.getFolderInfoForSplitPathIndex (k : Int) rv).2.currentFolder)
        = -1) := by
  rw [getFolderInfoForSplitPathIndex_absPath fi rv segs k hfull hne hseg hk]
  refine ⟨rfl, rfl, rfl, rfl, ?_, ?_⟩
  · intro h
    exact getSplitPathIndexFor_crumb fi segs k hfull hne hseg hk h
  · rintro ⟨hkeq, s, hs, hc⟩
    rw [hkeq, List.take_length]
    exact getSplitPathIndexFor_crumb_colon fi segs s hfull hs hc

/-- The path `/usr/lib` and its breadcrumb segment 1, the folder `/usr`. -/
theorem breadcrumb_jump_lookup_roundtrip_witness :
    (FolderInfo.getFolderInfoForSplitPathIndex ⟨"/usr/lib".toList, "/usr/lib".toList, 2, -1⟩
        ((1 : Nat) : Int) FolderInfo.reset).2.currentFolder
      = crumbOf (["usr".toList, "lib".toList].take 1) ∧
    FolderInfo.getSplitPathIndexFor ⟨"/usr/lib".toList, "/usr/lib".toList, 2, -1⟩
      (some (FolderInfo.getFolderInfoForSplitPathIndex ⟨"/usr/lib".toList, "/usr/lib".toList, 2, -1⟩
        ((1 : Nat) : Int) FolderInfo.reset).2.currentFolder) = ((1 : Nat) : Int) :=
  have h := breadcrumb_jump_lookup_roundtrip ⟨"/usr/lib".toList, "/usr/lib".toList, 2, -1⟩
    FolderInfo.reset ["usr".toList, "lib".toList] 1 (by decide) (by decide) (by decide) (by decide)
  ⟨h.2.2.2.1, h.2.2.2.2.1 (by decide)⟩

/-! ## Switching to the current folder -/

theorem strcasecmp_antisymm : ∀ (a b : CStr), strcasecmp b a = -strcasecmp a b := by
  intro a
  induction a with
  | nil =>
    intro b
    cases b with
    | nil => simp [strcasecmp]
    | cons y b => simp [strcasecmp]
  | cons x a ih =>
    intro b
    cases b with
    | nil => simp [strcasecmp]
    | cons y b =>
      rw [strcasecmp, strcasecmp]
      by_cases h : tolower x = tolower y
      · rw [if_pos h, if_pos h.symm]; exact ih b
      · rw [if_neg h, if_neg (fun h2 => h h2.symm)]; omega

theorem archive_Typesort_antisymm (a b : unz_file_info64_plus) :
    unz_file_info64_plus.Typesort b a = -unz_file_info64_plus.Typesort a b := by
  unfold unz_file_info64_plus.Typesort
  cases ha : strrchr a.name '.' <;> cases hb : strrchr b.name '.' <;> simp
  exact strcasecmp_antisymm _ _

theorem archive_Typesortinverse_eq (a b : unz_file_info64_plus) :
    unz_file_info64_plus.Typesortinverse a b =
      if strrchr a.name '.' = none ∧ strrchr b.name '.' ≠ none then -1
      else -unz_file_info64_plus.Typesort a b := by
  unfold unz_file_info64_plus.Typesortinverse unz_file_info64_plus.Typesort
  cases ha : strrchr a.name '.' <;> cases hb : strrchr b.name '.' <;> simp

/-- C30 fails on the code: for `README` (no dot) and `notes.txt` the archive
comparators `Typesort` and `Typesortinverse` both return `-1`, and
`Typesortinverse` returns `-1` in both orders; the `SortingHelper` comparator
of the same name returns `1` and `-1`. `Typesort` itself is antisymmetric, and
`Typesortinverse` is its negation except when the first name has no dot and
the second has one. -/
theorem archive_Typesortinverse_same_sign :
    unz_file_info64_plus.Typesort ⟨⟨0, 0, 0, 0⟩, "README".toList, "README".toList⟩
      ⟨⟨0, 0, 0, 0⟩, "notes.txt".toList, "notes.txt".toList⟩ = -1 ∧
    unz_file_info64_plus.Typesortinverse ⟨⟨0, 0, 0, 0⟩, "README".toList, "README".toList⟩
      ⟨⟨0, 0, 0, 0⟩, "notes.txt".toList, "notes.txt".toList⟩ = -1 ∧
    unz_file_info64_plus.Typesortinverse ⟨⟨0, 0, 0, 0⟩, "notes.txt".toList, "notes.txt".toList⟩
      ⟨⟨0, 0, 0, 0⟩, "README".toList, "README".toList⟩ = -1 ∧
    SortingHelper.Typesort "README".toList "notes.txt".toList = -1 ∧
    SortingHelper.Typesortinverse "README".toList "notes.txt".toList = 1 ∧
    SortingHelper.Typesortinverse "notes.txt".toList "README".toList = -1 ∧
    (∀ a b : unz_file_info64_plus,
      unz_file_info64_plus.Typesort b a = -unz_file_info64_plus.Typesort a b) ∧
    (∀ a b : unz_file_info64_plus,
      unz_file_info64_plus.Typesortinverse a b =
        if strrchr a.name '.' = none ∧ strrchr b.name '.' ≠ none then -1
        else -unz_file_info64_plus.Typesort a b) :=
  ⟨by decide, by decide, by decide, by decide, by decide, by decide,
   archive_Typesort_antisymm, archive_Typesortinverse_eq⟩

end ImGuiFs
